import Mathlib

/-!
Verification development for the Shenzhen-solitaire game-state engine
(`src/lib/store.ts`).  The engine is a pure reducer over an immutable
`GameState`; every exported command (`moveCard`, `collectDragons`,
`performWandMove`, `triggerAutoMove`, `undo`) is translated here as a Lean
function on a faithful embedding of the state.

Identifier encoding: in the source every card is addressed by a unique id
string (`normal-<color>-<value>`, `dragon-<color>-<0..3>`,
`dragon-<color>-locked`, `flower`).  The constructors of `Card` below are in
bijection with these id strings, so id-string equality in the source is
exactly `Card` equality here.  Target ids (`col-<i>`, `free-<i>`,
`foundation-<x>`) are parsed by the source with `startsWith`/`split`/
`parseInt`; the inductive `Target` records the outcome of that parse,
including the `parseInt` failure (`NaN`, modelled as `none`) and unknown
prefixes (`Target.invalid`).  `Date.now()` is passed in as an explicit
`now` argument.
-/

namespace Shenzhen

/-- Colors of the three suits; the dragon colors coincide (`types.ts`). -/
inductive CardColor
  | green
  | red
  | black
deriving DecidableEq, Repr

/-- Card values, in bijection with the id strings produced by `createDeck`
plus the synthetic locked marker written by `collectDragons`. -/
inductive Card
  | normal (color : CardColor) (value : Nat)
  | dragon (color : CardColor) (idx : Nat)
  | lockedDragon (color : CardColor)
  | flower
deriving DecidableEq, Repr

/-- Whether the card's `isLocked` field is truthy: only the synthetic
`dragon-<color>-locked` marker carries `isLocked: true`. -/
def Card.isLockedB : Card → Bool
  | .lockedDragon _ => true
  | _ => false

/-- Whether `card.kind === 'dragon'` (both loose dragons and the marker). -/
def Card.isDragonKind : Card → Bool
  | .dragon _ _ => true
  | .lockedDragon _ => true
  | _ => false

/-- The `foundations` record: per-suit rank counter plus the flower flag. -/
structure Foundations where
  green : Nat
  red : Nat
  black : Nat
  flower : Bool
deriving DecidableEq, Repr

/-- Read the per-suit counter (`foundations[color]`). -/
def Foundations.getC (f : Foundations) : CardColor → Nat
  | .green => f.green
  | .red => f.red
  | .black => f.black

/-- Write the per-suit counter (`foundations[color] = v`). -/
def Foundations.setC (f : Foundations) : CardColor → Nat → Foundations
  | .green, v => { f with green := v }
  | .red, v => { f with red := v }
  | .black, v => { f with black := v }

/-- The `dragons` record: per-color collected flag (0 or 1). -/
structure Dragons where
  green : Nat
  red : Nat
  black : Nat
deriving DecidableEq, Repr

/-- Read `dragons[color]`. -/
def Dragons.getC (d : Dragons) : CardColor → Nat
  | .green => d.green
  | .red => d.red
  | .black => d.black

/-- Write `dragons[color] = v`. -/
def Dragons.setC (d : Dragons) : CardColor → Nat → Dragons
  | .green, v => { d with green := v }
  | .red, v => { d with red := v }
  | .black, v => { d with black := v }

/-- The `GameStatus` union. -/
inductive GameStatus
  | idle
  | playing
  | paused
  | won
deriving DecidableEq, Repr

/-- One history entry: `Omit<GameState, 'history' | 'status'> & {isAuto?}`. -/
structure Snapshot where
  columns : List (List Card)
  freeCells : List (Option Card)
  foundations : Foundations
  dragons : Dragons
  devMode : Bool
  gameId : Nat
  startTime : Option Int
  elapsedTime : Int
  timerRunning : Bool
  isTimerVisible : Bool
  isAuto : Bool
deriving DecidableEq, Repr

/-- The root `GameState` of the store. -/
structure GameState where
  columns : List (List Card)
  freeCells : List (Option Card)
  foundations : Foundations
  dragons : Dragons
  status : GameStatus
  history : List Snapshot
  devMode : Bool
  gameId : Nat
  startTime : Option Int
  elapsedTime : Int
  timerRunning : Bool
  isTimerVisible : Bool
deriving DecidableEq, Repr

/-- Snapshot of the current state pushed onto `history` (the object literal
built at e.g. lines 416-428, 559-571, 841-853 of `store.ts`). -/
def mkSnapshot (s : GameState) (auto : Bool) : Snapshot :=
  { columns := s.columns, freeCells := s.freeCells, foundations := s.foundations,
    dragons := s.dragons, devMode := s.devMode, gameId := s.gameId,
    startTime := s.startTime, elapsedTime := s.elapsedTime,
    timerRunning := s.timerRunning, isTimerVisible := s.isTimerVisible,
    isAuto := auto }

/-- Stacking rule `canStack(bottomCard, topCard)`: both normal, value one
apart, different colors. -/
def canStack (bottom top : Card) : Bool :=
  match bottom, top with
  | .normal bc bv, .normal tc tv => bv == tv + 1 && bc != tc
  | _, _ => false

/-- Win condition checked after every mutation (e.g. lines 495, 775, 868):
all three suit foundations at 9, flower placed, all three dragons collected. -/
def winCondF (f : Foundations) (d : Dragons) : Bool :=
  f.green == 9 && f.red == 9 && f.black == 9 && f.flower &&
    d.green == 1 && d.red == 1 && d.black == 1

/-! ## Auto-cascade engine (`autoMoveOnes`, lines 791-874) -/

/-- Where an auto-move takes its card from. -/
inductive MoveSrc
  | col
  | free
deriving DecidableEq, Repr

/-- One entry of the `moves` array collected in a pass of `autoMoveOnes`. -/
structure AutoMv where
  source : MoveSrc
  index : Nat
  card : Card
deriving DecidableEq, Repr

/-- The trivial-movable test of the cascade (lines 804 and 813): a normal
card of value 1, or the flower when the foundations were full at entry
(`isFoundationFull`) or the flower foundation is currently unset. -/
def trivialMovable (isFull flowerFlag : Bool) (c : Card) : Bool :=
  (match c with
   | .normal _ v => v == 1
   | _ => false) ||
  ((c == .flower) && (isFull || !flowerFlag))

/-- The `moves` list collected in one pass: free cells first (lines
802-808), then column tops (lines 810-817). -/
def passMoves (isFull : Bool) (s : GameState) : List AutoMv :=
  (s.freeCells.enum.filterMap fun p =>
    match p.2 with
    | some c =>
        if trivialMovable isFull s.foundations.flower c then
          some ⟨.free, p.1, c⟩
        else none
    | none => none)
  ++ (s.columns.enum.filterMap fun p =>
    match p.2.getLast? with
    | some c =>
        if trivialMovable isFull s.foundations.flower c then
          some ⟨.col, p.1, c⟩
        else none
    | none => none)

/-- Foundation update applied per move (lines 830-835): a normal card sets
its suit counter to 1, the flower sets the flower flag. -/
def updFound (c : Card) (f : Foundations) : Foundations :=
  match c with
  | .normal color _ => f.setC color 1
  | .flower => { f with flower := true }
  | _ => f

/-- Board accumulator of a pass: columns, free cells, foundations. -/
structure BoardF where
  cols : List (List Card)
  cells : List (Option Card)
  founds : Foundations
deriving DecidableEq, Repr

/-- Apply one collected move (lines 824-836): pop the column or clear the
free cell, then update the foundation record. -/
def applyAutoMv (b : BoardF) (m : AutoMv) : BoardF :=
  match m.source with
  | .col => { b with cols := b.cols.set m.index ((b.cols.getD m.index []).dropLast),
                     founds := updFound m.card b.founds }
  | .free => { b with cells := b.cells.set m.index none,
                      founds := updFound m.card b.founds }

/-- One iteration of the `while (moved)` loop of `autoMoveOnes`: collect
the moves, apply them all, and push one `isAuto=true` snapshot unless the
history is empty (lines 838-855).  When no move is found the state is
returned unchanged (the loop exits). -/
def passStep (isFull : Bool) (s : GameState) : GameState :=
  let moves := passMoves isFull s
  if moves.isEmpty then s
  else
    let b := moves.foldl applyAutoMv ⟨s.columns, s.freeCells, s.foundations⟩
    let newHistory :=
      if s.history.isEmpty then s.history
      else s.history ++ [mkSnapshot s true]
    { s with columns := b.cols, freeCells := b.cells, foundations := b.founds,
             history := newHistory }

/-- Number of cards a free cell holds (0 or 1). -/
def cellOcc : Option Card → Nat
  | some _ => 1
  | none => 0

/-- Number of cards held by a board accumulator; the termination measure of
the cascade loop. -/
def countB (b : BoardF) : Nat :=
  (b.cols.map List.length).sum + (b.cells.map cellOcc).sum

/-- Number of cards held in the columns and free cells of a state. -/
def boardCount (s : GameState) : Nat :=
  countB ⟨s.columns, s.freeCells, s.foundations⟩

/-- Setting an element of a list changes a mapped sum by swapping the value
of `f` at that position. -/
theorem mapSum_set {α : Type} (f : α → Nat) (l : List α) (i : Nat) (a : α)
    (h : i < l.length) :
    ((l.set i a).map f).sum + f (l.get ⟨i, h⟩) = (l.map f).sum + f a := by
  induction l generalizing i with
  | nil => simp at h
  | cons x xs ih =>
    cases i with
    | zero => simp [List.set]; omega
    | succ n =>
      have hn : n < xs.length := by simpa using h
      have := ih n hn
      simp only [List.set, List.map_cons, List.sum_cons, List.get_cons_succ]
      omega

/-- Reading the just-set position of a list. -/
theorem getD_set_eq {α : Type} (l : List α) (i : Nat) (a d : α)
    (h : i < l.length) : (l.set i a).getD i d = a := by
  simp [List.getD_eq_getElem?_getD, List.getElem?_set_self', List.getElem?_eq_getElem h]

/-- Reading an untouched position of a set list. -/
theorem getD_set_ne {α : Type} (l : List α) {i j : Nat} (a : α) (d : α)
    (h : i ≠ j) : (l.set i a).getD j d = l.getD j d := by
  simp [List.getD_eq_getElem?_getD, List.getElem?_set_ne h]

/-- Applying one collected move never increases the held-card count. -/
theorem applyAutoMv_le (b : BoardF) (m : AutoMv) :
    countB (applyAutoMv b m) ≤ countB b := by
  cases hs : m.source with
  | col =>
    simp only [applyAutoMv, hs, countB]
    by_cases h : m.index < b.cols.length
    · have := mapSum_set List.length b.cols m.index ((b.cols.getD m.index []).dropLast) h
      have hget : b.cols.get ⟨m.index, h⟩ = b.cols.getD m.index [] :=
        (List.getD_eq_getElem b.cols [] h).symm
      rw [hget] at this
      have hlen : ((b.cols.getD m.index []).dropLast).length ≤ (b.cols.getD m.index []).length := by
        simp [List.length_dropLast]
      omega
    · rw [List.set_eq_of_length_le (by omega)]
  | free =>
    simp only [applyAutoMv, hs, countB]
    by_cases h : m.index < b.cells.length
    · have := mapSum_set cellOcc b.cells m.index none h
      have : ((b.cells.set m.index none).map cellOcc).sum ≤ (b.cells.map cellOcc).sum := by
        have hc : cellOcc none = 0 := rfl
        omega
      omega
    · rw [List.set_eq_of_length_le (by omega)]

/-- Folding the collected moves never increases the held-card count. -/
theorem foldl_applyAutoMv_le (ms : List AutoMv) (b : BoardF) :
    countB (ms.foldl applyAutoMv b) ≤ countB b := by
  induction ms generalizing b with
  | nil => simp
  | cons m rest ih =>
    calc countB ((m :: rest).foldl applyAutoMv b)
        = countB (rest.foldl applyAutoMv (applyAutoMv b m)) := rfl
      _ ≤ countB (applyAutoMv b m) := ih _
      _ ≤ countB b := applyAutoMv_le b m

/-- A column move collected by a pass points at an in-range column whose
top card is the recorded, trivially-movable card. -/
theorem passMoves_mem_col {isFull : Bool} {s : GameState} {m : AutoMv}
    (hm : m ∈ passMoves isFull s) (hc : m.source = .col) :
    m.index < s.columns.length ∧
      (s.columns.getD m.index []).getLast? = some m.card ∧
      trivialMovable isFull s.foundations.flower m.card = true := by
  rcases List.mem_append.mp hm with h | h
  · rcases List.mem_filterMap.mp h with ⟨p, _, hf⟩
    rcases p with ⟨i, oc⟩
    cases oc with
    | some c =>
      by_cases ht : trivialMovable isFull s.foundations.flower c = true
      · simp only [ht, if_pos] at hf
        cases hf
        simp at hc
      · simp [ht] at hf
    | none => simp at hf
  · rcases List.mem_filterMap.mp h with ⟨p, hp, hf⟩
    rcases p with ⟨i, col⟩
    cases hl : col.getLast? with
    | some c =>
      rw [hl] at hf
      by_cases ht : trivialMovable isFull s.foundations.flower c = true
      · simp only [ht, if_pos] at hf
        cases hf
        have hp' := List.mem_enum_iff_getElem?.mp hp
        have hi : i < s.columns.length := by
          by_contra hge
          rw [List.getElem?_eq_none (by omega)] at hp'
          exact Option.noConfusion hp'
        have hcol : s.columns.getD i [] = col := by
          rw [List.getD_eq_getElem?_getD, hp']
          rfl
        exact ⟨hi, by rw [hcol]; exact hl, ht⟩
      · simp [ht] at hf
    | none => rw [hl] at hf; simp at hf

/-- A free-cell move collected by a pass points at an in-range occupied
cell holding the recorded, trivially-movable card. -/
theorem passMoves_mem_free {isFull : Bool} {s : GameState} {m : AutoMv}
    (hm : m ∈ passMoves isFull s) (hc : m.source = .free) :
    m.index < s.freeCells.length ∧
      s.freeCells.getD m.index none = some m.card ∧
      trivialMovable isFull s.foundations.flower m.card = true := by
  rcases List.mem_append.mp hm with h | h
  · rcases List.mem_filterMap.mp h with ⟨p, hp, hf⟩
    rcases p with ⟨i, oc⟩
    cases oc with
    | some c =>
      by_cases ht : trivialMovable isFull s.foundations.flower c = true
      · simp only [ht, if_pos] at hf
        cases hf
        have hp' := List.mem_enum_iff_getElem?.mp hp
        have hi : i < s.freeCells.length := by
          by_contra hge
          rw [List.getElem?_eq_none (by omega)] at hp'
          exact Option.noConfusion hp'
        refine ⟨hi, ?_, ht⟩
        rw [List.getD_eq_getElem?_getD, hp']
        rfl
      · simp [ht] at hf
    | none => simp at hf
  · rcases List.mem_filterMap.mp h with ⟨p, _, hf⟩
    rcases p with ⟨i, col⟩
    cases hl : col.getLast? with
    | some c =>
      rw [hl] at hf
      by_cases ht : trivialMovable isFull s.foundations.flower c = true
      · simp only [ht, if_pos] at hf
        cases hf
        simp at hc
      · simp [ht] at hf
    | none => rw [hl] at hf; simp at hf

/-- Applying the first collected move strictly decreases the held-card
count: its source location is untouched and holds a card. -/
theorem applyAutoMv_head_lt {isFull : Bool} {s : GameState} {m : AutoMv}
    (hm : m ∈ passMoves isFull s) :
    countB (applyAutoMv ⟨s.columns, s.freeCells, s.foundations⟩ m) <
      countB ⟨s.columns, s.freeCells, s.foundations⟩ := by
  cases hs : m.source with
  | col =>
    obtain ⟨hi, htop, -⟩ := passMoves_mem_col hm hs
    simp only [applyAutoMv, hs, countB]
    have := mapSum_set List.length s.columns m.index
      ((s.columns.getD m.index []).dropLast) hi
    have hget : s.columns.get ⟨m.index, hi⟩ = s.columns.getD m.index [] :=
      (List.getD_eq_getElem s.columns [] hi).symm
    rw [hget] at this
    have hne : s.columns.getD m.index [] ≠ [] := by
      intro hcontra
      rw [hcontra] at htop
      exact Option.noConfusion htop
    have hlen : ((s.columns.getD m.index []).dropLast).length <
        (s.columns.getD m.index []).length := by
      rw [List.length_dropLast]
      have := List.length_pos.mpr hne
      omega
    omega
  | free =>
    obtain ⟨hi, hcell, -⟩ := passMoves_mem_free hm hs
    simp only [applyAutoMv, hs, countB]
    have := mapSum_set cellOcc s.freeCells m.index none hi
    have hget : s.freeCells.get ⟨m.index, hi⟩ = s.freeCells.getD m.index none :=
      (List.getD_eq_getElem s.freeCells none hi).symm
    rw [hget, hcell] at this
    have h1 : cellOcc (some m.card) = 1 := rfl
    have h0 : cellOcc none = 0 := rfl
    omega

/-- A pass that collects at least one move strictly decreases the number
of cards held in columns and free cells. -/
theorem pass_decreases {isFull : Bool} {s : GameState}
    (h : passMoves isFull s ≠ []) :
    boardCount (passStep isFull s) < boardCount s := by
  have hcount : boardCount (passStep isFull s) =
      countB ((passMoves isFull s).foldl applyAutoMv
        ⟨s.columns, s.freeCells, s.foundations⟩) := by
    unfold passStep
    rw [if_neg (by simpa using h)]
    rfl
  rw [hcount]
  cases hms : passMoves isFull s with
  | nil => exact absurd hms h
  | cons m rest =>
    have hmem : m ∈ passMoves isFull s := by rw [hms]; exact List.mem_cons_self m rest
    calc countB ((m :: rest).foldl applyAutoMv ⟨s.columns, s.freeCells, s.foundations⟩)
        = countB (rest.foldl applyAutoMv
            (applyAutoMv ⟨s.columns, s.freeCells, s.foundations⟩ m)) := rfl
      _ ≤ countB (applyAutoMv ⟨s.columns, s.freeCells, s.foundations⟩ m) :=
          foldl_applyAutoMv_le _ _
      _ < countB ⟨s.columns, s.freeCells, s.foundations⟩ := applyAutoMv_head_lt hmem


/-- Fuel-indexed fixed-point loop of `autoMoveOnes` (lines 798-866):
repeat passes until one collects no move.  Each continuing pass strictly
decreases `boardCount` (`pass_decreases`), so fuel `boardCount s + 1`
makes the recursion reach the fixed point (`autoMoveGo_fix`) and the
bounded loop agrees with the source's unbounded `while`. -/
def autoMoveGo (isFull : Bool) : Nat → GameState → GameState
  | 0, s => s
  | fuel + 1, s =>
    if (passMoves isFull s).isEmpty then s
    else autoMoveGo isFull fuel (passStep isFull s)

/-- The `while (moved)` loop of `autoMoveOnes`, with sufficient fuel. -/
def autoMoveLoop (isFull : Bool) (s : GameState) : GameState :=
  autoMoveGo isFull (boardCount s + 1) s

/-- With fuel exceeding the held-card count the loop reaches the fixed
point: the final state admits no further pass. -/
theorem autoMoveGo_fix (isFull : Bool) :
    ∀ (fuel : Nat) (s : GameState), boardCount s < fuel →
      passMoves isFull (autoMoveGo isFull fuel s) = [] := by
  intro fuel
  induction fuel with
  | zero => intro s h; omega
  | succ n ih =>
    intro s h
    unfold autoMoveGo
    by_cases he : (passMoves isFull s).isEmpty
    · rw [if_pos he]
      exact List.isEmpty_iff.mp he
    · rw [if_neg he]
      refine ih _ ?_
      have := @pass_decreases isFull s
        (by simpa [List.isEmpty_iff] using he)
      omega

/-- The auto-cascade engine `autoMoveOnes` (lines 791-874):
`isFoundationFull` is computed once at entry, the pass loop runs to a fixed
point, and the win condition is re-checked at the end (setting `status` to
`won` and clearing `timerRunning`). -/
def autoMoveOnes (state : GameState) : GameState :=
  let isFull := state.foundations.green == 9 && state.foundations.red == 9 &&
    state.foundations.black == 9
  let c := autoMoveLoop isFull state
  if winCondF c.foundations c.dragons then
    { c with status := .won, timerRunning := false }
  else c

/-! ## Move resolver (`moveCard`, lines 367-513) -/

/-- Result of parsing the `targetId` string (lines 404-414).  `col`/`free`
carry the `parseInt` result of the second dash-separated segment (`none`
models `NaN`); `foundation` carries the segment after `foundation-`;
`invalid` is a string with none of the three recognized prefixes (the
`target` variable stays `undefined` and the move is a no-op). -/
inductive FoundationId
  | green
  | red
  | black
  | flower
  | other
deriving DecidableEq, Repr

/-- Parsed destination identifier; see `FoundationId`. -/
inductive Target
  | col (idx : Option Nat)
  | free (idx : Option Nat)
  | foundation (fid : FoundationId)
  | invalid
deriving DecidableEq, Repr

/-- Location of the card named by `cardId`. -/
inductive Source
  | col (i : Nat)
  | free (i : Nat)
deriving DecidableEq, Repr

/-- Card search of `moveCard` (lines 381-400): columns are scanned first
(any position within a column matches), then the free cells. -/
def findSource (s : GameState) (cardId : Card) : Option Source :=
  match s.columns.findIdx? (fun col => col.contains cardId) with
  | some i => some (.col i)
  | none =>
    match s.freeCells.findIdx? (fun c => c == some cardId) with
    | some i => some (.free i)
    | none => none

/-- JS read `cells[idx]` for a possibly out-of-range or `NaN` index:
`undefined` behaves as `none` in the truthiness tests the source performs. -/
def jsGetCell (l : List (Option Card)) : Option Nat → Option Card
  | some j => l.getD j none
  | none => none

/-- JS write `cells[idx] = v`.  An in-range index replaces the slot; an
out-of-range numeric index extends the array with holes (the card leaves
the three real cells); index `NaN` sets a non-index property, leaving the
elements unchanged (the card is lost). -/
def jsSetCell (l : List (Option Card)) (i : Option Nat) (v : Card) :
    List (Option Card) :=
  match i with
  | none => l
  | some j =>
    if j < l.length then l.set j (some v)
    else l ++ List.replicate (j - l.length) none ++ [some v]

/-- Internal stacking check of a moving unit (lines 440-444): every
adjacent pair must satisfy `canStack`. -/
def validRun : List Card → Bool
  | a :: b :: rest => canStack a b && validRun (b :: rest)
  | _ => true

/-- Source extraction (lines 435-451): slice the moving unit off a column
(rejecting an invalid run outside `devMode`, modelled as `none`) or take
the single card out of its free cell. -/
def movePrep (state : GameState) (cardId : Card) :
    Source → Option (List (List Card) × List (Option Card) × List Card)
  | .col i =>
    let col := state.columns.getD i []
    let cardIndex := col.findIdx (· == cardId)
    let cardsToMove := col.drop cardIndex
    if !state.devMode && !validRun cardsToMove then none
    else some (state.columns.set i (col.take cardIndex), state.freeCells, cardsToMove)
  | .free i => some (state.columns, state.freeCells.set i none, [cardId])

/-- Target application (lines 453-491) on the board left by `movePrep`:
`.error ()` models the `TypeError` thrown when the parsed column index is
`NaN` or out of range (reading `.length` of `undefined`, line 455);
`.ok none` models the validation no-ops (`return state`). -/
def moveApply (state : GameState) (cardId : Card) (target : Target)
    (columns1 : List (List Card)) (cells1 : List (Option Card))
    (cardsToMove : List Card) :
    Except Unit (Option (List (List Card) × List (Option Card) × Foundations)) :=
  match target with
  | .col tIdx =>
    match tIdx with
    | none => .error ()
    | some j =>
      if j < columns1.length then
        let targetCol := columns1.getD j []
        if targetCol.length > 0 && !state.devMode &&
            !canStack (targetCol.getLastD Card.flower) (cardsToMove.headD cardId) then
          .ok none
        else
          .ok (some (columns1.set j (targetCol ++ cardsToMove), cells1, state.foundations))
      else .error ()
  | .free tIdx =>
    let targetCard := jsGetCell state.freeCells tIdx
    if targetCard.elim false Card.isLockedB then .ok none
    else if cardsToMove.length == 1 && ((jsGetCell cells1 tIdx).isNone || state.devMode) then
      .ok (some (columns1, jsSetCell cells1 tIdx (cardsToMove.headD cardId), state.foundations))
    else .ok none
  | .foundation fid =>
    if cardsToMove.length == 1 then
      match fid, cardsToMove.headD cardId with
      | .flower, .flower =>
        .ok (some (columns1, cells1, { state.foundations with flower := true }))
      | .green, .normal .green v =>
        if v == state.foundations.green + 1 || state.devMode then
          .ok (some (columns1, cells1, state.foundations.setC .green v))
        else .ok none
      | .red, .normal .red v =>
        if v == state.foundations.red + 1 || state.devMode then
          .ok (some (columns1, cells1, state.foundations.setC .red v))
        else .ok none
      | .black, .normal .black v =>
        if v == state.foundations.black + 1 || state.devMode then
          .ok (some (columns1, cells1, state.foundations.setC .black v))
        else .ok none
      | _, _ => .ok none
    else .ok none
  | .invalid => .ok none

/-- The committed state of a successful move before the cascade (lines
371-376, 416-428, 493-511): start the timer on the first move of a playing
game, push the pre-move `isAuto=false` snapshot, install the new board and
apply the win check (clearing the timer on a win). -/
def moveCommit (state : GameState) (now : Int) (newColumns : List (List Card))
    (newFreeCells : List (Option Card)) (newFoundations : Foundations) :
    GameState :=
  let startTimer : Prop := ¬state.timerRunning ∧ state.status = GameStatus.playing
  let timerRunning := if startTimer then true else state.timerRunning
  let startTime := if startTimer then some (now - state.elapsedTime) else state.startTime
  let won := winCondF newFoundations state.dragons
  { state with
    columns := newColumns, freeCells := newFreeCells,
    foundations := newFoundations,
    history := state.history ++ [mkSnapshot state false],
    status := if won then GameStatus.won else state.status,
    timerRunning := if won then false else timerRunning,
    startTime := startTime }

/-- The move resolver `moveCard(cardId, targetId, skipAutoMove)` (lines
367-513), returning `.error ()` where the JS code throws a `TypeError`.
`now` stands for `Date.now()`. -/
def moveCardE (state : GameState) (cardId : Card) (target : Target)
    (skipAutoMove : Bool) (now : Int) : Except Unit GameState :=
  if state.status ≠ GameStatus.playing ∧ state.devMode = false then .ok state else
  match findSource state cardId with
  | none => .ok state
  | some source =>
    if target = Target.invalid then .ok state else
    match movePrep state cardId source with
    | none => .ok state
    | some (columns1, cells1, cardsToMove) =>
      match moveApply state cardId target columns1 cells1 cardsToMove with
      | .error e => .error e
      | .ok none => .ok state
      | .ok (some (newColumns, newFreeCells, newFoundations)) =>
        let nextState := moveCommit state now newColumns newFreeCells newFoundations
        .ok (if skipAutoMove then nextState else autoMoveOnes nextState)

/-- The state held by the store after `moveCard`: an exception thrown
inside the `setState` updater aborts the update, so the store keeps its
previous state. -/
def moveCardRun (state : GameState) (cardId : Card) (target : Target)
    (skipAutoMove : Bool) (now : Int) : GameState :=
  match moveCardE state cardId target skipAutoMove now with
  | .ok s => s
  | .error _ => state

/-! ## Dragon collector (`collectDragons`, lines 515-601) -/

/-- Location of one dragon found by `collectDragons`. -/
inductive DLoc
  | col (i : Nat)
  | free (i : Nat)
deriving DecidableEq, Repr

/-- The four dragon ids of a color (line 521). -/
def dragonIds (color : CardColor) : List Card :=
  [.dragon color 0, .dragon color 1, .dragon color 2, .dragon color 3]

/-- Search for one dragon id (lines 524-538): free cells first, then the
top card of each column. -/
def findDragon (s : GameState) (d : Card) : Option DLoc :=
  match s.freeCells.findIdx? (· == some d) with
  | some i => some (.free i)
  | none =>
    match s.columns.findIdx? (fun col => col.getLast? == some d) with
    | some i => some (.col i)
    | none => none

/-- Location-gathering loop over the four dragon ids (lines 524-540):
`none` models the early `return state` taken when a dragon is not exposed
outside `devMode`; in `devMode` a missing dragon is skipped. -/
def gatherDragonLocs (s : GameState) : List Card → Option (List DLoc)
  | [] => some []
  | d :: rest =>
    match findDragon s d with
    | some loc => (gatherDragonLocs s rest).map (loc :: ·)
    | none => if s.devMode then gatherDragonLocs s rest else none

/-- Remove the located dragons (lines 577-583): pop each column location,
clear each free-cell location. -/
def removeDLocs (locs : List DLoc) (b : List (List Card) × List (Option Card)) :
    List (List Card) × List (Option Card) :=
  locs.foldl
    (fun b loc =>
      match loc with
      | .col i => (b.1.set i ((b.1.getD i []).dropLast), b.2)
      | .free i => (b.1, b.2.set i none))
    b

/-- Target-slot selection of `collectDragons` (lines 544-557): the
lowest-indexed free cell already holding one of the located dragons (the
source sorts the occupied indices ascending and takes the first, i.e.
their minimum), else the first empty free cell. -/
def dragonTarget (state : GameState) (locations : List DLoc) : Option Nat :=
  let occupiedFreeIndices :=
    locations.filterMap fun l =>
      match l with
      | DLoc.free i => some i
      | DLoc.col _ => none
  match occupiedFreeIndices.min? with
  | some i => some i
  | none => state.freeCells.findIdx? (· == none)

/-- The dragon collector `collectDragons(color)` (lines 515-601).  The
target slot is the lowest-indexed free cell already holding one of the four
dragons (the source sorts the occupied indices and takes the first, i.e.
their minimum), else the first empty free cell; if neither exists the
operation is a no-op. -/
def collectDragons (state : GameState) (color : CardColor) : GameState :=
  if state.status ≠ GameStatus.playing ∧ state.devMode = false then state
  else if state.dragons.getC color > 0 then state
  else
    match gatherDragonLocs state (dragonIds color) with
    | none => state
    | some locations =>
      if locations.length ≠ 4 ∧ state.devMode = false then state
      else
        match dragonTarget state locations with
        | none => state
        | some tIdx =>
          let historyEntry := mkSnapshot state false
          let b := removeDLocs locations (state.columns, state.freeCells)
          let newFreeCells := b.2.set tIdx (some (.lockedDragon color))
          autoMoveOnes
            { state with
              columns := b.1, freeCells := newFreeCells,
              dragons := state.dragons.setC color 1,
              history := state.history ++ [historyEntry] }

/-! ## Auto-solver (`performWandMove`, lines 684-789) -/

/-- One location found by the wand move (the source also records the card
id, which the apply phase never reads). -/
structure WandLoc where
  source : MoveSrc
  index : Nat
  color : CardColor
deriving DecidableEq, Repr

/-- Free-cell test of the wand search (line 709). -/
def isWandCell (color : CardColor) (nextRank : Nat) : Option Card → Bool
  | some (.normal c v) => c == color && v == nextRank
  | _ => false

/-- Column-top test of the wand search (lines 714-724). -/
def isWandCol (color : CardColor) (nextRank : Nat) (col : List Card) : Bool :=
  match col.getLast? with
  | some (.normal c v) => c == color && v == nextRank
  | _ => false

/-- Wand search for one color (lines 707-725): free cells first, then
column tops. -/
def findWandLoc (cur : GameState) (color : CardColor) (nextRank : Nat) :
    Option WandLoc :=
  match cur.freeCells.findIdx? (isWandCell color nextRank) with
  | some i => some (.mk .free i color)
  | none =>
    match cur.columns.findIdx? (isWandCol color nextRank) with
    | some i => some (.mk .col i color)
    | none => none

/-- Per-color gathering loop of the wand move (lines 704-731): a color
already at `nextRank` is skipped; `none` models `allAvailable = false`. -/
def gatherWandGo (cur : GameState) (nextRank : Nat) :
    List CardColor → List WandLoc → Option (List WandLoc)
  | [], locs => some locs
  | color :: rest, locs =>
    if cur.foundations.getC color ≥ nextRank then gatherWandGo cur nextRank rest locs
    else
      match findWandLoc cur color nextRank with
      | some l => gatherWandGo cur nextRank rest (locs ++ [l])
      | none => none

/-- Locations of all three colors for the next rank (order green, red,
black as in the source's `colors` array). -/
def gatherWandLocs (cur : GameState) (nextRank : Nat) : Option (List WandLoc) :=
  gatherWandGo cur nextRank [.green, .red, .black] []

/-- Apply one wand location (lines 754-761): remove the card and advance
its suit foundation to `nextRank`. -/
def applyWandLoc (nextRank : Nat) (b : BoardF) (l : WandLoc) : BoardF :=
  match l.source with
  | .col => { b with cols := b.cols.set l.index ((b.cols.getD l.index []).dropLast),
                     founds := b.founds.setC l.color nextRank }
  | .free => { b with cells := b.cells.set l.index none,
                      founds := b.founds.setC l.color nextRank }

/-- The `Math.min` of the three suit foundations (line 695). -/
def minFound (f : Foundations) : Nat := min (min f.green f.red) f.black

/-- All gathered locations carry colors from the color list, and every
color of the list is either gathered or already at `nextRank`. -/
theorem gatherWandGo_colors {cur : GameState} {nextRank : Nat}
    (colors : List CardColor) (acc : List WandLoc) (locs : List WandLoc)
    (h : gatherWandGo cur nextRank colors acc = some locs) :
    (∀ color ∈ colors,
      (∃ l ∈ locs, l.color = color) ∨ cur.foundations.getC color ≥ nextRank) ∧
      ∃ extra, locs = acc ++ extra := by
  induction colors generalizing acc with
  | nil =>
    simp only [gatherWandGo, Option.some.injEq] at h
    exact ⟨by simp, [], by simp [h]⟩
  | cons color rest ih =>
    simp only [gatherWandGo] at h
    by_cases hge : cur.foundations.getC color ≥ nextRank
    · rw [if_pos hge] at h
      obtain ⟨hall, extra, hex⟩ := ih acc h
      refine ⟨?_, extra, hex⟩
      intro c hc
      rcases List.mem_cons.mp hc with rfl | hc
      · exact Or.inr hge
      · exact hall c hc
    · rw [if_neg hge] at h
      cases hf : findWandLoc cur color nextRank with
      | none => rw [hf] at h; exact Option.noConfusion h
      | some l =>
        rw [hf] at h
        obtain ⟨hall, extra, hex⟩ := ih (acc ++ [l]) h
        have hlcol : l.color = color := by
          unfold findWandLoc at hf
          cases h1 : cur.freeCells.findIdx? (isWandCell color nextRank) with
          | some i => rw [h1] at hf; cases hf; rfl
          | none =>
            rw [h1] at hf
            cases h2 : cur.columns.findIdx? (isWandCol color nextRank) with
            | some i => rw [h2] at hf; cases hf; rfl
            | none => rw [h2] at hf; exact Option.noConfusion hf
        refine ⟨?_, [l] ++ extra, by simpa using hex⟩
        intro c hc
        rcases List.mem_cons.mp hc with rfl | hc
        · refine Or.inl ⟨l, ?_, hlcol⟩
          rw [hex]
          exact List.mem_append.mpr (Or.inl (List.mem_append.mpr (Or.inr (by simp))))
        · exact hall c hc

/-- Foundations component of the wand apply fold. -/
theorem applyWandLoc_founds (nextRank : Nat) (locs : List WandLoc) (b : BoardF) :
    (locs.foldl (applyWandLoc nextRank) b).founds =
      locs.foldl (fun f l => f.setC l.color nextRank) b.founds := by
  induction locs generalizing b with
  | nil => rfl
  | cons l rest ih =>
    cases hs : l.source <;>
      simp [List.foldl_cons, applyWandLoc, hs, ih]

/-- Reading the just-written suit counter. -/
theorem getC_setC_self (f : Foundations) (c : CardColor) (v : Nat) :
    (f.setC c v).getC c = v := by
  cases c <;> rfl

/-- Reading an untouched suit counter. -/
theorem getC_setC_ne (f : Foundations) {c c2 : CardColor} (v : Nat)
    (h : c ≠ c2) : (f.setC c v).getC c2 = f.getC c2 := by
  cases c <;> cases c2 <;> first
    | exact absurd rfl h
    | rfl

/-- A foundation color is at least `v` after folding `setC _ v` updates,
provided it was at least `v` or gets set. -/
theorem foldl_setC_ge (v : Nat) (locs : List WandLoc) (f : Foundations)
    (color : CardColor)
    (h : (∃ l ∈ locs, l.color = color) ∨ f.getC color ≥ v) :
    (locs.foldl (fun f l => f.setC l.color v) f).getC color ≥ v := by
  induction locs generalizing f with
  | nil =>
    rcases h with ⟨l, hl, -⟩ | h
    · simp at hl
    · simpa using h
  | cons l rest ih =>
    simp only [List.foldl_cons]
    rcases h with ⟨l', hl', hc⟩ | h
    · rcases List.mem_cons.mp hl' with rfl | hl'
      · by_cases hrest : ∃ l2 ∈ rest, WandLoc.color l2 = color
        · exact ih _ (Or.inl hrest)
        · refine ih _ (Or.inr ?_)
          rw [hc, getC_setC_self]
      · exact ih _ (Or.inl ⟨l', hl', hc⟩)
    · refine ih _ (Or.inr ?_)
      by_cases hc : l.color = color
      · rw [hc, getC_setC_self]
      · rw [getC_setC_ne f v hc]
        exact h

/-- After a successful gather-and-apply round, every suit foundation is at
least `nextRank`; hence `minFound` strictly increases. -/
theorem wandRound_minFound_ge {cur : GameState} {locs : List WandLoc}
    (hg : gatherWandLocs cur (minFound cur.foundations + 1) = some locs) :
    minFound ((locs.foldl (applyWandLoc (minFound cur.foundations + 1))
        ⟨cur.columns, cur.freeCells, cur.foundations⟩).founds) ≥
      minFound cur.foundations + 1 := by
  obtain ⟨hall, -⟩ := gatherWandGo_colors [.green, .red, .black] [] locs hg
  rw [applyWandLoc_founds]
  have hground := foldl_setC_ge (minFound cur.foundations + 1) locs cur.foundations
    .green (hall .green (by simp))
  have hred := foldl_setC_ge (minFound cur.foundations + 1) locs cur.foundations
    .red (hall .red (by simp))
  have hblack := foldl_setC_ge (minFound cur.foundations + 1) locs cur.foundations
    .black (hall .black (by simp))
  simp only [Foundations.getC] at hground hred hblack
  simp only [minFound] at hground hred hblack ⊢
  omega

/-- Fuel-indexed `while (moved)` loop of `performWandMove` (lines
692-771).  The returned flag records whether at least one round moved
(i.e. whether the source allocated `historyEntry`).  Each round strictly
raises the minimum foundation (`wandRound_minFound_ge`), which is at most
8 on entry to a continuing round, so fuel 10 makes the bounded loop agree
with the source's unbounded `while` (`wandGo_fuel_stable`). -/
def wandGo : Nat → GameState → GameState × Bool
  | 0, cur => (cur, false)
  | fuel + 1, cur =>
    let nextRank := minFound cur.foundations + 1
    if nextRank > 9 then (cur, false)
    else
      match gatherWandLocs cur nextRank with
      | none => (cur, false)
      | some locations =>
        if locations.isEmpty then (cur, false)
        else
          let b := locations.foldl (applyWandLoc nextRank)
            ⟨cur.columns, cur.freeCells, cur.foundations⟩
          let next := { cur with
            columns := b.cols, freeCells := b.cells,
            foundations := b.founds }
          ((wandGo fuel next).1, true)

/-- The wand loop with sufficient fuel. -/
def wandLoop (cur : GameState) : GameState × Bool :=
  wandGo 10 cur

/-- Fuel beyond `9 - minFound` is irrelevant: the bounded loop computes
the source's unbounded `while` loop. -/
theorem wandGo_fuel_stable :
    ∀ (fuel : Nat) (cur : GameState), 9 - minFound cur.foundations < fuel →
      wandGo (fuel + 1) cur = wandGo fuel cur := by
  intro fuel
  induction fuel with
  | zero => intro cur h; omega
  | succ n ih =>
    intro cur h
    show wandGo (n + 1 + 1) cur = wandGo (n + 1) cur
    unfold wandGo
    by_cases h9 : minFound cur.foundations + 1 > 9
    · simp only [h9, if_true]
    · simp only [h9, if_false]
      cases hg : gatherWandLocs cur (minFound cur.foundations + 1) with
      | none => rfl
      | some locations =>
        by_cases hE : locations.isEmpty
        · simp [hE]
        · simp only [hE, if_false]
          have hge := wandRound_minFound_ge hg
          have : 9 - minFound ((locations.foldl
              (applyWandLoc (minFound cur.foundations + 1))
              ⟨cur.columns, cur.freeCells, cur.foundations⟩).founds) < n := by
            omega
          rw [ih _ this]

/-- The auto-solver `performWandMove` (lines 684-789): run the rank loop;
if anything moved, push one `isAuto=false` snapshot of the original state,
apply the win check (without clearing the timer), and cascade. -/
def performWandMove (state : GameState) : GameState :=
  if state.status ≠ GameStatus.playing ∧ state.devMode = false then state
  else
    let res := wandLoop state
    if res.2 then
      let cur := res.1
      let status := if winCondF cur.foundations cur.dragons then GameStatus.won
        else cur.status
      autoMoveOnes
        { cur with
          history := state.history ++ [mkSnapshot state false],
          status := status }
    else state

/-! ## Undo engine (`undo`, lines 603-634) -/

/-- Restore a popped snapshot over the current state (the
`{...newState, ...previous, history}` spread): every snapshot field except
`isAuto` overwrites the state field, `history` becomes the remaining
stack, and `status` and `isTimerVisible` keep their current values. -/
def applySnap (st : GameState) (hist : List Snapshot) (p : Snapshot) : GameState :=
  { st with
    columns := p.columns, freeCells := p.freeCells,
    foundations := p.foundations, dragons := p.dragons, devMode := p.devMode,
    gameId := p.gameId, startTime := p.startTime, elapsedTime := p.elapsedTime,
    timerRunning := p.timerRunning, history := hist }

/-- Fuel-indexed `while (previous.isAuto && history.length > 0)` loop of
`undo` (lines 622-630): keep popping and restoring snapshots.  Each
iteration shortens the history by one, so fuel `history.length + 1`
computes the source's unbounded `while` loop. -/
def undoGo : Nat → GameState → Snapshot → GameState
  | 0, st, _ => st
  | fuel + 1, st, p =>
    if p.isAuto ∧ st.history ≠ [] then
      match st.history.getLast? with
      | some p2 => undoGo fuel (applySnap st st.history.dropLast p2) p2
      | none => st
    else st

/-- The undo loop with sufficient fuel. -/
def undoWhile (st : GameState) (p : Snapshot) : GameState :=
  undoGo (st.history.length + 1) st p

/-- The undo engine (lines 603-634): pop the newest snapshot, restore it
with `status` forced to `playing` and `timerRunning` forced to `true`
(the source's redundant `if (newState.status === 'playing')` re-assignment
is absorbed), then pop further snapshots while the popped one is flagged
`isAuto`. -/
def undo (state : GameState) : GameState :=
  match state.history.getLast? with
  | none => state
  | some previous =>
    let hist := state.history.dropLast
    let newState := { applySnap state hist previous with
      status := GameStatus.playing, timerRunning := true }
    undoWhile newState previous

/-! ## Remaining commands -/

/-- The `triggerAutoMove` command (lines 883-895). -/
def triggerAutoMove (state : GameState) (now : Int) : GameState :=
  if state.status ≠ GameStatus.playing ∧ state.devMode = false then state
  else
    let nextState :=
      if ¬state.timerRunning ∧ state.status = GameStatus.playing then
        { state with
          timerRunning := true,
          startTime := some (now - state.elapsedTime) }
      else state
    autoMoveOnes nextState

/-- The `pauseGame` toggle (lines 667-673). -/
def pauseGame (state : GameState) : GameState :=
  { state with
    status := if state.status = GameStatus.paused then .playing else .paused,
    timerRunning := if state.status = GameStatus.paused then true else false }

/-- The `resumeGame` command (lines 675-682). -/
def resumeGame (state : GameState) (now : Int) : GameState :=
  { state with
    status := GameStatus.playing, timerRunning := true,
    startTime := some (now - state.elapsedTime) }

/-! ## Dealer (`createDeck` / `dealCards` / `newGame`, lines 264-327 and
636-661) -/

/-- The 40-card deck built by `createDeck`: 27 normal cards, 12 dragons,
one flower. -/
def deckList : List Card :=
  (([CardColor.green, .red, .black].map fun color =>
      (List.range 9).map fun i => Card.normal color (i + 1)).flatten)
  ++ (([CardColor.green, .red, .black].map fun color =>
      (List.range 4).map fun i => Card.dragon color i).flatten)
  ++ [Card.flower]

/-- Round-robin deal of `dealCards` (lines 315-327): card `i` of the
shuffled deck goes to column `i % 8`. -/
def dealColumns (deck : List Card) : List (List Card) :=
  deck.enum.foldl
    (fun cols p => cols.set (p.1 % 8) (cols.getD (p.1 % 8) [] ++ [p.2]))
    (List.replicate 8 [])

/-- The state installed by `newGame` (lines 636-661), parametrized by the
shuffled deck (the Fisher-Yates shuffle produces some permutation of
`deckList`). -/
def newGame (s : GameState) (deck : List Card) : GameState :=
  { columns := dealColumns deck, freeCells := [none, none, none],
    foundations := ⟨0, 0, 0, false⟩, dragons := ⟨0, 0, 0⟩,
    status := .playing, history := [], devMode := s.devMode,
    gameId := s.gameId + 1, startTime := none, elapsedTime := 0,
    timerRunning := false, isTimerVisible := s.isTimerVisible }

/-- A fresh deal outside `devMode` (what any `newGame` from a non-dev state
produces, up to `gameId` and `isTimerVisible`). -/
def freshState (deck : List Card) : GameState :=
  { columns := dealColumns deck, freeCells := [none, none, none],
    foundations := ⟨0, 0, 0, false⟩, dragons := ⟨0, 0, 0⟩,
    status := .playing, history := [], devMode := false, gameId := 1,
    startTime := none, elapsedTime := 0, timerRunning := false,
    isTimerVisible := true }

/-! ## Basic facts about searches and the move resolver -/

/-- Specification of a successful `findIdx?`. -/
theorem getD_of_findIdx? {α : Type} (l : List α) (p : α → Bool) (d : α) (i : Nat)
    (h : l.findIdx? p = some i) : i < l.length ∧ p (l.getD i d) = true := by
  rw [List.findIdx?_eq_some_iff_findIdx_eq] at h
  obtain ⟨hlen, hidx⟩ := h
  subst hidx
  refine ⟨hlen, ?_⟩
  rw [List.getD_eq_getElem l d hlen]
  exact @List.findIdx_getElem _ p l hlen

/-- Specification of a failed `findIdx?`. -/
theorem findIdx?_none_not {α : Type} (l : List α) (p : α → Bool)
    (h : l.findIdx? p = none) : ∀ x ∈ l, p x = false := by
  rw [List.findIdx?_eq_none_iff] at h
  intro x hx
  simpa using h x hx

/-- A card found in a column by `findSource`. -/
theorem findSource_col_spec {S : GameState} {cid : Card} {i : Nat}
    (h : findSource S cid = some (.col i)) :
    i < S.columns.length ∧ cid ∈ S.columns.getD i [] := by
  unfold findSource at h
  cases h1 : S.columns.findIdx? (fun col => col.contains cid) with
  | some j =>
    rw [h1] at h
    cases h
    have := getD_of_findIdx? _ _ [] _ h1
    exact ⟨this.1, by simpa using this.2⟩
  | none =>
    rw [h1] at h
    cases h2 : S.freeCells.findIdx? (· == some cid) with
    | some j => rw [h2] at h; cases h
    | none => rw [h2] at h; cases h

/-- A card found in a free cell by `findSource`: it is in no column and
its cell holds it. -/
theorem findSource_free_spec {S : GameState} {cid : Card} {i : Nat}
    (h : findSource S cid = some (.free i)) :
    i < S.freeCells.length ∧ S.freeCells.getD i none = some cid ∧
      ∀ col ∈ S.columns, cid ∉ col := by
  unfold findSource at h
  cases h1 : S.columns.findIdx? (fun col => col.contains cid) with
  | some j => rw [h1] at h; cases h
  | none =>
    rw [h1] at h
    cases h2 : S.freeCells.findIdx? (· == some cid) with
    | some j =>
      rw [h2] at h
      cases h
      have hs := getD_of_findIdx? _ _ none _ h2
      have hnc := findIdx?_none_not _ _ h1
      refine ⟨hs.1, by simpa using hs.2, ?_⟩
      intro col hcol
      simpa using hnc col hcol
    | none => rw [h2] at h; cases h

/-- When the card is in no column, `findSource` cannot report a column. -/
theorem findSource_not_col {S : GameState} {cid : Card}
    (h : ∀ col ∈ S.columns, cid ∉ col) :
    findSource S cid = none ∨ ∃ i, findSource S cid = some (.free i) := by
  unfold findSource
  cases h1 : S.columns.findIdx? (fun col => col.contains cid) with
  | some j =>
    have := getD_of_findIdx? _ _ [] _ h1
    have hmem : cid ∈ S.columns.getD j [] := by simpa using this.2
    have hin : S.columns.getD j [] ∈ S.columns := by
      rw [List.getD_eq_getElem _ _ this.1]
      exact List.getElem_mem this.1
    exact absurd hmem (h _ hin)
  | none =>
    cases h2 : S.freeCells.findIdx? (· == some cid) with
    | some j => exact Or.inr ⟨j, rfl⟩
    | none => exact Or.inl rfl

/-- The status gate of `moveCard` (line 369). -/
theorem moveCardE_gate {S : GameState} (cid : Card) (t : Target) (sk : Bool)
    (now : Int) (h : S.status ≠ GameStatus.playing) (hdev : S.devMode = false) :
    moveCardE S cid t sk now = .ok S := by
  unfold moveCardE
  rw [if_pos ⟨h, hdev⟩]

/-- The status gate of `moveCard`, store view. -/
theorem moveCardRun_gate {S : GameState} (cid : Card) (t : Target) (sk : Bool)
    (now : Int) (h : S.status ≠ GameStatus.playing) (hdev : S.devMode = false) :
    moveCardRun S cid t sk now = S := by
  unfold moveCardRun
  rw [moveCardE_gate cid t sk now h hdev]

/-- The status gate of `collectDragons` (line 517). -/
theorem collectDragons_gate {S : GameState} (color : CardColor)
    (h : S.status ≠ GameStatus.playing) (hdev : S.devMode = false) :
    collectDragons S color = S := by
  unfold collectDragons
  rw [if_pos ⟨h, hdev⟩]

/-- The status gate of `performWandMove` (line 686). -/
theorem performWandMove_gate {S : GameState}
    (h : S.status ≠ GameStatus.playing) (hdev : S.devMode = false) :
    performWandMove S = S := by
  unfold performWandMove
  rw [if_pos ⟨h, hdev⟩]

/-- The status gate of `triggerAutoMove` (line 885). -/
theorem triggerAutoMove_gate {S : GameState} (now : Int)
    (h : S.status ≠ GameStatus.playing) (hdev : S.devMode = false) :
    triggerAutoMove S now = S := by
  unfold triggerAutoMove
  rw [if_pos ⟨h, hdev⟩]

/-- The head of the moving unit sliced off a column is the addressed card
(`cardsToMove[0]`, with the card itself as the fallback default). -/
theorem headD_drop_findIdx (col : List Card) (cid : Card) :
    (col.drop (col.findIdx (· == cid))).headD cid = cid := by
  induction col with
  | nil => simp
  | cons x xs ih =>
    by_cases h : x = cid
    · subst h
      simp [List.findIdx_cons]
    · have hb : (x == cid) = false := beq_eq_false_iff_ne.mpr h
      simp only [List.findIdx_cons, hb, cond_false, List.drop_succ_cons]
      exact ih

/-- Exhaustive case analysis of the move resolver: a silent no-op, a
thrown `TypeError`, or a committed move (optionally followed by the
cascade). -/
theorem moveCardE_spec (S : GameState) (cid : Card) (t : Target) (sk : Bool)
    (now : Int) :
    moveCardE S cid t sk now = .ok S ∨
    (∃ src c1 ce1 cm, findSource S cid = some src ∧
      movePrep S cid src = some (c1, ce1, cm) ∧
      moveApply S cid t c1 ce1 cm = .error () ∧
      moveCardE S cid t sk now = .error ()) ∨
    (¬(S.status ≠ GameStatus.playing ∧ S.devMode = false) ∧
      ∃ src c1 ce1 cm nc nf nfo,
        findSource S cid = some src ∧ t ≠ Target.invalid ∧
        movePrep S cid src = some (c1, ce1, cm) ∧
        moveApply S cid t c1 ce1 cm = .ok (some (nc, nf, nfo)) ∧
        moveCardE S cid t sk now =
          .ok (if sk then moveCommit S now nc nf nfo
               else autoMoveOnes (moveCommit S now nc nf nfo))) := by
  by_cases hgate : S.status ≠ GameStatus.playing ∧ S.devMode = false
  · refine Or.inl ?_
    unfold moveCardE
    rw [if_pos hgate]
  · cases hsrc : findSource S cid with
    | none =>
      refine Or.inl ?_
      unfold moveCardE
      simp only [if_neg hgate, hsrc]
    | some src =>
      by_cases hinv : t = Target.invalid
      · refine Or.inl ?_
        unfold moveCardE
        simp only [if_neg hgate, hsrc, if_pos hinv]
      · cases hprep : movePrep S cid src with
        | none =>
          refine Or.inl ?_
          unfold moveCardE
          simp only [if_neg hgate, hsrc, if_neg hinv, hprep]
        | some prep =>
          obtain ⟨c1, ce1, cm⟩ := prep
          cases happ : moveApply S cid t c1 ce1 cm with
          | error e =>
            refine Or.inr (Or.inl ⟨src, c1, ce1, cm, rfl, hprep, ?_, ?_⟩)
            · rw [happ]
            · unfold moveCardE
              simp only [if_neg hgate, hsrc, if_neg hinv, hprep, happ]
          | ok res =>
            cases res with
            | none =>
              refine Or.inl ?_
              unfold moveCardE
              simp only [if_neg hgate, hsrc, if_neg hinv, hprep, happ]
            | some trip =>
              obtain ⟨nc, nf, nfo⟩ := trip
              refine Or.inr (Or.inr ⟨hgate,
                src, c1, ce1, cm, nc, nf, nfo,
                rfl, hinv, hprep, happ, ?_⟩)
              unfold moveCardE
              simp only [if_neg hgate, hsrc, if_neg hinv, hprep, happ]

/-- The store is unchanged whenever the resolver cannot commit a move
(silent no-op) and also when it throws (the exception aborts `setState`). -/
theorem moveCardRun_noop {S : GameState} {cid : Card} {t : Target} {sk : Bool}
    {now : Int}
    (h : ∀ src c1 ce1 cm nc nf nfo, findSource S cid = some src →
      movePrep S cid src = some (c1, ce1, cm) →
      moveApply S cid t c1 ce1 cm ≠ .ok (some (nc, nf, nfo))) :
    moveCardRun S cid t sk now = S := by
  rcases moveCardE_spec S cid t sk now with hok | ⟨-, -, -, -, -, -, -, herr⟩ |
    ⟨-, src, c1, ce1, cm, nc, nf, nfo, hsrc, -, hprep, happ, -⟩
  · unfold moveCardRun
    rw [hok]
  · unfold moveCardRun
    rw [herr]
  · exact absurd happ (h src c1 ce1 cm nc nf nfo hsrc hprep)

/-- Structure of the extracted moving unit. -/
theorem movePrep_spec {S : GameState} {cid : Card} {src : Source}
    {c1 : List (List Card)} {ce1 : List (Option Card)} {cm : List Card}
    (h : movePrep S cid src = some (c1, ce1, cm)) :
    cm.headD cid = cid ∧ c1.length = S.columns.length ∧
      (∀ i, src = .free i →
        c1 = S.columns ∧ ce1 = S.freeCells.set i none ∧ cm = [cid]) ∧
      (∀ i, src = .col i → ce1 = S.freeCells) := by
  cases src with
  | col i =>
    unfold movePrep at h
    dsimp only at h
    split at h
    · exact Option.noConfusion h
    · injection h with h
      rw [Prod.mk.injEq, Prod.mk.injEq] at h
      obtain ⟨h1, h2, h3⟩ := h
      subst h1 h2 h3
      refine ⟨headD_drop_findIdx _ _, List.length_set .., ?_, ?_⟩
      · intro j hj
        exact absurd hj (by simp)
      · intro j hj
        rfl
  | free i =>
    unfold movePrep at h
    dsimp only at h
    injection h with h
    rw [Prod.mk.injEq, Prod.mk.injEq] at h
    obtain ⟨h1, h2, h3⟩ := h
    subst h1 h2 h3
    refine ⟨rfl, rfl, ?_, ?_⟩
    · intro j hj
      injection hj with hj
      subst hj
      exact ⟨rfl, rfl, rfl⟩
    · intro j hj
      exact absurd hj (by simp)

/-- A locked marker can never be stacked under anything. -/
theorem canStack_marker (b : Card) (c : CardColor) :
    canStack b (.lockedDragon c) = false := by
  cases b <;> rfl

/-- Targeting the free cell that holds a locked marker is rejected
(line 464), in any mode. -/
theorem moveApply_locked_target {S : GameState} {cid : Card} {tIdx : Option Nat}
    {c1 : List (List Card)} {ce1 : List (Option Card)} {cm : List Card}
    {c : CardColor} (hcell : jsGetCell S.freeCells tIdx = some (.lockedDragon c)) :
    moveApply S cid (.free tIdx) c1 ce1 cm = .ok none := by
  unfold moveApply
  dsimp only
  rw [hcell]
  rfl

/-- A moving unit headed by the locked marker is rejected at every
foundation (lines 472-490). -/
theorem moveApply_foundation_marker {S : GameState} {cid : Card}
    {fid : FoundationId} {c1 : List (List Card)} {ce1 : List (Option Card)}
    {cm : List Card} {c : CardColor} (hhead : cm.headD cid = .lockedDragon c) :
    moveApply S cid (.foundation fid) c1 ce1 cm = .ok none := by
  unfold moveApply
  dsimp only
  by_cases hl : (cm.length == 1) = true
  · rw [if_pos hl, hhead]
    cases fid <;> rfl
  · rw [if_neg hl]

/-- A move onto a nonempty column is rejected outside `devMode` when the
stacking rule fails (lines 455-457). -/
theorem moveApply_col_stackfail {S : GameState} {cid : Card} {j : Nat}
    {c1 : List (List Card)} {ce1 : List (Option Card)} {cm : List Card}
    (hdev : S.devMode = false) (hj : j < c1.length)
    (hne : c1.getD j [] ≠ [])
    (hstack : canStack ((c1.getD j []).getLastD Card.flower) (cm.headD cid) = false) :
    moveApply S cid (.col (some j)) c1 ce1 cm = .ok none := by
  unfold moveApply
  dsimp only
  rw [if_pos hj]
  rw [if_pos]
  rw [hstack, hdev]
  have hp : 0 < (c1[j]?.getD []).length := by
    rw [← List.getD_eq_getElem?_getD]
    exact List.length_pos.mpr hne
  simp [hp]

/-- A move into an occupied free cell is rejected outside `devMode` unless
the cell holds a locked marker, which is rejected earlier (lines 462-470). -/
theorem moveApply_free_occupied {S : GameState} {cid : Card} {tIdx : Option Nat}
    {c1 : List (List Card)} {ce1 : List (Option Card)} {cm : List Card}
    (hdev : S.devMode = false)
    (hnl : (jsGetCell S.freeCells tIdx).elim false Card.isLockedB = false)
    (hocc : jsGetCell ce1 tIdx ≠ none) :
    moveApply S cid (.free tIdx) c1 ce1 cm = .ok none := by
  unfold moveApply
  dsimp only
  rw [if_neg (by rw [hnl]; exact Bool.false_ne_true)]
  rw [if_neg]
  intro hcond
  have := (Bool.and_eq_true ..).mp hcond
  rcases (Bool.or_eq_true ..).mp this.2 with h2 | h2
  · exact hocc (Option.isNone_iff_eq_none.mp h2)
  · rw [hdev] at h2
    exact Bool.false_ne_true h2

/-- The column branch never throws when the parsed index is in range. -/
theorem moveApply_col_inrange_ne_error {S : GameState} {cid : Card} {j : Nat}
    {c1 : List (List Card)} {ce1 : List (Option Card)} {cm : List Card}
    (hj : j < c1.length) :
    ∀ e, moveApply S cid (.col (some j)) c1 ce1 cm ≠ .error e := by
  intro e
  unfold moveApply
  dsimp only
  rw [if_pos hj]
  by_cases hc : ((c1.getD j []).length > 0 && !S.devMode &&
      !canStack ((c1.getD j []).getLastD Card.flower) (cm.headD cid)) = true
  · rw [if_pos hc]
    exact fun h => Except.noConfusion h
  · rw [if_neg hc]
    exact fun h => Except.noConfusion h

/-- The free-cell, foundation and unrecognized-target branches never
throw. -/
theorem moveApply_ne_error_of_not_col {S : GameState} {cid : Card} {t : Target}
    {c1 : List (List Card)} {ce1 : List (Option Card)} {cm : List Card}
    (ht : ∀ idx, t ≠ .col idx) :
    ∀ e, moveApply S cid t c1 ce1 cm ≠ .error e := by
  intro e
  cases t with
  | col idx => exact absurd rfl (ht idx)
  | free tIdx =>
    unfold moveApply
    dsimp only
    by_cases h1 : (jsGetCell S.freeCells tIdx).elim false Card.isLockedB = true
    · rw [if_pos h1]
      exact fun h => Except.noConfusion h
    · rw [if_neg h1]
      by_cases h2 : (cm.length == 1 && ((jsGetCell ce1 tIdx).isNone || S.devMode)) = true
      · rw [if_pos h2]
        exact fun h => Except.noConfusion h
      · rw [if_neg h2]
        exact fun h => Except.noConfusion h
  | foundation fid =>
    unfold moveApply
    dsimp only
    refine fun h => ?_
    split at h
    · split at h <;>
        first
        | exact Except.noConfusion h
        | (split at h <;> exact Except.noConfusion h)
    · exact Except.noConfusion h
  | invalid =>
    unfold moveApply
    exact fun h => Except.noConfusion h

/-! ## Pointwise characterization of a cascade pass -/

/-- Pop the top card of column `i` (`newColumns[i].pop()`). -/
def popAt (cols : List (List Card)) (i : Nat) : List (List Card) :=
  cols.set i ((cols.getD i []).dropLast)

/-- Sequence of pops at the given column indices. -/
def popsOf (idxs : List Nat) (cols : List (List Card)) : List (List Card) :=
  idxs.foldl popAt cols

/-- Clear the free cells at the given indices (`newFreeCells[i] = null`). -/
def clearsOf (idxs : List Nat) (cells : List (Option Card)) : List (Option Card) :=
  idxs.foldl (fun cs i => cs.set i none) cells

/-- Column indices of a move list. -/
def colIdxs (ms : List AutoMv) : List Nat :=
  ms.filterMap fun m =>
    match m.source with
    | .col => some m.index
    | .free => none

/-- Free-cell indices of a move list. -/
def freeIdxs (ms : List AutoMv) : List Nat :=
  ms.filterMap fun m =>
    match m.source with
    | .free => some m.index
    | .col => none

/-- Foundation updates of a move list. -/
def foundUpds (ms : List AutoMv) (f : Foundations) : Foundations :=
  ms.foldl (fun f m => updFound m.card f) f

/-- The interleaved fold of a pass decomposes into independent column,
cell and foundation folds. -/
theorem foldl_applyAutoMv_decomp (ms : List AutoMv) (b : BoardF) :
    ms.foldl applyAutoMv b =
      ⟨popsOf (colIdxs ms) b.cols, clearsOf (freeIdxs ms) b.cells,
        foundUpds ms b.founds⟩ := by
  induction ms generalizing b with
  | nil => rfl
  | cons m rest ih =>
    cases hs : m.source with
    | col =>
      show List.foldl applyAutoMv (applyAutoMv b m) rest = _
      rw [ih]
      simp only [applyAutoMv, hs, colIdxs, freeIdxs, foundUpds,
        List.filterMap_cons, List.foldl_cons]
      rfl
    | free =>
      show List.foldl applyAutoMv (applyAutoMv b m) rest = _
      rw [ih]
      simp only [applyAutoMv, hs, colIdxs, freeIdxs, foundUpds,
        List.filterMap_cons, List.foldl_cons]
      rfl

/-- Reading the popped column. -/
theorem popAt_getD_self (cols : List (List Card)) (i : Nat) :
    (popAt cols i).getD i [] = (cols.getD i []).dropLast := by
  unfold popAt
  by_cases h : i < cols.length
  · exact getD_set_eq _ _ _ _ h
  · rw [List.set_eq_of_length_le (by omega)]
    have hd : cols.getD i [] = [] := List.getD_eq_default _ _ (by omega)
    rw [hd]
    rfl

/-- Reading an untouched column of a pop. -/
theorem popAt_getD_ne (cols : List (List Card)) {i j : Nat} (h : i ≠ j) :
    (popAt cols i).getD j [] = cols.getD j [] :=
  getD_set_ne _ _ _ h

/-- Pointwise effect of a sequence of pops at distinct indices. -/
theorem popsOf_getD (idxs : List Nat) (cols : List (List Card))
    (hnd : idxs.Nodup) (j : Nat) :
    (popsOf idxs cols).getD j [] =
      if j ∈ idxs then (cols.getD j []).dropLast else cols.getD j [] := by
  induction idxs generalizing cols with
  | nil => simp [popsOf]
  | cons i rest ih =>
    have hnotin : i ∉ rest := (List.nodup_cons.mp hnd).1
    have hndrest : rest.Nodup := (List.nodup_cons.mp hnd).2
    show (popsOf rest (popAt cols i)).getD j [] = _
    rw [ih (popAt cols i) hndrest]
    by_cases hj : j ∈ rest
    · rw [if_pos hj, if_pos (List.mem_cons_of_mem i hj)]
      have hij : i ≠ j := fun hctr => hnotin (hctr ▸ hj)
      rw [popAt_getD_ne cols hij]
    · rw [if_neg hj]
      by_cases hji : j = i
      · subst hji
        rw [if_pos (List.mem_cons_self j rest)]
        exact popAt_getD_self cols j
      · rw [if_neg (by simp [hji, hj])]
        exact popAt_getD_ne cols (fun hctr => hji hctr.symm)

/-- Reading a cleared cell. -/
theorem clearAt_getD_self (cells : List (Option Card)) (i : Nat) :
    (cells.set i none).getD i none = none := by
  by_cases h : i < cells.length
  · exact getD_set_eq _ _ _ _ h
  · rw [List.set_eq_of_length_le (by omega)]
    exact List.getD_eq_default _ _ (by omega)

/-- Pointwise effect of a sequence of cell clears at distinct indices. -/
theorem clearsOf_getD (idxs : List Nat) (cells : List (Option Card))
    (hnd : idxs.Nodup) (j : Nat) :
    (clearsOf idxs cells).getD j none =
      if j ∈ idxs then none else cells.getD j none := by
  induction idxs generalizing cells with
  | nil => simp [clearsOf]
  | cons i rest ih =>
    have hnotin : i ∉ rest := (List.nodup_cons.mp hnd).1
    have hndrest : rest.Nodup := (List.nodup_cons.mp hnd).2
    show (clearsOf rest (cells.set i none)).getD j none = _
    rw [ih (cells.set i none) hndrest]
    by_cases hj : j ∈ rest
    · rw [if_pos hj, if_pos (List.mem_cons_of_mem i hj)]
    · rw [if_neg hj]
      by_cases hji : j = i
      · subst hji
        rw [if_pos (List.mem_cons_self j rest)]
        exact clearAt_getD_self cells j
      · rw [if_neg (by simp [hji, hj])]
        exact getD_set_ne _ _ _ (fun hctr => hji hctr.symm)

/-- A guarded `filterMap` is a `filter` followed by a `map`. -/
theorem filterMap_guard {α β : Type} (p : α → Bool) (f : α → β) (l : List α) :
    (l.filterMap fun a => if p a then some (f a) else none) =
      (l.filter p).map f := by
  induction l with
  | nil => rfl
  | cons x xs ih =>
    by_cases h : p x
    · simp [List.filterMap_cons, List.filter_cons, h, ih]
    · simp [List.filterMap_cons, List.filter_cons, h, ih]

/-- Whether a column's top card is trivially movable. -/
def colTrivial (isFull flag : Bool) (col : List Card) : Bool :=
  match col.getLast? with
  | some c => trivialMovable isFull flag c
  | none => false

/-- Whether a free cell's card is trivially movable. -/
def cellTrivial (isFull flag : Bool) : Option Card → Bool
  | some c => trivialMovable isFull flag c
  | none => false

/-- The column indices collected by a pass are exactly the positions of
trivially-movable tops. -/
theorem colIdxs_passMoves (isFull : Bool) (s : GameState) :
    colIdxs (passMoves isFull s) =
      (s.columns.enum.filter
        (fun p => colTrivial isFull s.foundations.flower p.2)).map Prod.fst := by
  unfold passMoves colIdxs
  rw [List.filterMap_append]
  have hfree : (s.freeCells.enum.filterMap fun p =>
      match p.2 with
      | some c =>
          if trivialMovable isFull s.foundations.flower c then
            some (⟨.free, p.1, c⟩ : AutoMv)
          else none
      | none => none).filterMap
        (fun m => match m.source with | .col => some m.index | .free => none) = [] := by
    rw [List.filterMap_filterMap]
    rw [List.filterMap_eq_nil]
    intro p hp
    cases hoc : p.2 with
    | none => rfl
    | some c =>
      by_cases ht : trivialMovable isFull s.foundations.flower c = true
      · simp [ht]
      · simp [ht]
  rw [hfree, List.nil_append, List.filterMap_filterMap]
  rw [← filterMap_guard (fun p => colTrivial isFull s.foundations.flower p.2)
    Prod.fst s.columns.enum]
  apply List.filterMap_congr
  intro p hp
  cases hl : p.2.getLast? with
  | none => simp [colTrivial, hl]
  | some c =>
    by_cases ht : trivialMovable isFull s.foundations.flower c = true
    · simp [colTrivial, hl, ht]
    · simp [colTrivial, hl, ht]

/-- The free-cell indices collected by a pass are exactly the positions of
trivially-movable cell cards. -/
theorem freeIdxs_passMoves (isFull : Bool) (s : GameState) :
    freeIdxs (passMoves isFull s) =
      (s.freeCells.enum.filter
        (fun p => cellTrivial isFull s.foundations.flower p.2)).map Prod.fst := by
  unfold passMoves freeIdxs
  rw [List.filterMap_append]
  have hcol : (s.columns.enum.filterMap fun p =>
      match p.2.getLast? with
      | some c =>
          if trivialMovable isFull s.foundations.flower c then
            some (⟨.col, p.1, c⟩ : AutoMv)
          else none
      | none => none).filterMap
        (fun m => match m.source with | .free => some m.index | .col => none) = [] := by
    rw [List.filterMap_filterMap]
    rw [List.filterMap_eq_nil]
    intro p hp
    cases hoc : p.2.getLast? with
    | none => rfl
    | some c =>
      by_cases ht : trivialMovable isFull s.foundations.flower c = true
      · simp [ht]
      · simp [ht]
  rw [hcol, List.append_nil, List.filterMap_filterMap]
  rw [← filterMap_guard (fun p => cellTrivial isFull s.foundations.flower p.2)
    Prod.fst s.freeCells.enum]
  apply List.filterMap_congr
  intro p hp
  cases hoc : p.2 with
  | none => simp [cellTrivial, hoc]
  | some c =>
    by_cases ht : trivialMovable isFull s.foundations.flower c = true
    · simp [cellTrivial, hoc, ht]
    · simp [cellTrivial, hoc, ht]

/-- The first components of an `enum` are `range`, hence without
duplicates; so are those of any filtered sublist. -/
theorem nodup_filter_enum_fst {α : Type} (l : List α) (p : Nat × α → Bool) :
    ((l.enum.filter p).map Prod.fst).Nodup := by
  have hsub : List.Sublist ((l.enum.filter p).map Prod.fst)
      (l.enum.map Prod.fst) :=
    (List.filter_sublist _).map Prod.fst
  rw [List.enum_map_fst] at hsub
  exact (List.nodup_range _).sublist hsub

/-- Membership in the trivially-movable column positions. -/
theorem mem_colIdxs_iff (isFull : Bool) (s : GameState) (j : Nat) :
    j ∈ colIdxs (passMoves isFull s) ↔
      j < s.columns.length ∧
        colTrivial isFull s.foundations.flower (s.columns.getD j []) = true := by
  rw [colIdxs_passMoves]
  simp only [List.mem_map, List.mem_filter, List.mem_enum_iff_getElem?]
  constructor
  · rintro ⟨⟨i, col⟩, ⟨hget, htriv⟩, rfl⟩
    have hlen : i < s.columns.length := by
      by_contra hge
      rw [List.getElem?_eq_none (by omega)] at hget
      exact Option.noConfusion hget
    refine ⟨hlen, ?_⟩
    have : s.columns.getD i [] = col := by
      rw [List.getD_eq_getElem?_getD, hget]
      rfl
    rw [this]
    exact htriv
  · rintro ⟨hlen, htriv⟩
    refine ⟨(j, s.columns.getD j []), ⟨?_, htriv⟩, rfl⟩
    rw [List.getD_eq_getElem _ _ hlen]
    exact List.getElem?_eq_getElem hlen

/-- Membership in the trivially-movable free-cell positions. -/
theorem mem_freeIdxs_iff (isFull : Bool) (s : GameState) (j : Nat) :
    j ∈ freeIdxs (passMoves isFull s) ↔
      j < s.freeCells.length ∧
        cellTrivial isFull s.foundations.flower (s.freeCells.getD j none) = true := by
  rw [freeIdxs_passMoves]
  simp only [List.mem_map, List.mem_filter, List.mem_enum_iff_getElem?]
  constructor
  · rintro ⟨⟨i, oc⟩, ⟨hget, htriv⟩, rfl⟩
    have hlen : i < s.freeCells.length := by
      by_contra hge
      rw [List.getElem?_eq_none (by omega)] at hget
      exact Option.noConfusion hget
    refine ⟨hlen, ?_⟩
    have : s.freeCells.getD i none = oc := by
      rw [List.getD_eq_getElem?_getD, hget]
      rfl
    rw [this]
    exact htriv
  · rintro ⟨hlen, htriv⟩
    refine ⟨(j, s.freeCells.getD j none), ⟨?_, htriv⟩, rfl⟩
    rw [List.getD_eq_getElem _ _ hlen]
    exact List.getElem?_eq_getElem hlen

/-- The collected column indices are distinct. -/
theorem nodup_colIdxs (isFull : Bool) (s : GameState) :
    (colIdxs (passMoves isFull s)).Nodup := by
  rw [colIdxs_passMoves]
  exact nodup_filter_enum_fst ..

/-- The collected free-cell indices are distinct. -/
theorem nodup_freeIdxs (isFull : Bool) (s : GameState) :
    (freeIdxs (passMoves isFull s)).Nodup := by
  rw [freeIdxs_passMoves]
  exact nodup_filter_enum_fst ..

/-- Whether a move list carries a normal card of the given suit. -/
def hasNormal (ms : List AutoMv) (col : CardColor) : Bool :=
  ms.any fun m =>
    match m.card with
    | .normal c _ => c == col
    | _ => false

/-- Whether a move list carries the flower. -/
def hasFlower (ms : List AutoMv) : Bool :=
  ms.any fun m => m.card == .flower

/-- Setting a suit counter does not touch the flower flag. -/
theorem setC_flower (f : Foundations) (c : CardColor) (v : Nat) :
    (f.setC c v).flower = f.flower := by
  cases c <;> rfl

/-- Setting the flower flag does not touch the suit counters. -/
theorem flowerSet_getC (f : Foundations) (b : Bool) (c : CardColor) :
    ({ f with flower := b } : Foundations).getC c = f.getC c := by
  cases c <;> rfl

/-- The folded foundation updates set a suit to 1 exactly when some moved
card is a normal card of that suit. -/
theorem hasNormal_cons (m : AutoMv) (ms : List AutoMv) (col : CardColor) :
    hasNormal (m :: ms) col =
      ((match m.card with
        | .normal c _ => c == col
        | _ => false) || hasNormal ms col) := rfl

/-- Unfolding `hasFlower` over a cons cell. -/
theorem hasFlower_cons (m : AutoMv) (ms : List AutoMv) :
    hasFlower (m :: ms) = ((m.card == .flower) || hasFlower ms) := rfl

/-- The folded foundation updates set a suit to 1 exactly when some moved
card is a normal card of that suit. -/
theorem foundUpds_getC (ms : List AutoMv) (f : Foundations) (col : CardColor) :
    (foundUpds ms f).getC col = if hasNormal ms col then 1 else f.getC col := by
  induction ms generalizing f with
  | nil => simp [foundUpds, hasNormal]
  | cons m rest ih =>
    show (foundUpds rest (updFound m.card f)).getC col = _
    rw [ih, hasNormal_cons]
    cases hc : m.card with
    | normal c v =>
      dsimp only
      by_cases hcc : c = col
      · subst hcc
        simp only [beq_self_eq_true, Bool.true_or]
        by_cases hr : hasNormal rest c = true
        · simp [hr]
        · simp [hr, updFound, getC_setC_self]
      · have hb : (c == col) = false := beq_eq_false_iff_ne.mpr hcc
        rw [hb, Bool.false_or]
        by_cases hr : hasNormal rest col = true
        · simp [hr]
        · simp [hr, updFound, getC_setC_ne f 1 hcc]
    | dragon c i =>
      dsimp only
      rw [Bool.false_or]
      rfl
    | lockedDragon c =>
      dsimp only
      rw [Bool.false_or]
      rfl
    | flower =>
      dsimp only
      rw [Bool.false_or]
      by_cases hr : hasNormal rest col = true
      · simp [hr]
      · simp [hr, updFound, flowerSet_getC]

/-- The folded foundation updates set the flower flag exactly when the
flower was moved. -/
theorem foundUpds_flower (ms : List AutoMv) (f : Foundations) :
    (foundUpds ms f).flower = (f.flower || hasFlower ms) := by
  induction ms generalizing f with
  | nil => simp [foundUpds, hasFlower]
  | cons m rest ih =>
    show (foundUpds rest (updFound m.card f)).flower = _
    rw [ih, hasFlower_cons]
    cases hc : m.card with
    | normal c v =>
      have hb : (Card.normal c v == Card.flower) = false :=
        beq_eq_false_iff_ne.mpr (by simp)
      rw [hb, Bool.false_or]
      simp [updFound, setC_flower]
    | dragon c i =>
      have hb : (Card.dragon c i == Card.flower) = false :=
        beq_eq_false_iff_ne.mpr (by simp)
      rw [hb, Bool.false_or]
      rfl
    | lockedDragon c =>
      have hb : (Card.lockedDragon c == Card.flower) = false :=
        beq_eq_false_iff_ne.mpr (by simp)
      rw [hb, Bool.false_or]
      rfl
    | flower =>
      simp [updFound]

/-- An empty column or an out-of-range position never counts as trivially
movable. -/
theorem colTrivial_nil (isFull flag : Bool) : colTrivial isFull flag [] = false := rfl

/-- Components of the state after one pass. -/
theorem passStep_board (isFull : Bool) (s : GameState) :
    (passStep isFull s).columns =
      (if (passMoves isFull s).isEmpty then s.columns
       else popsOf (colIdxs (passMoves isFull s)) s.columns) ∧
    (passStep isFull s).freeCells =
      (if (passMoves isFull s).isEmpty then s.freeCells
       else clearsOf (freeIdxs (passMoves isFull s)) s.freeCells) ∧
    (passStep isFull s).foundations =
      (if (passMoves isFull s).isEmpty then s.foundations
       else foundUpds (passMoves isFull s) s.foundations) := by
  unfold passStep
  by_cases he : (passMoves isFull s).isEmpty
  · rw [if_pos he]
    simp [he]
  · rw [if_neg he]
    rw [foldl_applyAutoMv_decomp]
    simp [he]

/-- Fields of the state untouched by a pass. -/
theorem passStep_fields (isFull : Bool) (s : GameState) :
    (passStep isFull s).status = s.status ∧
    (passStep isFull s).dragons = s.dragons ∧
    (passStep isFull s).devMode = s.devMode ∧
    (passStep isFull s).gameId = s.gameId ∧
    (passStep isFull s).startTime = s.startTime ∧
    (passStep isFull s).elapsedTime = s.elapsedTime ∧
    (passStep isFull s).timerRunning = s.timerRunning ∧
    (passStep isFull s).isTimerVisible = s.isTimerVisible := by
  unfold passStep
  by_cases he : (passMoves isFull s).isEmpty
  · rw [if_pos he]
    exact ⟨rfl, rfl, rfl, rfl, rfl, rfl, rfl, rfl⟩
  · rw [if_neg he]
    exact ⟨rfl, rfl, rfl, rfl, rfl, rfl, rfl, rfl⟩

/-- History of the state after one pass: one `isAuto=true` snapshot is
appended when at least one move was collected and the history is nonempty;
an empty history stays empty and a move-free pass changes nothing. -/
theorem passStep_hist (isFull : Bool) (s : GameState) :
    (passMoves isFull s ≠ [] → s.history ≠ [] →
      (passStep isFull s).history = s.history ++ [mkSnapshot s true]) ∧
    (passMoves isFull s ≠ [] → s.history = [] →
      (passStep isFull s).history = []) ∧
    (passMoves isFull s = [] → passStep isFull s = s) := by
  refine ⟨?_, ?_, ?_⟩
  · intro hm hh
    unfold passStep
    rw [if_neg (by simpa [List.isEmpty_iff] using hm)]
    simp only []
    rw [if_neg (by simpa [List.isEmpty_iff] using hh)]
  · intro hm hh
    unfold passStep
    rw [if_neg (by simpa [List.isEmpty_iff] using hm)]
    simp only []
    rw [if_pos (by simpa [List.isEmpty_iff] using hh), hh]
  · intro hm
    unfold passStep
    rw [if_pos (by simpa [List.isEmpty_iff] using hm)]

/-! ## Accumulated effects of the cascade loop -/

/-- Across any number of passes the loop only appends `isAuto=true`
snapshots to the history (none when the history started empty) and leaves
every non-board field unchanged. -/
theorem autoMoveGo_spec (isFull : Bool) :
    ∀ (fuel : Nat) (s : GameState),
    ∃ autos : List Snapshot,
      (autoMoveGo isFull fuel s).history = s.history ++ autos ∧
      (∀ a ∈ autos, a.isAuto = true) ∧
      (s.history = [] → autos = []) ∧
      (autoMoveGo isFull fuel s).status = s.status ∧
      (autoMoveGo isFull fuel s).dragons = s.dragons ∧
      (autoMoveGo isFull fuel s).devMode = s.devMode ∧
      (autoMoveGo isFull fuel s).gameId = s.gameId ∧
      (autoMoveGo isFull fuel s).startTime = s.startTime ∧
      (autoMoveGo isFull fuel s).elapsedTime = s.elapsedTime ∧
      (autoMoveGo isFull fuel s).timerRunning = s.timerRunning ∧
      (autoMoveGo isFull fuel s).isTimerVisible = s.isTimerVisible := by
  intro fuel
  induction fuel with
  | zero =>
    intro s
    exact ⟨[], by simp [autoMoveGo], by simp, fun _ => rfl, rfl, rfl, rfl, rfl,
      rfl, rfl, rfl, rfl⟩
  | succ n ih =>
    intro s
    unfold autoMoveGo
    by_cases he : (passMoves isFull s).isEmpty
    · rw [if_pos he]
      exact ⟨[], by simp, by simp, fun _ => rfl, rfl, rfl, rfl, rfl, rfl, rfl,
        rfl, rfl⟩
    · rw [if_neg he]
      obtain ⟨autos, hh1, hh2, hh3, hf1, hf2, hf3, hf4, hf5, hf6, hf7, hf8⟩ :=
        ih (passStep isFull s)
      have hne : passMoves isFull s ≠ [] := by
        simpa [List.isEmpty_iff] using he
      obtain ⟨hp1, hp2, -⟩ := passStep_hist isFull s
      obtain ⟨hq1, hq2, hq3, hq4, hq5, hq6, hq7, hq8⟩ := passStep_fields isFull s
      by_cases hh : s.history = []
      · refine ⟨[], ?_, by simp, fun _ => rfl, ?_, ?_, ?_, ?_, ?_, ?_, ?_, ?_⟩
        · rw [hh1, hp2 hne hh, hh]
          rw [hh3 (hp2 hne hh)]
        · rw [hf1, hq1]
        · rw [hf2, hq2]
        · rw [hf3, hq3]
        · rw [hf4, hq4]
        · rw [hf5, hq5]
        · rw [hf6, hq6]
        · rw [hf7, hq7]
        · rw [hf8, hq8]
      · refine ⟨mkSnapshot s true :: autos, ?_, ?_, fun hctr => absurd hctr hh,
          ?_, ?_, ?_, ?_, ?_, ?_, ?_, ?_⟩
        · rw [hh1, hp1 hne hh]
          simp
        · intro a ha
          rcases List.mem_cons.mp ha with rfl | ha
          · rfl
          · exact hh2 a ha
        · rw [hf1, hq1]
        · rw [hf2, hq2]
        · rw [hf3, hq3]
        · rw [hf4, hq4]
        · rw [hf5, hq5]
        · rw [hf6, hq6]
        · rw [hf7, hq7]
        · rw [hf8, hq8]

/-- Accumulated effects of `autoMoveOnes`: appended `isAuto=true` snapshots
(none from an empty history), untouched identity fields, and a status that
is either unchanged or `won`. -/
theorem autoMoveOnes_spec (s : GameState) :
    ∃ autos : List Snapshot,
      (autoMoveOnes s).history = s.history ++ autos ∧
      (∀ a ∈ autos, a.isAuto = true) ∧
      (s.history = [] → autos = []) ∧
      (autoMoveOnes s).dragons = s.dragons ∧
      (autoMoveOnes s).devMode = s.devMode ∧
      (autoMoveOnes s).gameId = s.gameId ∧
      (autoMoveOnes s).startTime = s.startTime ∧
      (autoMoveOnes s).elapsedTime = s.elapsedTime ∧
      (autoMoveOnes s).isTimerVisible = s.isTimerVisible ∧
      ((autoMoveOnes s).status = s.status ∨ (autoMoveOnes s).status = .won) := by
  obtain ⟨autos, hh1, hh2, hh3, hf1, hf2, hf3, hf4, hf5, hf6, hf7, hf8⟩ :=
    autoMoveGo_spec (s.foundations.green == 9 && s.foundations.red == 9 &&
      s.foundations.black == 9) (boardCount s + 1) s
  unfold autoMoveOnes autoMoveLoop
  by_cases hw : winCondF
      (autoMoveGo (s.foundations.green == 9 && s.foundations.red == 9 &&
        s.foundations.black == 9) (boardCount s + 1) s).foundations
      (autoMoveGo (s.foundations.green == 9 && s.foundations.red == 9 &&
        s.foundations.black == 9) (boardCount s + 1) s).dragons = true
  · rw [if_pos hw]
    exact ⟨autos, hh1, hh2, hh3, hf2, hf3, hf4, hf5, hf6, hf8, Or.inr rfl⟩
  · rw [if_neg hw]
    exact ⟨autos, hh1, hh2, hh3, hf2, hf3, hf4, hf5, hf6, hf8, Or.inl hf1⟩

/-! ## Shape of the grouped undo -/

/-- Componentwise equality of game states. -/
theorem gameStateExt {a b : GameState}
    (h1 : a.columns = b.columns) (h2 : a.freeCells = b.freeCells)
    (h3 : a.foundations = b.foundations) (h4 : a.dragons = b.dragons)
    (h5 : a.status = b.status) (h6 : a.history = b.history)
    (h7 : a.devMode = b.devMode) (h8 : a.gameId = b.gameId)
    (h9 : a.startTime = b.startTime) (h10 : a.elapsedTime = b.elapsedTime)
    (h11 : a.timerRunning = b.timerRunning)
    (h12 : a.isTimerVisible = b.isTimerVisible) : a = b := by
  cases a
  cases b
  dsimp only at h1 h2 h3 h4 h5 h6 h7 h8 h9 h10 h11 h12
  subst h1 h2 h3 h4 h5 h6 h7 h8 h9 h10 h11 h12
  rfl

/-- The undo loop stops at a snapshot not flagged `isAuto`. -/
theorem undoGo_stop (fuel : Nat) (st : GameState) (p : Snapshot)
    (h : p.isAuto = false) : undoGo fuel st p = st := by
  cases fuel with
  | zero => rfl
  | succ n =>
    unfold undoGo
    rw [if_neg]
    intro hc
    rw [h] at hc
    exact Bool.false_ne_true hc.1

/-- Restoring twice is restoring once. -/
theorem applySnap_applySnap (st : GameState) (h1 : List Snapshot) (p1 : Snapshot)
    (h : List Snapshot) (p : Snapshot) :
    applySnap (applySnap st h1 p1) h p = applySnap st h p := rfl

/-- Running the undo loop over a block of `isAuto` snapshots pops them all
and finally restores the first non-`isAuto` snapshot underneath. -/
theorem undoGo_shape (autos : List Snapshot) :
    (∀ a ∈ autos, a.isAuto = true) →
    ∀ (base : Snapshot) (h : List Snapshot) (st : GameState) (p : Snapshot)
      (fuel : Nat),
      st.history = h ++ base :: autos → p.isAuto = true →
      base.isAuto = false → st.history.length < fuel →
      undoGo fuel st p = applySnap st h base := by
  induction autos using List.reverseRecOn with
  | nil =>
    intro _ base h st p fuel hhist hp hbase hfuel
    have hne : st.history ≠ [] := by
      rw [hhist]
      simp
    cases fuel with
    | zero => rw [hhist] at hfuel; simp at hfuel
    | succ n =>
      unfold undoGo
      rw [if_pos ⟨hp, hne⟩]
      have hlast : st.history.getLast? = some base := by
        rw [hhist]
        exact List.getLast?_concat ..
      rw [hlast]
      have hdrop : st.history.dropLast = h := by
        rw [hhist]
        exact List.dropLast_concat ..
      rw [hdrop]
      dsimp only
      rw [undoGo_stop n _ base hbase]
  | append_singleton as a ih =>
    intro hautos base h st p fuel hhist hp hbase hfuel
    have ha : a.isAuto = true := hautos a (by simp)
    have has : ∀ x ∈ as, x.isAuto = true := fun x hx => hautos x (by simp [hx])
    have hhist2 : st.history = (h ++ base :: as) ++ [a] := by
      rw [hhist]
      simp
    have hne : st.history ≠ [] := by
      rw [hhist2]
      simp
    cases fuel with
    | zero => rw [hhist2] at hfuel; simp at hfuel
    | succ n =>
      unfold undoGo
      rw [if_pos ⟨hp, hne⟩]
      have hlast : st.history.getLast? = some a := by
        rw [hhist2]
        exact List.getLast?_concat ..
      rw [hlast]
      have hdrop : st.history.dropLast = h ++ base :: as := by
        rw [hhist2]
        exact List.dropLast_concat ..
      rw [hdrop]
      dsimp only
      rw [ih has base h (applySnap st (h ++ base :: as) a) a n rfl ha hbase
        (by
          show (h ++ base :: as).length < n
          rw [hhist2] at hfuel
          simp only [List.length_append, List.length_cons] at hfuel ⊢
          simp at hfuel
          omega)]
      rfl

/-- The grouped undo on a history of the form
`older ++ [manual snapshot] ++ cascade snapshots`: everything down to the
manual snapshot is popped and restored; the status is forced to `playing`;
`timerRunning` is forced to `true` exactly when there was no cascade
snapshot (otherwise the loop's final restore overwrites it with the manual
snapshot's value). -/
theorem undo_shape (T : GameState) (h : List Snapshot) (base : Snapshot)
    (autos : List Snapshot) (hhist : T.history = h ++ base :: autos)
    (hbase : base.isAuto = false) (hautos : ∀ a ∈ autos, a.isAuto = true) :
    undo T = if autos = []
      then { applySnap T h base with status := .playing, timerRunning := true }
      else { applySnap T h base with status := .playing } := by
  cases autos using List.reverseRecOn with
  | nil =>
    rw [if_pos rfl]
    unfold undo
    have hlast : T.history.getLast? = some base := by
      rw [hhist]
      exact List.getLast?_concat ..
    rw [hlast]
    dsimp only
    have hdrop : T.history.dropLast = h := by
      rw [hhist]
      exact List.dropLast_concat ..
    rw [hdrop]
    unfold undoWhile
    rw [undoGo_stop _ _ base hbase]
  | append_singleton as a =>
    rw [if_neg (by simp)]
    unfold undo
    have ha : a.isAuto = true := hautos a (by simp)
    have has : ∀ x ∈ as, x.isAuto = true := fun x hx => hautos x (by simp [hx])
    have hhist2 : T.history = (h ++ base :: as) ++ [a] := by
      rw [hhist]
      simp
    have hlast : T.history.getLast? = some a := by
      rw [hhist2]
      exact List.getLast?_concat ..
    rw [hlast]
    dsimp only
    have hdrop : T.history.dropLast = h ++ base :: as := by
      rw [hhist2]
      exact List.dropLast_concat ..
    rw [hdrop]
    unfold undoWhile
    rw [undoGo_shape as has base h _ a _ rfl ha hbase (by simp)]
    rfl

/-- Undoing an operation that pushed the manual snapshot of `S` followed by
cascade snapshots restores `S`, except that `timerRunning` is forced to
`true` when no cascade snapshot was pushed. -/
theorem undo_of_shape {S T : GameState} (autos : List Snapshot)
    (hstat : S.status = GameStatus.playing)
    (hhist : T.history = S.history ++ mkSnapshot S false :: autos)
    (hvis : T.isTimerVisible = S.isTimerVisible)
    (hautos : ∀ a ∈ autos, a.isAuto = true) :
    undo T = S ∨ undo T = { S with timerRunning := true } := by
  have hu := undo_shape T S.history (mkSnapshot S false) autos hhist rfl hautos
  by_cases he : autos = []
  · rw [if_pos he] at hu
    right
    rw [hu]
    exact gameStateExt rfl rfl rfl rfl hstat.symm rfl rfl rfl rfl rfl rfl hvis
  · rw [if_neg he] at hu
    left
    rw [hu]
    exact gameStateExt rfl rfl rfl rfl hstat.symm rfl rfl rfl rfl rfl rfl hvis

/-! ## Case analyses of the dragon collector and the auto-solver -/

/-- Exhaustive case analysis of `collectDragons`: a no-op, or a committed
collection followed by the cascade. -/
theorem collectDragons_spec (S : GameState) (color : CardColor) :
    collectDragons S color = S ∨
    ∃ locations tIdx,
      ¬(S.status ≠ GameStatus.playing ∧ S.devMode = false) ∧
      ¬S.dragons.getC color > 0 ∧
      gatherDragonLocs S (dragonIds color) = some locations ∧
      ¬(locations.length ≠ 4 ∧ S.devMode = false) ∧
      dragonTarget S locations = some tIdx ∧
      collectDragons S color = autoMoveOnes
        { S with
          columns := (removeDLocs locations (S.columns, S.freeCells)).1,
          freeCells := (removeDLocs locations
            (S.columns, S.freeCells)).2.set tIdx (some (.lockedDragon color)),
          dragons := S.dragons.setC color 1,
          history := S.history ++ [mkSnapshot S false] } := by
  by_cases hgate : S.status ≠ GameStatus.playing ∧ S.devMode = false
  · refine Or.inl ?_
    unfold collectDragons
    rw [if_pos hgate]
  · by_cases hcol : S.dragons.getC color > 0
    · refine Or.inl ?_
      unfold collectDragons
      rw [if_neg hgate, if_pos hcol]
    · cases hg : gatherDragonLocs S (dragonIds color) with
      | none =>
        refine Or.inl ?_
        unfold collectDragons
        rw [if_neg hgate, if_neg hcol, hg]
      | some locations =>
        by_cases hlen : locations.length ≠ 4 ∧ S.devMode = false
        · refine Or.inl ?_
          unfold collectDragons
          rw [if_neg hgate, if_neg hcol, hg]
          dsimp only
          rw [if_pos hlen]
        · cases ht : dragonTarget S locations with
          | none =>
            refine Or.inl ?_
            unfold collectDragons
            rw [if_neg hgate, if_neg hcol, hg]
            dsimp only
            rw [if_neg hlen, ht]
          | some tIdx =>
            refine Or.inr ⟨locations, tIdx, hgate, hcol, rfl, hlen, ht, ?_⟩
            unfold collectDragons
            rw [if_neg hgate, if_neg hcol, hg]
            dsimp only
            rw [if_neg hlen, ht]

/-- The wand loop touches only the board triple: history, status, dragons
and all identity/timer fields pass through unchanged. -/
theorem wandGo_fields :
    ∀ (fuel : Nat) (cur : GameState),
      (wandGo fuel cur).1.history = cur.history ∧
      (wandGo fuel cur).1.status = cur.status ∧
      (wandGo fuel cur).1.dragons = cur.dragons ∧
      (wandGo fuel cur).1.devMode = cur.devMode ∧
      (wandGo fuel cur).1.gameId = cur.gameId ∧
      (wandGo fuel cur).1.startTime = cur.startTime ∧
      (wandGo fuel cur).1.elapsedTime = cur.elapsedTime ∧
      (wandGo fuel cur).1.timerRunning = cur.timerRunning ∧
      (wandGo fuel cur).1.isTimerVisible = cur.isTimerVisible := by
  intro fuel
  induction fuel with
  | zero =>
    intro cur
    exact ⟨rfl, rfl, rfl, rfl, rfl, rfl, rfl, rfl, rfl⟩
  | succ n ih =>
    intro cur
    unfold wandGo
    dsimp only
    by_cases h9 : minFound cur.foundations + 1 > 9
    · rw [if_pos h9]
      exact ⟨rfl, rfl, rfl, rfl, rfl, rfl, rfl, rfl, rfl⟩
    · rw [if_neg h9]
      cases hg : gatherWandLocs cur (minFound cur.foundations + 1) with
      | none => exact ⟨rfl, rfl, rfl, rfl, rfl, rfl, rfl, rfl, rfl⟩
      | some locations =>
        dsimp only
        by_cases hE : locations.isEmpty
        · rw [if_pos hE]
          exact ⟨rfl, rfl, rfl, rfl, rfl, rfl, rfl, rfl, rfl⟩
        · rw [if_neg hE]
          exact ih _

/-- Exhaustive case analysis of `performWandMove`: a no-op, or a committed
run followed by the cascade. -/
theorem performWandMove_spec (S : GameState) :
    performWandMove S = S ∨
    (¬(S.status ≠ GameStatus.playing ∧ S.devMode = false) ∧
      (wandLoop S).2 = true ∧
      performWandMove S = autoMoveOnes
        { (wandLoop S).1 with
          history := S.history ++ [mkSnapshot S false],
          status := if winCondF (wandLoop S).1.foundations (wandLoop S).1.dragons
            then GameStatus.won else (wandLoop S).1.status }) := by
  by_cases hgate : S.status ≠ GameStatus.playing ∧ S.devMode = false
  · refine Or.inl ?_
    unfold performWandMove
    rw [if_pos hgate]
  · cases hm : (wandLoop S).2 with
    | false =>
      refine Or.inl ?_
      unfold performWandMove
      rw [if_neg hgate]
      dsimp only
      rw [hm]
      rfl
    | true =>
      refine Or.inr ⟨hgate, rfl, ?_⟩
      unfold performWandMove
      rw [if_neg hgate]
      dsimp only
      rw [hm]
      rfl

/-! ## Concrete states for witnesses and counterexamples -/

/-- A plain manual snapshot used to populate histories in examples. -/
def snapA : Snapshot :=
  { columns := [[], [], [], [], [], [], [], []],
    freeCells := [none, none, none], foundations := ⟨0, 0, 0, false⟩,
    dragons := ⟨0, 0, 0⟩, devMode := false, gameId := 1, startTime := none,
    elapsedTime := 0, timerRunning := false, isTimerVisible := true,
    isAuto := false }

/-- A small playing state: one green 2 in the first column. -/
def stateA : GameState :=
  { columns := [[.normal .green 2], [], [], [], [], [], [], []],
    freeCells := [none, none, none], foundations := ⟨0, 0, 0, false⟩,
    dragons := ⟨0, 0, 0⟩, status := .playing, history := [], devMode := false,
    gameId := 1, startTime := none, elapsedTime := 0, timerRunning := false,
    isTimerVisible := true }

/-- `stateA`, paused with one history entry. -/
def pausedA : GameState :=
  { stateA with status := .paused, history := [snapA] }

/-- A playing state with an exposed green 1 and one history entry. -/
def stateB : GameState :=
  { stateA with
    columns := [[.normal .green 1], [], [], [], [], [], [], []],
    history := [snapA] }

/-! ## Claim C2 -/

/-- Claim C2, counterexample: from a playing state with the timer not
running, a successful `moveCard` with no cascade produces a changed state
whose `undo` does not reproduce the original state (`timerRunning` is
forced to `true`). -/
theorem c2_counterexample :
    stateA.devMode = false ∧ stateA.status = GameStatus.playing ∧
    moveCardRun stateA (.normal .green 2) (.col (some 1)) false 5 ≠ stateA ∧
    undo (moveCardRun stateA (.normal .green 2) (.col (some 1)) false 5) ≠
      stateA := by
  decide

/-- Claim C2 (amended): from a playing state, undoing the changed state
produced by `moveCard`, `collectDragons` or `performWandMove` pops the
whole snapshot group and reproduces the original state exactly, except
that `timerRunning` may be forced to `true` (it is, exactly when no
cascade snapshot was popped); in particular the original state is
reproduced exactly whenever its timer was already running. -/
theorem c2_undo_left_inverse (S : GameState)
    (hstat : S.status = GameStatus.playing) :
    (∀ cid t sk now, moveCardRun S cid t sk now ≠ S →
      undo (moveCardRun S cid t sk now) = S ∨
      undo (moveCardRun S cid t sk now) = { S with timerRunning := true }) ∧
    (∀ color, collectDragons S color ≠ S →
      undo (collectDragons S color) = S ∨
      undo (collectDragons S color) = { S with timerRunning := true }) ∧
    (performWandMove S ≠ S →
      undo (performWandMove S) = S ∨
      undo (performWandMove S) = { S with timerRunning := true }) := by
  refine ⟨?_, ?_, ?_⟩
  · intro cid t sk now hne
    rcases moveCardE_spec S cid t sk now with hok | ⟨-, -, -, -, -, -, -, herr⟩ |
      ⟨-, src, c1, ce1, cm, nc, nf, nfo, -, -, -, -, heq⟩
    · exact absurd (by unfold moveCardRun; rw [hok]) hne
    · exact absurd (by unfold moveCardRun; rw [herr]) hne
    · have hrun : moveCardRun S cid t sk now =
          (if sk then moveCommit S now nc nf nfo
           else autoMoveOnes (moveCommit S now nc nf nfo)) := by
        unfold moveCardRun
        rw [heq]
      rw [hrun] at hne ⊢
      cases sk with
      | true =>
        rw [if_pos rfl] at hne ⊢
        exact undo_of_shape [] hstat rfl rfl (by simp)
      | false =>
        rw [if_neg (by simp)] at hne ⊢
        obtain ⟨autos, hh1, hh2, -, -, -, -, -, -, hvis, -⟩ :=
          autoMoveOnes_spec (moveCommit S now nc nf nfo)
        refine undo_of_shape autos hstat ?_ hvis hh2
        rw [hh1]
        show (S.history ++ [mkSnapshot S false]) ++ autos = _
        simp
  · intro color hne
    rcases collectDragons_spec S color with hok |
      ⟨locations, tIdx, -, -, -, -, -, heq⟩
    · exact absurd hok hne
    · rw [heq] at hne ⊢
      obtain ⟨autos, hh1, hh2, -, -, -, -, -, -, hvis, -⟩ := autoMoveOnes_spec _
      refine undo_of_shape autos hstat ?_ hvis hh2
      rw [hh1]
      show (S.history ++ [mkSnapshot S false]) ++ autos = _
      simp
  · intro hne
    rcases performWandMove_spec S with hok | ⟨-, -, heq⟩
    · exact absurd hok hne
    · rw [heq] at hne ⊢
      obtain ⟨autos, hh1, hh2, -, -, -, -, -, -, hvis, -⟩ := autoMoveOnes_spec _
      refine undo_of_shape autos hstat ?_ ?_ hh2
      · rw [hh1]
        show (S.history ++ [mkSnapshot S false]) ++ autos = _
        simp
      · rw [hvis]
        exact (wandGo_fields 10 S).2.2.2.2.2.2.2.2

/-- Claim C2, witness: undoing a cascading move from `stateB` (timer not
running, nonempty history) reproduces it exactly or with the timer forced
on; concretely the first disjunct holds. -/
theorem c2_witness :
    moveCardRun stateB (.normal .green 1) (.free (some 0)) false 5 ≠ stateB ∧
    (undo (moveCardRun stateB (.normal .green 1) (.free (some 0)) false 5)
        = stateB ∨
      undo (moveCardRun stateB (.normal .green 1) (.free (some 0)) false 5)
        = { stateB with timerRunning := true }) :=
  ⟨by decide,
    (c2_undo_left_inverse stateB rfl).1 (.normal .green 1) (.free (some 0))
      false 5 (by decide)⟩

/-! ## Claim C7 -/

/-- Claim C7, counterexample: `undo` is not blocked while paused — on a
paused state with nonempty history it changes the state (restoring the
snapshot and setting the status back to `playing`). -/
theorem c7_counterexample :
    pausedA.status = GameStatus.paused ∧ pausedA.devMode = false ∧
    undo pausedA ≠ pausedA ∧ (undo pausedA).status = GameStatus.playing := by
  decide

/-- Claim C7 (amended): outside `devMode`, while `paused` and while `won`
the four board commands `moveCard`, `collectDragons`, `performWandMove`
and `triggerAutoMove` leave the state unchanged (`undo`, `newGame` and
`restartGame` remain available; `undo` is not blocked while paused). -/
theorem c7_status_gating (S : GameState) (hdev : S.devMode = false)
    (hs : S.status = GameStatus.paused ∨ S.status = GameStatus.won) :
    (∀ cid t sk now, moveCardRun S cid t sk now = S) ∧
    (∀ color, collectDragons S color = S) ∧
    performWandMove S = S ∧
    (∀ now, triggerAutoMove S now = S) := by
  have hne : S.status ≠ GameStatus.playing := by
    rcases hs with h | h <;> rw [h] <;> intro hc <;> exact GameStatus.noConfusion hc
  exact ⟨fun cid t sk now => moveCardRun_gate cid t sk now hne hdev,
    fun color => collectDragons_gate color hne hdev,
    performWandMove_gate hne hdev,
    fun now => triggerAutoMove_gate now hne hdev⟩

/-- Claim C7, witness: the four board commands are no-ops on the concrete
paused state. -/
theorem c7_witness :
    moveCardRun pausedA (.normal .green 2) (.free (some 0)) false 0 = pausedA ∧
    collectDragons pausedA .green = pausedA ∧
    performWandMove pausedA = pausedA ∧
    triggerAutoMove pausedA 0 = pausedA :=
  have h := c7_status_gating pausedA rfl (Or.inl rfl)
  ⟨h.1 (.normal .green 2) (.free (some 0)) false 0, h.2.1 .green, h.2.2.1,
    h.2.2.2 0⟩

/-! ## Claim C9 -/

/-- Claim C9: a cascade pass that relocates at least one card appends
exactly one `isAuto=true` snapshot, except that nothing is recorded while
the history is empty; a pass that relocates nothing appends none; hence a
whole run appends only `isAuto=true` snapshots and none from an empty
history. -/
theorem c9_cascade_snapshot_rule (isFull : Bool) (s : GameState) :
    (passMoves isFull s ≠ [] → s.history ≠ [] →
      (passStep isFull s).history = s.history ++ [mkSnapshot s true] ∧
        (mkSnapshot s true).isAuto = true) ∧
    (passMoves isFull s ≠ [] → s.history = [] →
      (passStep isFull s).history = []) ∧
    (passMoves isFull s = [] → passStep isFull s = s) ∧
    (∃ autos, (autoMoveOnes s).history = s.history ++ autos ∧
      (∀ a ∈ autos, a.isAuto = true) ∧ (s.history = [] → autos = [])) := by
  obtain ⟨h1, h2, h3⟩ := passStep_hist isFull s
  obtain ⟨autos, ha1, ha2, ha3, -⟩ := autoMoveOnes_spec s
  exact ⟨fun hm hh => ⟨h1 hm hh, rfl⟩, h2, h3, autos, ha1, ha2, ha3⟩

/-- Claim C9, witness: on a concrete state with an exposed green 1 and a
nonempty history the pass appends exactly the `isAuto=true` snapshot. -/
theorem c9_witness :
    passMoves false stateB ≠ [] ∧ stateB.history ≠ [] ∧
    (passStep false stateB).history = stateB.history ++ [mkSnapshot stateB true] :=
  ⟨by decide, by decide,
    ((c9_cascade_snapshot_rule false stateB).1 (by decide) (by decide)).1⟩

/-! ## Claim C10 -/

/-- Claim C10: the cascade terminates — every pass that relocates at least
one card strictly decreases the number of cards held in the columns and
free cells (bounded below by zero), and the loop therefore reaches a state
admitting no further pass. -/
theorem c10_cascade_terminates (isFull : Bool) (s : GameState) :
    (passMoves isFull s ≠ [] → boardCount (passStep isFull s) < boardCount s) ∧
    passMoves isFull (autoMoveLoop isFull s) = [] :=
  ⟨fun h => pass_decreases h,
    autoMoveGo_fix isFull (boardCount s + 1) s (by omega)⟩

/-- Claim C10, witness: on the concrete state the continuing pass strictly
decreases the held-card count. -/
theorem c10_witness :
    passMoves false stateB ≠ [] ∧
    boardCount (passStep false stateB) < boardCount stateB :=
  ⟨by decide, (c10_cascade_terminates false stateB).1 (by decide)⟩

/-- A column target whose parsed index is out of range throws (reading
`.length` of `undefined`). -/
theorem moveApply_col_outrange {S : GameState} {cid : Card} {j : Nat}
    {c1 : List (List Card)} {ce1 : List (Option Card)} {cm : List Card}
    (hj : ¬j < c1.length) :
    moveApply S cid (.col (some j)) c1 ce1 cm = .error () := by
  unfold moveApply
  dsimp only
  rw [if_neg hj]

/-! ## Claim C4 -/

/-- Claim C4, counterexample: `moveCard` does throw — addressing an
existing card at the out-of-range column target `col-8` reads `.length` of
`undefined` and raises a `TypeError` (modelled as `.error ()`). -/
theorem c4_counterexample :
    moveCardE stateA (.normal .green 2) (.col (some 8)) false 0 = .error () :=
  rfl

/-- Claim C4 (amended): `moveCard` is a silent no-op, returning the input
state unchanged, on an unknown card id, an unrecognized target prefix, an
unknown foundation id, a wrong-suit foundation move (the moved card is not
the matching normal card of the foundation's color, nor the flower on the
flower foundation), a wrong-rank foundation move (a matching-suit card
whose value is not the counter plus one, outside `devMode`), a
stacking-rule violation, and an occupied (by another card) or locked
in-range free cell; and it never throws unless the target is a column
whose parsed index is `NaN` or out of range (where the code raises a
`TypeError`; a free-cell index out of range instead moves the card outside
the three cells). -/
theorem c4_silent_noop :
    (∀ (S : GameState) cid t sk now, findSource S cid = none →
      moveCardRun S cid t sk now = S) ∧
    (∀ (S : GameState) cid sk now, moveCardRun S cid .invalid sk now = S) ∧
    (∀ (S : GameState) cid sk now,
      moveCardRun S cid (.foundation .other) sk now = S) ∧
    (∀ (S : GameState) cid sk now fid,
      (fid = FoundationId.flower → cid ≠ Card.flower) →
      (∀ cl v, cid = Card.normal cl v →
        (fid = FoundationId.green → cl ≠ CardColor.green) ∧
        (fid = FoundationId.red → cl ≠ CardColor.red) ∧
        (fid = FoundationId.black → cl ≠ CardColor.black)) →
      moveCardRun S cid (.foundation fid) sk now = S) ∧
    (∀ (S : GameState) cid sk now cl v fid, S.devMode = false →
      cid = Card.normal cl v →
      ((fid = FoundationId.green ∧ cl = CardColor.green) ∨
        (fid = FoundationId.red ∧ cl = CardColor.red) ∨
        (fid = FoundationId.black ∧ cl = CardColor.black)) →
      v ≠ S.foundations.getC cl + 1 →
      moveCardRun S cid (.foundation fid) sk now = S) ∧
    (∀ (S : GameState) cid sk now i, S.devMode = false →
      findSource S cid = some (.col i) →
      validRun ((S.columns.getD i []).drop
        ((S.columns.getD i []).findIdx (· == cid))) = false →
      ∀ t, moveCardRun S cid t sk now = S) ∧
    (∀ (S : GameState) cid j sk now w, S.devMode = false →
      S.freeCells.getD j none = some w → w ≠ cid →
      moveCardRun S cid (.free (some j)) sk now = S) ∧
    (∀ (S : GameState) cid t sk now,
      (∀ j, t = Target.col (some j) → j < S.columns.length) →
      t ≠ Target.col none →
      ∀ e, moveCardE S cid t sk now ≠ .error e) := by
  refine ⟨?_, ?_, ?_, ?_, ?_, ?_, ?_, ?_⟩
  · intro S cid t sk now hfs
    rcases moveCardE_spec S cid t sk now with hok | ⟨src, -, -, -, hsrc, -⟩ |
      ⟨-, src, -, -, -, -, -, -, hsrc, -⟩
    · unfold moveCardRun
      rw [hok]
    · rw [hfs] at hsrc
      exact Option.noConfusion hsrc
    · rw [hfs] at hsrc
      exact Option.noConfusion hsrc
  · intro S cid sk now
    refine moveCardRun_noop ?_
    intro src c1 ce1 cm nc nf nfo hsrc hprep happ
    have : moveApply S cid .invalid c1 ce1 cm = .ok none := rfl
    rw [this] at happ
    exact Option.noConfusion (Except.ok.inj happ)
  · intro S cid sk now
    refine moveCardRun_noop ?_
    intro src c1 ce1 cm nc nf nfo hsrc hprep happ
    have : moveApply S cid (.foundation .other) c1 ce1 cm = .ok none := by
      unfold moveApply
      dsimp only
      by_cases hl : (cm.length == 1) = true
      · rw [if_pos hl]
      · rw [if_neg hl]
    rw [this] at happ
    exact Option.noConfusion (Except.ok.inj happ)
  · intro S cid sk now fid h1 h2
    refine moveCardRun_noop ?_
    intro src c1 ce1 cm nc nf nfo hsrc hprep happ
    have hhead := (movePrep_spec hprep).1
    have hap : moveApply S cid (.foundation fid) c1 ce1 cm = .ok none := by
      unfold moveApply
      dsimp only
      by_cases hl : (cm.length == 1) = true
      · rw [if_pos hl, hhead]
        cases fid with
        | flower =>
          cases cid with
          | flower => exact absurd rfl (h1 rfl)
          | normal cl v => cases cl <;> rfl
          | dragon cl i => rfl
          | lockedDragon cl => rfl
        | green =>
          cases cid with
          | normal cl v =>
            cases cl with
            | green => exact absurd rfl ((h2 _ _ rfl).1 rfl)
            | red => rfl
            | black => rfl
          | flower => rfl
          | dragon cl i => rfl
          | lockedDragon cl => rfl
        | red =>
          cases cid with
          | normal cl v =>
            cases cl with
            | green => rfl
            | red => exact absurd rfl ((h2 _ _ rfl).2.1 rfl)
            | black => rfl
          | flower => rfl
          | dragon cl i => rfl
          | lockedDragon cl => rfl
        | black =>
          cases cid with
          | normal cl v =>
            cases cl with
            | green => rfl
            | red => rfl
            | black => exact absurd rfl ((h2 _ _ rfl).2.2 rfl)
          | flower => rfl
          | dragon cl i => rfl
          | lockedDragon cl => rfl
        | other =>
          cases cid with
          | normal cl v => cases cl <;> rfl
          | flower => rfl
          | dragon cl i => rfl
          | lockedDragon cl => rfl
      · rw [if_neg hl]
    rw [hap] at happ
    exact Option.noConfusion (Except.ok.inj happ)
  · intro S cid sk now cl v fid hdev hcid hfid hv
    refine moveCardRun_noop ?_
    intro src c1 ce1 cm nc nf nfo hsrc hprep happ
    subst hcid
    have hhead := (movePrep_spec hprep).1
    rcases hfid with ⟨hf, hc⟩ | ⟨hf, hc⟩ | ⟨hf, hc⟩
    · subst hf
      subst hc
      have hap : moveApply S (.normal .green v) (.foundation .green) c1 ce1 cm
          = .ok none := by
        unfold moveApply
        dsimp only
        by_cases hl : (cm.length == 1) = true
        · rw [if_pos hl, hhead]
          show (if (v == S.foundations.green + 1 || S.devMode) = true then
            Except.ok (some (c1, ce1, S.foundations.setC .green v))
            else .ok none) = .ok none
          rw [hdev, Bool.or_false, if_neg (by simpa [Foundations.getC] using hv)]
        · rw [if_neg hl]
      rw [hap] at happ
      exact Option.noConfusion (Except.ok.inj happ)
    · subst hf
      subst hc
      have hap : moveApply S (.normal .red v) (.foundation .red) c1 ce1 cm
          = .ok none := by
        unfold moveApply
        dsimp only
        by_cases hl : (cm.length == 1) = true
        · rw [if_pos hl, hhead]
          show (if (v == S.foundations.red + 1 || S.devMode) = true then
            Except.ok (some (c1, ce1, S.foundations.setC .red v))
            else .ok none) = .ok none
          rw [hdev, Bool.or_false, if_neg (by simpa [Foundations.getC] using hv)]
        · rw [if_neg hl]
      rw [hap] at happ
      exact Option.noConfusion (Except.ok.inj happ)
    · subst hf
      subst hc
      have hap : moveApply S (.normal .black v) (.foundation .black) c1 ce1 cm
          = .ok none := by
        unfold moveApply
        dsimp only
        by_cases hl : (cm.length == 1) = true
        · rw [if_pos hl, hhead]
          show (if (v == S.foundations.black + 1 || S.devMode) = true then
            Except.ok (some (c1, ce1, S.foundations.setC .black v))
            else .ok none) = .ok none
          rw [hdev, Bool.or_false, if_neg (by simpa [Foundations.getC] using hv)]
        · rw [if_neg hl]
      rw [hap] at happ
      exact Option.noConfusion (Except.ok.inj happ)
  · intro S cid sk now i hdev hfs hrun t
    refine moveCardRun_noop ?_
    intro src c1 ce1 cm nc nf nfo hsrc hprep happ
    rw [hfs] at hsrc
    injection hsrc with hsrc
    subst hsrc
    unfold movePrep at hprep
    dsimp only at hprep
    rw [if_pos (by rw [hdev, hrun]; rfl)] at hprep
    exact Option.noConfusion hprep
  · intro S cid j sk now w hdev hcell hwne
    refine moveCardRun_noop ?_
    intro src c1 ce1 cm nc nf nfo hsrc hprep happ
    by_cases hlock : w.isLockedB = true
    · obtain ⟨c⟩ := (by
        cases hwc : w with
        | lockedDragon c => exact ⟨c, rfl⟩
        | normal a b => rw [hwc] at hlock; exact Bool.noConfusion hlock
        | dragon a b => rw [hwc] at hlock; exact Bool.noConfusion hlock
        | flower => rw [hwc] at hlock; exact Bool.noConfusion hlock :
        ∃ c, w = Card.lockedDragon c)
      rename_i hwc
      rw [@moveApply_locked_target _ _ _ _ _ _ c
        (by show S.freeCells.getD j none = _; rw [hcell, hwc])] at happ
      exact Option.noConfusion (Except.ok.inj happ)
    · have hocc : jsGetCell ce1 (some j) ≠ none := by
        cases src with
        | col i =>
          have := (movePrep_spec hprep).2.2.2 i rfl
          rw [this]
          show S.freeCells.getD j none ≠ none
          rw [hcell]
          exact Option.noConfusion
        | free i =>
          obtain ⟨hc1, hce1, -⟩ := (movePrep_spec hprep).2.2.1 i rfl
          have hci := findSource_free_spec hsrc
          have hij : i ≠ j := by
            intro hctr
            subst hctr
            rw [hci.2.1] at hcell
            exact hwne (Option.some.inj hcell).symm
          rw [hce1]
          show (S.freeCells.set i none).getD j none ≠ none
          rw [getD_set_ne _ _ _ hij, hcell]
          exact Option.noConfusion
      rw [moveApply_free_occupied hdev (by
        show (jsGetCell S.freeCells (some j)).elim false Card.isLockedB = false
        show (S.freeCells.getD j none).elim false Card.isLockedB = false
        rw [hcell]
        simpa using hlock) hocc] at happ
      exact Option.noConfusion (Except.ok.inj happ)
  · intro S cid t sk now hcol hnan e
    rcases moveCardE_spec S cid t sk now with hok |
      ⟨src, c1, ce1, cm, hsrc, hprep, happ, herr⟩ |
      ⟨hg, src, c1, ce1, cm, nc, nf, nfo, hsrcx, hinvx, hprepx, happx, heq⟩
    · rw [hok]
      exact fun h => Except.noConfusion h
    · exfalso
      cases t with
      | col idx =>
        cases idx with
        | none => exact hnan rfl
        | some j =>
          have hj : j < c1.length := by
            rw [(movePrep_spec hprep).2.1]
            exact hcol j rfl
          exact moveApply_col_inrange_ne_error hj () happ
      | free tIdx => exact moveApply_ne_error_of_not_col (by simp) () happ
      | foundation fid => exact moveApply_ne_error_of_not_col (by simp) () happ
      | invalid => exact moveApply_ne_error_of_not_col (by simp) () happ
    · rw [heq]
      split <;> exact fun h => Except.noConfusion h

/-- Claim C4, witness: concrete silent no-ops — an unknown card id
(the red 1 is not on the board of `stateA`), a wrong-suit foundation move
(the green 2 onto the red foundation) and a wrong-rank one (the green 2
onto the empty green foundation) all leave the state unchanged, and a
well-formed command does not throw. -/
theorem c4_witness :
    moveCardRun stateA (.normal .red 1) (.col (some 1)) false 0 = stateA ∧
    moveCardRun stateA (.normal .green 2) (.foundation .red) false 0 = stateA ∧
    moveCardRun stateA (.normal .green 2) (.foundation .green) false 0 = stateA ∧
    moveCardRun stateA (.normal .green 2) (.free (some 5)) false 0 ≠ stateA ∧
    (∀ e, moveCardE stateA (.normal .green 2) (.col (some 1)) false 0 ≠
      .error e) :=
  ⟨c4_silent_noop.1 stateA (.normal .red 1) (.col (some 1)) false 0 (by decide),
    c4_silent_noop.2.2.2.1 stateA (.normal .green 2) false 0 .red
      (by decide)
      (fun cl v hcv => by
        injection hcv with hc hv
        subst hc
        decide),
    c4_silent_noop.2.2.2.2.1 stateA (.normal .green 2) false 0 .green 2 .green
      rfl rfl (Or.inl ⟨rfl, rfl⟩) (by decide),
    by decide,
    c4_silent_noop.2.2.2.2.2.2.2 stateA (.normal .green 2) (.col (some 1))
      false 0
      (fun j hj => by
        injection hj with hj
        injection hj with hj
        subst hj
        decide)
      (by decide)⟩

/-! ## Claim C6 -/

/-- A playing state with the four green dragons exposed: two in free
cells, two on top of columns. -/
def dragonA : GameState :=
  { columns := [[.dragon .green 2], [.dragon .green 3], [.normal .red 5],
      [], [], [], [], []],
    freeCells := [some (.dragon .green 0), some (.dragon .green 1), none],
    foundations := ⟨0, 0, 0, false⟩, dragons := ⟨0, 0, 0⟩,
    status := .playing, history := [], devMode := false, gameId := 1,
    startTime := none, elapsedTime := 0, timerRunning := false,
    isTimerVisible := true }

/-- Claim C6, counterexample: after a successful `collectDragons` the
locked marker sits in free cell 0, yet a subsequent `moveCard` relocates
it into the empty column 0, leaving the free cell empty — the marker is
not immobile. -/
theorem c6_counterexample :
    (collectDragons dragonA .green).freeCells.getD 0 none =
      some (.lockedDragon .green) ∧
    (moveCardRun (collectDragons dragonA .green) (.lockedDragon .green)
      (.col (some 0)) false 0).columns.getD 0 [] = [.lockedDragon .green] ∧
    (moveCardRun (collectDragons dragonA .green) (.lockedDragon .green)
      (.col (some 0)) false 0).freeCells.getD 0 none = none := by
  refine ⟨by decide, by decide, by decide⟩

/-- Claim C6 (amended): outside `devMode` the locked marker can only
relocate to an empty column or an empty free cell — `moveCard` leaves the
state unchanged when the marker is sent to a nonempty column, to any
foundation, or to an occupied free cell; and a free cell holding a locked
marker rejects every incoming card. The marker is not immobile: it can
still be moved to empty slots (see the counterexample). -/
theorem c6_marker_mobility :
    (∀ (S : GameState) cid (c : CardColor) tIdx sk now,
      jsGetCell S.freeCells tIdx = some (.lockedDragon c) →
      moveCardRun S cid (.free tIdx) sk now = S) ∧
    (∀ (S : GameState) (c : CardColor) i j sk now, S.devMode = false →
      findSource S (.lockedDragon c) = some (.free i) →
      S.columns.getD j [] ≠ [] →
      moveCardRun S (.lockedDragon c) (.col (some j)) sk now = S) ∧
    (∀ (S : GameState) (c : CardColor) fid sk now,
      moveCardRun S (.lockedDragon c) (.foundation fid) sk now = S) ∧
    (∀ (S : GameState) (c : CardColor) j w sk now, S.devMode = false →
      S.freeCells.getD j none = some w → w ≠ .lockedDragon c →
      moveCardRun S (.lockedDragon c) (.free (some j)) sk now = S) := by
  refine ⟨?_, ?_, ?_, ?_⟩
  · intro S cid c tIdx sk now hcell
    refine moveCardRun_noop ?_
    intro src c1 ce1 cm nc nf nfo hsrc hprep happ
    rw [moveApply_locked_target hcell] at happ
    exact Option.noConfusion (Except.ok.inj happ)
  · intro S c i j sk now hdev hfs hjne
    refine moveCardRun_noop ?_
    intro src c1 ce1 cm nc nf nfo hsrc hprep happ
    rw [hfs] at hsrc
    injection hsrc with hsrc
    subst hsrc
    obtain ⟨hc1, hce1, hcm⟩ := (movePrep_spec hprep).2.2.1 i rfl
    by_cases hj : j < c1.length
    · rw [moveApply_col_stackfail hdev hj (by rw [hc1]; exact hjne)
        (by rw [hcm]; exact canStack_marker _ c)] at happ
      exact Option.noConfusion (Except.ok.inj happ)
    · rw [moveApply_col_outrange hj] at happ
      exact Except.noConfusion happ
  · intro S c fid sk now
    refine moveCardRun_noop ?_
    intro src c1 ce1 cm nc nf nfo hsrc hprep happ
    rw [moveApply_foundation_marker (movePrep_spec hprep).1] at happ
    exact Option.noConfusion (Except.ok.inj happ)
  · intro S c j w sk now hdev hcell hwne
    refine moveCardRun_noop ?_
    intro src c1 ce1 cm nc nf nfo hsrc hprep happ
    by_cases hlock : w.isLockedB = true
    · obtain ⟨c'⟩ := (by
        cases hwc : w with
        | lockedDragon c' => exact ⟨c', rfl⟩
        | normal a b => rw [hwc] at hlock; exact Bool.noConfusion hlock
        | dragon a b => rw [hwc] at hlock; exact Bool.noConfusion hlock
        | flower => rw [hwc] at hlock; exact Bool.noConfusion hlock :
        ∃ c', w = Card.lockedDragon c')
      rename_i hwc
      rw [@moveApply_locked_target _ _ _ _ _ _ c'
        (by show S.freeCells.getD j none = _; rw [hcell, hwc])] at happ
      exact Option.noConfusion (Except.ok.inj happ)
    · have hocc : jsGetCell ce1 (some j) ≠ none := by
        cases src with
        | col i =>
          have := (movePrep_spec hprep).2.2.2 i rfl
          rw [this]
          show S.freeCells.getD j none ≠ none
          rw [hcell]
          exact Option.noConfusion
        | free i =>
          obtain ⟨hc1, hce1, -⟩ := (movePrep_spec hprep).2.2.1 i rfl
          have hci := findSource_free_spec hsrc
          have hij : i ≠ j := by
            intro hctr
            subst hctr
            rw [hci.2.1] at hcell
            exact hwne (Option.some.inj hcell).symm
          rw [hce1]
          show (S.freeCells.set i none).getD j none ≠ none
          rw [getD_set_ne _ _ _ hij, hcell]
          exact Option.noConfusion
      rw [moveApply_free_occupied hdev (by
        show (jsGetCell S.freeCells (some j)).elim false Card.isLockedB = false
        show (S.freeCells.getD j none).elim false Card.isLockedB = false
        rw [hcell]
        simpa using hlock) hocc] at happ
      exact Option.noConfusion (Except.ok.inj happ)

/-- Claim C6, witness: in the post-collection state the marker bounces off
the nonempty column 2 and off the flower foundation, and the red 5 cannot
enter the marker's cell. -/
theorem c6_witness :
    moveCardRun (collectDragons dragonA .green) (.normal .red 5)
      (.free (some 0)) false 0 = collectDragons dragonA .green ∧
    moveCardRun (collectDragons dragonA .green) (.lockedDragon .green)
      (.col (some 2)) false 0 = collectDragons dragonA .green ∧
    moveCardRun (collectDragons dragonA .green) (.lockedDragon .green)
      (.foundation .flower) false 0 = collectDragons dragonA .green :=
  ⟨c6_marker_mobility.1 (collectDragons dragonA .green) (.normal .red 5)
      .green (some 0) false 0 (by decide),
    c6_marker_mobility.2.1 (collectDragons dragonA .green) .green 0 2 false 0
      (by decide) (by decide) (by decide),
    c6_marker_mobility.2.2.1 (collectDragons dragonA .green) .green .flower
      false 0⟩

/-! ## Claim C8 -/

/-- Unfolding of the trivial-movable test into the spec-side condition. -/
theorem trivialMovable_iff (isFull flag : Bool) (c : Card) :
    trivialMovable isFull flag c = true ↔
      ((∃ cl, c = Card.normal cl 1) ∨
        (c = Card.flower ∧ (isFull = true ∨ flag = false))) := by
  cases c with
  | normal cl v =>
    unfold trivialMovable
    dsimp only
    constructor
    · intro h
      rcases Bool.or_eq_true_iff.mp h with h1 | h1
      · have hv : v = 1 := by simpa using h1
        exact Or.inl ⟨cl, by rw [hv]⟩
      · exact absurd ((Bool.and_eq_true ..).mp h1).1 (by simp)
    · rintro (⟨cl', hc⟩ | ⟨hc, -⟩)
      · injection hc with h1 h2
        subst h1 h2
        simp
      · exact Card.noConfusion hc
  | dragon cl i =>
    unfold trivialMovable
    dsimp only
    constructor
    · intro h
      rcases Bool.or_eq_true_iff.mp h with h1 | h1
      · exact Bool.noConfusion h1
      · exact absurd ((Bool.and_eq_true ..).mp h1).1 (by simp)
    · rintro (⟨cl', hc⟩ | ⟨hc, -⟩)
      · exact Card.noConfusion hc
      · exact Card.noConfusion hc
  | lockedDragon cl =>
    unfold trivialMovable
    dsimp only
    constructor
    · intro h
      rcases Bool.or_eq_true_iff.mp h with h1 | h1
      · exact Bool.noConfusion h1
      · exact absurd ((Bool.and_eq_true ..).mp h1).1 (by simp)
    · rintro (⟨cl', hc⟩ | ⟨hc, -⟩)
      · exact Card.noConfusion hc
      · exact Card.noConfusion hc
  | flower =>
    unfold trivialMovable
    dsimp only
    constructor
    · intro h
      rcases Bool.or_eq_true_iff.mp h with h1 | h1
      · exact Bool.noConfusion h1
      · refine Or.inr ⟨rfl, ?_⟩
        rcases Bool.or_eq_true_iff.mp ((Bool.and_eq_true ..).mp h1).2 with h2 | h2
        · exact Or.inl h2
        · exact Or.inr (by simpa using h2)
    · rintro (⟨cl', hc⟩ | ⟨-, hc⟩)
      · exact Card.noConfusion hc
      · rcases hc with h2 | h2
        · simp [h2]
        · simp [h2]

/-- A trivially-movable column top is collected by the pass. -/
theorem mem_passMoves_col (isFull : Bool) (s : GameState) {j : Nat} {c : Card}
    (hj : j < s.columns.length)
    (hlast : (s.columns.getD j []).getLast? = some c)
    (htriv : trivialMovable isFull s.foundations.flower c = true) :
    (⟨.col, j, c⟩ : AutoMv) ∈ passMoves isFull s := by
  unfold passMoves
  refine List.mem_append_right _ ?_
  refine List.mem_filterMap.mpr ⟨(j, s.columns.getD j []), ?_, ?_⟩
  · rw [List.mem_enum_iff_getElem?, List.getD_eq_getElem _ _ hj]
    exact List.getElem?_eq_getElem hj
  · dsimp only
    rw [hlast]
    dsimp only
    rw [if_pos htriv]

/-- A trivially-movable free-cell card is collected by the pass. -/
theorem mem_passMoves_free (isFull : Bool) (s : GameState) {j : Nat} {c : Card}
    (hj : j < s.freeCells.length)
    (hcell : s.freeCells.getD j none = some c)
    (htriv : trivialMovable isFull s.foundations.flower c = true) :
    (⟨.free, j, c⟩ : AutoMv) ∈ passMoves isFull s := by
  unfold passMoves
  refine List.mem_append_left _ ?_
  refine List.mem_filterMap.mpr ⟨(j, s.freeCells.getD j none), ?_, ?_⟩
  · rw [List.mem_enum_iff_getElem?, List.getD_eq_getElem _ _ hj]
    exact List.getElem?_eq_getElem hj
  · dsimp only
    rw [hcell]
    dsimp only
    rw [if_pos htriv]

/-- A nonempty getD forces the index in range. -/
theorem lt_length_of_getD_ne {j : Nat} {cols : List (List Card)}
    (h : cols.getD j [] ≠ []) : j < cols.length := by
  by_contra hge
  exact h (List.getD_eq_default _ _ (by omega))

/-- A filled getD forces the index in range. -/
theorem lt_length_of_getD_some {j : Nat} {cells : List (Option Card)} {c : Card}
    (h : cells.getD j none = some c) : j < cells.length := by
  by_contra hge
  rw [List.getD_eq_default _ _ (by omega)] at h
  exact Option.noConfusion h

/-- Claim C8: in one pass of the `autoMoveOnes` cascade (`passStep`, run by
`autoMoveOnes` with `isFull` computed from the entry foundations), a column
top or free-cell card is removed exactly when it is a normal card of rank 1,
or the flower while `isFull` holds or the flower foundation is unset; a
removed normal 1 sets its suit counter and a removed flower sets the flower
flag; every other position is left unchanged. -/
theorem c8_cascade_trivial_movable (isFull : Bool) (s : GameState) (j : Nat) :
    (∀ c, (s.columns.getD j []).getLast? = some c →
      (∃ cl, c = Card.normal cl 1) ∨
        (c = Card.flower ∧ (isFull = true ∨ s.foundations.flower = false)) →
      (passStep isFull s).columns.getD j [] = (s.columns.getD j []).dropLast) ∧
    ((∀ c, (s.columns.getD j []).getLast? = some c →
        ¬((∃ cl, c = Card.normal cl 1) ∨
          (c = Card.flower ∧ (isFull = true ∨ s.foundations.flower = false)))) →
      (passStep isFull s).columns.getD j [] = s.columns.getD j []) ∧
    (∀ c, s.freeCells.getD j none = some c →
      (∃ cl, c = Card.normal cl 1) ∨
        (c = Card.flower ∧ (isFull = true ∨ s.foundations.flower = false)) →
      (passStep isFull s).freeCells.getD j none = none) ∧
    ((∀ c, s.freeCells.getD j none = some c →
        ¬((∃ cl, c = Card.normal cl 1) ∨
          (c = Card.flower ∧ (isFull = true ∨ s.foundations.flower = false)))) →
      (passStep isFull s).freeCells.getD j none = s.freeCells.getD j none) ∧
    (∀ cl, (s.columns.getD j []).getLast? = some (Card.normal cl 1) →
      (passStep isFull s).foundations.getC cl = 1) ∧
    ((s.columns.getD j []).getLast? = some Card.flower →
      (isFull = true ∨ s.foundations.flower = false) →
      (passStep isFull s).foundations.flower = true) ∧
    (∀ cl, s.freeCells.getD j none = some (Card.normal cl 1) →
      (passStep isFull s).foundations.getC cl = 1) ∧
    (s.freeCells.getD j none = some Card.flower →
      (isFull = true ∨ s.foundations.flower = false) →
      (passStep isFull s).foundations.flower = true) := by
  refine ⟨?_, ?_, ?_, ?_, ?_, ?_, ?_, ?_⟩
  · intro c hlast hmv
    have hne : s.columns.getD j [] ≠ [] := by
      intro h
      rw [h] at hlast
      exact Option.noConfusion hlast
    have hj : j < s.columns.length := lt_length_of_getD_ne hne
    have htriv : trivialMovable isFull s.foundations.flower c = true :=
      (trivialMovable_iff ..).mpr hmv
    have hcolT : colTrivial isFull s.foundations.flower (s.columns.getD j []) = true := by
      unfold colTrivial
      rw [hlast]
      exact htriv
    have hjmem : j ∈ colIdxs (passMoves isFull s) :=
      (mem_colIdxs_iff ..).mpr ⟨hj, hcolT⟩
    have hnem : ¬((passMoves isFull s).isEmpty = true) := by
      intro h
      rw [List.isEmpty_iff.mp h] at hjmem
      exact (List.not_mem_nil j) hjmem
    rw [(passStep_board isFull s).1, if_neg hnem,
      popsOf_getD _ _ (nodup_colIdxs isFull s) j, if_pos hjmem]
  · intro hn
    have hjnot : j ∉ colIdxs (passMoves isFull s) := by
      intro hmem
      obtain ⟨hj, htrivC⟩ := (mem_colIdxs_iff ..).mp hmem
      unfold colTrivial at htrivC
      cases hlast : (s.columns.getD j []).getLast? with
      | none =>
        rw [hlast] at htrivC
        exact Bool.noConfusion htrivC
      | some c =>
        rw [hlast] at htrivC
        exact hn c hlast ((trivialMovable_iff ..).mp htrivC)
    by_cases he : (passMoves isFull s).isEmpty = true
    · rw [(passStep_board isFull s).1, if_pos he]
    · rw [(passStep_board isFull s).1, if_neg he,
        popsOf_getD _ _ (nodup_colIdxs isFull s) j, if_neg hjnot]
  · intro c hcell hmv
    have hj : j < s.freeCells.length := lt_length_of_getD_some hcell
    have htriv : trivialMovable isFull s.foundations.flower c = true :=
      (trivialMovable_iff ..).mpr hmv
    have hcellT : cellTrivial isFull s.foundations.flower (s.freeCells.getD j none) = true := by
      rw [hcell]
      exact htriv
    have hjmem : j ∈ freeIdxs (passMoves isFull s) :=
      (mem_freeIdxs_iff ..).mpr ⟨hj, hcellT⟩
    have hnem : ¬((passMoves isFull s).isEmpty = true) := by
      intro h
      rw [List.isEmpty_iff.mp h] at hjmem
      exact (List.not_mem_nil j) hjmem
    rw [(passStep_board isFull s).2.1, if_neg hnem,
      clearsOf_getD _ _ (nodup_freeIdxs isFull s) j, if_pos hjmem]
  · intro hn
    have hjnot : j ∉ freeIdxs (passMoves isFull s) := by
      intro hmem
      obtain ⟨hj, htrivC⟩ := (mem_freeIdxs_iff ..).mp hmem
      cases hcell : s.freeCells.getD j none with
      | none =>
        rw [hcell] at htrivC
        exact Bool.noConfusion htrivC
      | some c =>
        rw [hcell] at htrivC
        exact hn c hcell ((trivialMovable_iff ..).mp htrivC)
    by_cases he : (passMoves isFull s).isEmpty = true
    · rw [(passStep_board isFull s).2.1, if_pos he]
    · rw [(passStep_board isFull s).2.1, if_neg he,
        clearsOf_getD _ _ (nodup_freeIdxs isFull s) j, if_neg hjnot]
  · intro cl hlast
    have hne : s.columns.getD j [] ≠ [] := by
      intro h
      rw [h] at hlast
      exact Option.noConfusion hlast
    have hm := mem_passMoves_col isFull s (lt_length_of_getD_ne hne) hlast
      ((trivialMovable_iff ..).mpr (Or.inl ⟨cl, rfl⟩))
    have hnem : ¬((passMoves isFull s).isEmpty = true) := by
      intro h
      rw [List.isEmpty_iff.mp h] at hm
      exact (List.not_mem_nil _) hm
    have hhas : hasNormal (passMoves isFull s) cl = true :=
      List.any_eq_true.mpr ⟨_, hm, by simp⟩
    rw [(passStep_board isFull s).2.2, if_neg hnem, foundUpds_getC, if_pos hhas]
  · intro hlast hfl
    have hne : s.columns.getD j [] ≠ [] := by
      intro h
      rw [h] at hlast
      exact Option.noConfusion hlast
    have hm := mem_passMoves_col isFull s (lt_length_of_getD_ne hne) hlast
      ((trivialMovable_iff ..).mpr (Or.inr ⟨rfl, hfl⟩))
    have hnem : ¬((passMoves isFull s).isEmpty = true) := by
      intro h
      rw [List.isEmpty_iff.mp h] at hm
      exact (List.not_mem_nil _) hm
    have hhas : hasFlower (passMoves isFull s) = true :=
      List.any_eq_true.mpr ⟨_, hm, by simp⟩
    rw [(passStep_board isFull s).2.2, if_neg hnem, foundUpds_flower, hhas,
      Bool.or_true]
  · intro cl hcell
    have hm := mem_passMoves_free isFull s (lt_length_of_getD_some hcell) hcell
      ((trivialMovable_iff ..).mpr (Or.inl ⟨cl, rfl⟩))
    have hnem : ¬((passMoves isFull s).isEmpty = true) := by
      intro h
      rw [List.isEmpty_iff.mp h] at hm
      exact (List.not_mem_nil _) hm
    have hhas : hasNormal (passMoves isFull s) cl = true :=
      List.any_eq_true.mpr ⟨_, hm, by simp⟩
    rw [(passStep_board isFull s).2.2, if_neg hnem, foundUpds_getC, if_pos hhas]
  · intro hcell hfl
    have hm := mem_passMoves_free isFull s (lt_length_of_getD_some hcell) hcell
      ((trivialMovable_iff ..).mpr (Or.inr ⟨rfl, hfl⟩))
    have hnem : ¬((passMoves isFull s).isEmpty = true) := by
      intro h
      rw [List.isEmpty_iff.mp h] at hm
      exact (List.not_mem_nil _) hm
    have hhas : hasFlower (passMoves isFull s) = true :=
      List.any_eq_true.mpr ⟨_, hm, by simp⟩
    rw [(passStep_board isFull s).2.2, if_neg hnem, foundUpds_flower, hhas,
      Bool.or_true]

/-- Claim C8, witness: in `stateB` the exposed green 1 is removed from
column 0 by one pass and lands on its foundation, while the red 5 of a
hypothetical untouched position stays put. -/
theorem c8_witness :
    (passStep false stateB).columns.getD 0 [] = [] ∧
    (passStep false stateB).foundations.getC .green = 1 := by
  constructor
  · have h := (c8_cascade_trivial_movable false stateB 0).1 (Card.normal .green 1)
      (by rfl) (Or.inl ⟨.green, rfl⟩)
    rw [h]
    rfl
  · exact (c8_cascade_trivial_movable false stateB 0).2.2.2.2.1 .green (by rfl)

/-! ## The card bag: deck identifiers represented by a state -/

/-- Multiset of deck identifiers represented by one card object: the locked
marker written by `collectDragons` stands for the four dragons it swallowed;
every other card stands for itself. -/
def cardExpand : Card → Multiset Card
  | .lockedDragon c => (dragonIds c : Multiset Card)
  | c => {c}

/-- Identifiers held by one column. -/
def colBag (col : List Card) : Multiset Card := (col.map cardExpand).sum

/-- Identifiers held by the columns. -/
def colsBag (cols : List (List Card)) : Multiset Card := (cols.map colBag).sum

/-- Identifiers held by one free cell. -/
def cellBag : Option Card → Multiset Card
  | some c => cardExpand c
  | none => 0

/-- Identifiers held by the free cells. -/
def cellsBag (cells : List (Option Card)) : Multiset Card :=
  (cells.map cellBag).sum

/-- Identifiers represented by one suit counter: the ranks `1..k` already
played onto that foundation. -/
def foundColorBag (c : CardColor) (k : Nat) : Multiset Card :=
  (((List.range k).map fun i => Card.normal c (i + 1)) : Multiset Card)

/-- Identifiers held by the foundations. -/
def foundsBag (f : Foundations) : Multiset Card :=
  foundColorBag .green f.green + foundColorBag .red f.red +
    foundColorBag .black f.black + (if f.flower then {Card.flower} else 0)

/-- All deck identifiers represented by a state: columns, free cells and
foundations (the collected-dragon flags are mirrored by the locked markers,
which `cardExpand` already counts as four dragons). -/
def cardBag (s : GameState) : Multiset Card :=
  colsBag s.columns + cellsBag s.freeCells + foundsBag s.foundations

/-- All deck identifiers represented by a history snapshot. -/
def snapBag (p : Snapshot) : Multiset Card :=
  colsBag p.columns + cellsBag p.freeCells + foundsBag p.foundations

/-- The full deck as a multiset. -/
def deckBag : Multiset Card := (deckList : Multiset Card)

/-- A snapshot holds the identifiers of the snapshotted state. -/
theorem snapBag_mkSnapshot (s : GameState) (b : Bool) :
    snapBag (mkSnapshot s b) = cardBag s := rfl

/-- Generalization of `mapSum_set` to any commutative monoid: setting an
element swaps its `f`-value in the mapped sum. -/
theorem mapSum_set_m {α M : Type} [AddCommMonoid M] (f : α → M) (l : List α)
    (i : Nat) (a : α) (h : i < l.length) :
    ((l.set i a).map f).sum + f (l.get ⟨i, h⟩) = (l.map f).sum + f a := by
  induction l generalizing i with
  | nil => simp at h
  | cons x xs ih =>
    cases i with
    | zero =>
      simp only [List.set, List.map_cons, List.sum_cons, List.get]
      abel
    | succ n =>
      have hn : n < xs.length := by simpa using h
      have hswap := ih n hn
      simp only [List.set, List.map_cons, List.sum_cons, List.get]
      rw [add_assoc, hswap]
      abel

/-- Bags of concatenated columns add. -/
theorem colBag_append (l1 l2 : List Card) :
    colBag (l1 ++ l2) = colBag l1 + colBag l2 := by
  unfold colBag
  rw [List.map_append, List.sum_append]

/-- What the last card of a column represents (`0` on an empty column). -/
def lastBag (col : List Card) : Multiset Card :=
  match col.getLast? with
  | some c => cardExpand c
  | none => 0

/-- Dropping the last card removes exactly its identifiers. -/
theorem colBag_dropLast (col : List Card) :
    colBag col.dropLast + lastBag col = colBag col := by
  cases hl : col.getLast? with
  | none =>
    have : col = [] := List.getLast?_eq_none_iff.mp hl
    subst this
    rfl
  | some c =>
    have hne : col ≠ [] := by
      intro h
      subst h
      exact Option.noConfusion hl
    have hdec : col.dropLast ++ [col.getLast hne] = col :=
      List.dropLast_append_getLast hne
    have hc : col.getLast hne = c := by
      have := List.getLast?_eq_getLast col hne
      rw [hl] at this
      exact (Option.some.inj this).symm
    unfold lastBag
    rw [hl]
    conv_rhs => rw [← hdec]
    rw [colBag_append, hc]
    dsimp only
    congr 1
    simp [colBag]

/-- Popping one column exchanges the identifiers of its last card
(no-op bookkeeping on an out-of-range index, whose `getD` is empty). -/
theorem colsBag_popAt (cols : List (List Card)) (i : Nat) :
    colsBag (popAt cols i) + lastBag (cols.getD i []) = colsBag cols := by
  by_cases h : i < cols.length
  · have hset := mapSum_set_m colBag cols i ((cols.getD i []).dropLast) h
    have hget : cols.get ⟨i, h⟩ = cols.getD i [] := by
      rw [List.getD_eq_getElem _ _ h]
      exact List.get_eq_getElem _ _
    rw [hget] at hset
    have hdl := colBag_dropLast (cols.getD i [])
    have h2 : (colsBag (popAt cols i) + lastBag (cols.getD i [])) +
        colBag ((cols.getD i []).dropLast) =
        colsBag cols + colBag ((cols.getD i []).dropLast) := by
      rw [add_assoc,
        add_comm (lastBag (cols.getD i [])) (colBag ((cols.getD i []).dropLast)),
        hdl]
      exact hset
    exact add_right_cancel h2
  · unfold popAt
    rw [List.set_eq_of_length_le (by omega)]
    rw [List.getD_eq_default _ _ (by omega)]
    show colsBag cols + lastBag [] = colsBag cols
    rw [show lastBag [] = 0 from rfl, add_zero]

/-- Clearing one free cell removes exactly its identifiers. -/
theorem cellsBag_set_none (cells : List (Option Card)) (i : Nat) :
    cellsBag (cells.set i none) + cellBag (cells.getD i none) = cellsBag cells := by
  by_cases h : i < cells.length
  · have hset := mapSum_set_m cellBag cells i none h
    have hget : cells.get ⟨i, h⟩ = cells.getD i none := by
      rw [List.getD_eq_getElem _ _ h]
      exact List.get_eq_getElem _ _
    rw [hget] at hset
    show (List.map cellBag (cells.set i none)).sum +
      cellBag (cells.getD i none) = (cells.map cellBag).sum
    rw [hset]
    rw [show cellBag none = 0 from rfl, add_zero]
  · rw [List.set_eq_of_length_le (by omega)]
    rw [List.getD_eq_default _ _ (by omega)]
    rw [show cellBag none = 0 from rfl, add_zero]

/-- Writing a card into a free cell adds its identifiers and removes the
overwritten ones. -/
theorem cellsBag_set_some (cells : List (Option Card)) (i : Nat) (v : Card)
    (h : i < cells.length) :
    cellsBag (cells.set i (some v)) + cellBag (cells.getD i none) =
      cellsBag cells + cardExpand v := by
  have hset := mapSum_set_m cellBag cells i (some v) h
  have hget : cells.get ⟨i, h⟩ = cells.getD i none := by
    rw [List.getD_eq_getElem _ _ h]
    exact List.get_eq_getElem _ _
  rw [hget] at hset
  show (List.map cellBag (cells.set i (some v))).sum +
    cellBag (cells.getD i none) = (cells.map cellBag).sum + cardExpand v
  rw [hset]
  rfl

/-- Appended cell lists hold the union of their identifiers. -/
theorem cellsBag_append (l1 l2 : List (Option Card)) :
    cellsBag (l1 ++ l2) = cellsBag l1 + cellsBag l2 := by
  unfold cellsBag
  rw [List.map_append, List.sum_append]

/-- Replicated empty cells hold nothing. -/
theorem cellsBag_replicate_none (n : Nat) :
    cellsBag (List.replicate n none) = 0 := by
  unfold cellsBag
  rw [List.map_replicate, show cellBag none = 0 from rfl, List.sum_replicate,
    smul_zero]

/-- The JS cell write with a numeric index keeps the moved card in the
array: it replaces an in-range empty slot or extends the array with holes. -/
theorem cellsBag_jsSetCell_some (cells : List (Option Card)) (j : Nat) (v : Card)
    (hempty : cells.getD j none = none) :
    cellsBag (jsSetCell cells (some j) v) = cellsBag cells + cardExpand v := by
  unfold jsSetCell
  dsimp only
  by_cases h : j < cells.length
  · rw [if_pos h]
    have hs := cellsBag_set_some cells j v h
    rw [hempty] at hs
    rw [show cellBag none = 0 from rfl, add_zero] at hs
    exact hs
  · rw [if_neg h]
    rw [cellsBag_append, cellsBag_append, cellsBag_replicate_none]
    rw [show cellsBag [some v] = cardExpand v from by
      simp [cellsBag, cellBag]]
    abel

/-- One more rank on a suit adds exactly that card. -/
theorem foundColorBag_succ (c : CardColor) (k : Nat) :
    foundColorBag c (k + 1) = foundColorBag c k + {Card.normal c (k + 1)} := by
  simp only [foundColorBag, List.range_succ, List.map_append, List.map_cons,
    List.map_nil]
  rw [← Multiset.coe_singleton, ← Multiset.coe_add]

/-- Advancing a suit counter by one adds exactly the next rank. -/
theorem foundsBag_setC_succ (f : Foundations) (c : CardColor) :
    foundsBag (f.setC c (f.getC c + 1)) =
      foundsBag f + {Card.normal c (f.getC c + 1)} := by
  cases c
  all_goals
    unfold foundsBag Foundations.setC Foundations.getC
    dsimp only
    rw [foundColorBag_succ]
    abel

/-- Setting an unset flower flag adds exactly the flower. -/
theorem foundsBag_flower_true (f : Foundations) (hf : f.flower = false) :
    foundsBag { f with flower := true } = foundsBag f + {Card.flower} := by
  unfold foundsBag
  dsimp only
  rw [hf]
  simp only [if_true, if_false]
  abel

/-- Every card other than the marker represents itself. -/
theorem mem_cardExpand_self {c : Card} (h : c.isLockedB = false) :
    c ∈ cardExpand c := by
  cases c with
  | lockedDragon cl => exact Bool.noConfusion h
  | normal cl v => simp [cardExpand]
  | dragon cl i => simp [cardExpand]
  | flower => simp [cardExpand]

/-- Membership in a sum of a list of multisets. -/
theorem mem_listSum {x : Card} :
    ∀ {L : List (Multiset Card)} {m : Multiset Card},
    m ∈ L → x ∈ m → x ∈ L.sum := by
  intro L
  induction L with
  | nil =>
    intro m hm
    simp at hm
  | cons a t ih =>
    intro m hm hx
    rw [List.sum_cons]
    rcases List.mem_cons.mp hm with rfl | hm
    · exact Multiset.mem_add.mpr (Or.inl hx)
    · exact Multiset.mem_add.mpr (Or.inr (ih hm hx))

/-- An identifier represented somewhere in a column is in the columns bag. -/
theorem mem_colsBag {cols : List (List Card)} {j : Nat} {c x : Card}
    (hc : c ∈ cols.getD j []) (hx : x ∈ cardExpand c) : x ∈ colsBag cols := by
  have hj : j < cols.length := by
    by_contra hge
    rw [List.getD_eq_default _ _ (by omega)] at hc
    simp at hc
  refine mem_listSum (List.mem_map.mpr ⟨cols.getD j [], ?_, rfl⟩) ?_
  · rw [List.getD_eq_getElem _ _ hj]
    exact List.getElem_mem hj
  · exact mem_listSum (List.mem_map.mpr ⟨c, hc, rfl⟩) hx

/-- An identifier represented in a free cell is in the cells bag. -/
theorem mem_cellsBag {cells : List (Option Card)} {j : Nat} {c x : Card}
    (hc : cells.getD j none = some c) (hx : x ∈ cardExpand c) :
    x ∈ cellsBag cells := by
  have hj : j < cells.length := lt_length_of_getD_some hc
  refine mem_listSum (List.mem_map.mpr ⟨cells.getD j none, ?_, rfl⟩) ?_
  · rw [List.getD_eq_getElem _ _ hj]
    exact List.getElem_mem hj
  · rw [hc]
    exact hx

/-- A nonempty suit foundation holds its rank-1 card. -/
theorem mem_foundColorBag_one {c : CardColor} {k : Nat} (hk : 1 ≤ k) :
    Card.normal c 1 ∈ foundColorBag c k := by
  unfold foundColorBag
  rw [Multiset.mem_coe]
  refine List.mem_map.mpr ⟨0, ?_, rfl⟩
  rw [List.mem_range]
  omega

/-- A started suit counter represents the rank-1 card. -/
theorem mem_foundsBag_normal_one {f : Foundations} {c : CardColor}
    (h : 1 ≤ f.getC c) : Card.normal c 1 ∈ foundsBag f := by
  unfold foundsBag
  cases c with
  | green =>
    exact Multiset.mem_add.mpr (Or.inl (Multiset.mem_add.mpr (Or.inl
      (Multiset.mem_add.mpr (Or.inl (mem_foundColorBag_one h))))))
  | red =>
    exact Multiset.mem_add.mpr (Or.inl (Multiset.mem_add.mpr (Or.inl
      (Multiset.mem_add.mpr (Or.inr (mem_foundColorBag_one h))))))
  | black =>
    exact Multiset.mem_add.mpr (Or.inl (Multiset.mem_add.mpr (Or.inr
      (mem_foundColorBag_one h))))

/-- A set flower flag represents the flower. -/
theorem mem_foundsBag_flower {f : Foundations} (h : f.flower = true) :
    Card.flower ∈ foundsBag f := by
  unfold foundsBag
  refine Multiset.mem_add.mpr (Or.inr ?_)
  rw [h]
  simp

/-- The deck has no duplicate identifiers. -/
theorem deckBag_count_le_one (x : Card) : deckBag.count x ≤ 1 := by
  have hnd : deckList.Nodup := by decide
  show Multiset.count x (deckList : Multiset Card) ≤ 1
  rw [Multiset.coe_count]
  exact List.nodup_iff_count_le_one.mp hnd x

/-- No identifier can be represented twice in a bag bounded by the deck. -/
theorem not_both_le_deck {A B : Multiset Card} (hb : A + B ≤ deckBag)
    {x : Card} (h1 : x ∈ A) (h2 : x ∈ B) : False := by
  have c1 := Multiset.count_pos.mpr h1
  have c2 := Multiset.count_pos.mpr h2
  have hd := Multiset.count_le_of_le x hb
  rw [Multiset.count_add] at hd
  have := deckBag_count_le_one x
  omega

/-- An element of a list-indexed sum is at most the sum. -/
theorem getD_le_sum (l : List Nat) (i : Nat) : l.getD i 0 ≤ l.sum := by
  induction l generalizing i with
  | nil => simp
  | cons a t ih =>
    cases i with
    | zero =>
      rw [List.getD_cons_zero, List.sum_cons]
      omega
    | succ n =>
      rw [List.getD_cons_succ, List.sum_cons]
      have := ih n
      omega

/-- Two distinct elements of a list-indexed sum are jointly at most the
sum. -/
theorem two_getD_le_sum (l : List Nat) : ∀ {i j : Nat}, i ≠ j →
    l.getD i 0 + l.getD j 0 ≤ l.sum := by
  induction l with
  | nil =>
    intro i j hij
    simp
  | cons a t ih =>
    intro i j hij
    rw [List.sum_cons]
    cases i with
    | zero =>
      cases j with
      | zero => exact absurd rfl hij
      | succ m =>
        rw [List.getD_cons_zero, List.getD_cons_succ]
        have := getD_le_sum t m
        omega
    | succ n =>
      cases j with
      | zero =>
        rw [List.getD_cons_succ, List.getD_cons_zero]
        have := getD_le_sum t n
        omega
      | succ m =>
        rw [List.getD_cons_succ, List.getD_cons_succ]
        have := @ih n m (fun h => hij (congrArg Nat.succ h))
        omega

/-- Counting through a sum of a list of multisets. -/
theorem count_listSum (L : List (Multiset Card)) (x : Card) :
    L.sum.count x = (L.map (fun m => m.count x)).sum := by
  induction L with
  | nil => simp
  | cons a t ih =>
    rw [List.sum_cons, Multiset.count_add, List.map_cons, List.sum_cons, ih]

/-- Per-column counts read off the mapped count list. -/
theorem count_colsBag_getD_eq (cols : List (List Card)) (j : Nat) (x : Card) :
    (cols.map fun col => (colBag col).count x).getD j 0 =
      (colBag (cols.getD j [])).count x := by
  by_cases hj : j < cols.length
  · rw [List.getD_eq_getElem _ _ (by simpa), List.getElem_map,
      List.getD_eq_getElem _ _ hj]
  · rw [List.getD_eq_default _ _ (by simp; omega),
      List.getD_eq_default _ _ (by omega)]
    simp [colBag]

/-- Per-cell counts read off the mapped count list. -/
theorem count_cellsBag_getD_eq (cells : List (Option Card)) (j : Nat) (x : Card) :
    (cells.map fun oc => (cellBag oc).count x).getD j 0 =
      (cellBag (cells.getD j none)).count x := by
  by_cases hj : j < cells.length
  · rw [List.getD_eq_getElem _ _ (by simpa), List.getElem_map,
      List.getD_eq_getElem _ _ hj]
  · rw [List.getD_eq_default _ _ (by simp; omega),
      List.getD_eq_default _ _ (by omega)]
    rfl

/-- One column's count is at most the columns bag's count. -/
theorem count_colsBag_le (cols : List (List Card)) (j : Nat) (x : Card) :
    (colBag (cols.getD j [])).count x ≤ (colsBag cols).count x := by
  unfold colsBag
  rw [count_listSum, List.map_map]
  simp only [Function.comp_def]
  rw [← count_colsBag_getD_eq]
  exact getD_le_sum _ _

/-- One cell's count is at most the cells bag's count. -/
theorem count_cellsBag_le (cells : List (Option Card)) (j : Nat) (x : Card) :
    (cellBag (cells.getD j none)).count x ≤ (cellsBag cells).count x := by
  unfold cellsBag
  rw [count_listSum, List.map_map]
  simp only [Function.comp_def]
  rw [← count_cellsBag_getD_eq]
  exact getD_le_sum _ _

/-- Two distinct columns count jointly into the columns bag. -/
theorem count_colsBag_two (cols : List (List Card)) {i j : Nat} (hij : i ≠ j)
    (x : Card) :
    (colBag (cols.getD i [])).count x + (colBag (cols.getD j [])).count x ≤
      (colsBag cols).count x := by
  unfold colsBag
  rw [count_listSum, List.map_map]
  simp only [Function.comp_def]
  rw [← count_colsBag_getD_eq, ← count_colsBag_getD_eq]
  exact two_getD_le_sum _ hij

/-- Two distinct cells count jointly into the cells bag. -/
theorem count_cellsBag_two (cells : List (Option Card)) {i j : Nat}
    (hij : i ≠ j) (x : Card) :
    (cellBag (cells.getD i none)).count x +
        (cellBag (cells.getD j none)).count x ≤
      (cellsBag cells).count x := by
  unfold cellsBag
  rw [count_listSum, List.map_map]
  simp only [Function.comp_def]
  rw [← count_cellsBag_getD_eq, ← count_cellsBag_getD_eq]
  exact two_getD_le_sum _ hij

/-- A singleton column holds its card's identifiers. -/
theorem colBag_single (a : Card) : colBag [a] = cardExpand a := by
  simp [colBag]

/-- Board split left by the source extraction: the moving unit's
identifiers plus the remaining board make the original board. -/
theorem movePrep_bag {S : GameState} {cid : Card} {src : Source}
    {c1 : List (List Card)} {ce1 : List (Option Card)} {cm : List Card}
    (hsrc : findSource S cid = some src)
    (hprep : movePrep S cid src = some (c1, ce1, cm)) :
    colsBag c1 + cellsBag ce1 + colBag cm =
      colsBag S.columns + cellsBag S.freeCells := by
  cases src with
  | col i =>
    obtain ⟨hi, -⟩ := findSource_col_spec hsrc
    unfold movePrep at hprep
    dsimp only at hprep
    split at hprep
    · exact Option.noConfusion hprep
    · injection hprep with h
      rw [Prod.mk.injEq, Prod.mk.injEq] at h
      obtain ⟨h1, h2, h3⟩ := h
      subst h1 h2 h3
      have hset := mapSum_set_m colBag S.columns i
        ((S.columns.getD i []).take ((S.columns.getD i []).findIdx (· == cid)))
        hi
      have hget : S.columns.get ⟨i, hi⟩ = S.columns.getD i [] := by
        rw [List.getD_eq_getElem _ _ hi]
        exact List.get_eq_getElem _ _
      rw [hget] at hset
      have hsplit : colBag (S.columns.getD i []) =
          colBag ((S.columns.getD i []).take
            ((S.columns.getD i []).findIdx (· == cid))) +
          colBag ((S.columns.getD i []).drop
            ((S.columns.getD i []).findIdx (· == cid))) := by
        conv_lhs =>
          rw [← List.take_append_drop
            ((S.columns.getD i []).findIdx (· == cid)) (S.columns.getD i [])]
        rw [colBag_append]
      have key : colsBag (S.columns.set i ((S.columns.getD i []).take
            ((S.columns.getD i []).findIdx (· == cid)))) +
          colBag ((S.columns.getD i []).drop
            ((S.columns.getD i []).findIdx (· == cid))) =
          colsBag S.columns := by
        refine add_right_cancel (?_ : _ + colBag ((S.columns.getD i []).take
          ((S.columns.getD i []).findIdx (· == cid))) = _ + _)
        rw [add_assoc, add_comm (colBag ((S.columns.getD i []).drop
          ((S.columns.getD i []).findIdx (· == cid)))), ← hsplit]
        exact hset
      rw [add_right_comm]
      show colsBag (S.columns.set i ((S.columns.getD i []).take
          ((S.columns.getD i []).findIdx (· == cid)))) +
        colBag ((S.columns.getD i []).drop
          ((S.columns.getD i []).findIdx (· == cid))) +
        cellsBag S.freeCells = _
      rw [key]
  | free i =>
    obtain ⟨hi, hcell, -⟩ := findSource_free_spec hsrc
    unfold movePrep at hprep
    injection hprep with h
    rw [Prod.mk.injEq, Prod.mk.injEq] at h
    obtain ⟨h1, h2, h3⟩ := h
    subst h1 h2 h3
    have hcb := cellsBag_set_none S.freeCells i
    rw [hcell] at hcb
    have hone : colBag [cid] = cellBag (some cid) := colBag_single cid
    rw [add_assoc, hone, hcb]

/-- Conservation across the target application: a committed move keeps all
identifiers (the `NaN` cell index, which drops the moved card, is
excluded). -/
theorem moveApply_bag {S : GameState} {cid : Card} {t : Target}
    {c1 nc : List (List Card)} {ce1 nf : List (Option Card)} {cm : List Card}
    {nfo : Foundations}
    (hdev : S.devMode = false)
    (hb : colsBag c1 + cellsBag ce1 + colBag cm + foundsBag S.foundations ≤
      deckBag)
    (hnn : t ≠ Target.free none)
    (happ : moveApply S cid t c1 ce1 cm = .ok (some (nc, nf, nfo))) :
    colsBag nc + cellsBag nf + foundsBag nfo =
      colsBag c1 + cellsBag ce1 + colBag cm + foundsBag S.foundations := by
  cases t with
  | invalid => exact Option.noConfusion (Except.ok.inj happ)
  | col tIdx =>
    cases tIdx with
    | none => exact Except.noConfusion happ
    | some j =>
      unfold moveApply at happ
      dsimp only at happ
      by_cases hj : j < c1.length
      · rw [if_pos hj] at happ
        split at happ
        · exact Option.noConfusion (Except.ok.inj happ)
        · injection Except.ok.inj happ with h
          rw [Prod.mk.injEq, Prod.mk.injEq] at h
          obtain ⟨h1, h2, h3⟩ := h
          subst h1 h2 h3
          have hset := mapSum_set_m colBag c1 j ((c1.getD j []) ++ cm) hj
          have hget : c1.get ⟨j, hj⟩ = c1.getD j [] := by
            rw [List.getD_eq_getElem _ _ hj]
            exact List.get_eq_getElem _ _
          rw [hget, colBag_append] at hset
          have hset2 : colsBag (c1.set j (c1.getD j [] ++ cm)) +
              colBag (c1.getD j []) =
              colsBag c1 + (colBag (c1.getD j []) + colBag cm) := hset
          have key : colsBag (c1.set j (c1.getD j [] ++ cm)) =
              colsBag c1 + colBag cm := by
            refine add_right_cancel (?_ : _ + colBag (c1.getD j []) = _ + _)
            rw [hset2]
            abel
          rw [key]
          abel
      · rw [if_neg hj] at happ
        exact Except.noConfusion happ
  | free tIdx =>
    cases tIdx with
    | none => exact absurd rfl hnn
    | some j =>
      unfold moveApply at happ
      dsimp only at happ
      split at happ
      · exact Option.noConfusion (Except.ok.inj happ)
      · rename_i hlock
        by_cases hcond : (cm.length == 1 &&
            ((jsGetCell ce1 (some j)).isNone || S.devMode)) = true
        · rw [if_pos hcond] at happ
          injection Except.ok.inj happ with h
          rw [Prod.mk.injEq, Prod.mk.injEq] at h
          obtain ⟨h1, h2, h3⟩ := h
          subst h1 h2 h3
          obtain ⟨hlen, hfree⟩ := (Bool.and_eq_true ..).mp hcond
          have hempty : ce1.getD j none = none := by
            rcases (Bool.or_eq_true_iff ..).mp hfree with h1 | h1
            · exact Option.isNone_iff_eq_none.mp h1
            · rw [hdev] at h1
              exact Bool.noConfusion h1
          obtain ⟨a, rfl⟩ := List.length_eq_one.mp
            (show cm.length = 1 by simpa using hlen)
          have hjs := cellsBag_jsSetCell_some ce1 j (([a] : List Card).headD cid)
            hempty
          rw [hjs]
          rw [show ([a] : List Card).headD cid = a from rfl,
            colBag_single]
          abel
        · rw [if_neg hcond] at happ
          exact Option.noConfusion (Except.ok.inj happ)
  | foundation fid =>
    unfold moveApply at happ
    dsimp only at happ
    by_cases hl : (cm.length == 1) = true
    · rw [if_pos hl] at happ
      obtain ⟨a, rfl⟩ := List.length_eq_one.mp
        (show cm.length = 1 by simpa using hl)
      rw [show ([a] : List Card).headD cid = a from rfl] at happ
      rw [colBag_single]
      cases fid with
      | flower =>
        cases a with
        | flower =>
          dsimp only at happ
          injection Except.ok.inj happ with h
          rw [Prod.mk.injEq, Prod.mk.injEq] at h
          obtain ⟨h1, h2, h3⟩ := h
          subst h1 h2 h3
          cases hfl : S.foundations.flower with
          | true =>
            exact absurd (mem_foundsBag_flower hfl)
              (fun hmem => not_both_le_deck (by rw [colBag_single] at hb; exact hb)
                (Multiset.mem_add.mpr (Or.inr (by simp [cardExpand]))) hmem)
          | false =>
            rw [foundsBag_flower_true S.foundations hfl]
            rw [show cardExpand Card.flower = {Card.flower} from rfl]
            abel
        | normal c v => exact Option.noConfusion (Except.ok.inj happ)
        | dragon c i => exact Option.noConfusion (Except.ok.inj happ)
        | lockedDragon c => exact Option.noConfusion (Except.ok.inj happ)
      | green =>
        cases a with
        | normal c v =>
          cases c with
          | green =>
            dsimp only at happ
            rw [hdev] at happ
            by_cases hv : (v == S.foundations.green + 1) = true
            · rw [if_pos (by rw [hv]; rfl)] at happ
              injection Except.ok.inj happ with h
              rw [Prod.mk.injEq, Prod.mk.injEq] at h
              obtain ⟨h1, h2, h3⟩ := h
              subst h1 h2 h3
              have hveq : v = S.foundations.green + 1 := by simpa using hv
              subst hveq
              have hs := foundsBag_setC_succ S.foundations .green
              simp only [Foundations.getC] at hs
              rw [hs]
              rw [show cardExpand (Card.normal .green (S.foundations.green + 1)) =
                {Card.normal .green (S.foundations.green + 1)} from rfl]
              abel
            · rw [if_neg (by
                intro hc
                rcases (Bool.or_eq_true_iff ..).mp hc with h1 | h1
                · exact hv h1
                · exact Bool.noConfusion h1)] at happ
              exact Option.noConfusion (Except.ok.inj happ)
          | red => exact Option.noConfusion (Except.ok.inj happ)
          | black => exact Option.noConfusion (Except.ok.inj happ)
        | flower => exact Option.noConfusion (Except.ok.inj happ)
        | dragon c i => exact Option.noConfusion (Except.ok.inj happ)
        | lockedDragon c => exact Option.noConfusion (Except.ok.inj happ)
      | red =>
        cases a with
        | normal c v =>
          cases c with
          | red =>
            dsimp only at happ
            rw [hdev] at happ
            by_cases hv : (v == S.foundations.red + 1) = true
            · rw [if_pos (by rw [hv]; rfl)] at happ
              injection Except.ok.inj happ with h
              rw [Prod.mk.injEq, Prod.mk.injEq] at h
              obtain ⟨h1, h2, h3⟩ := h
              subst h1 h2 h3
              have hveq : v = S.foundations.red + 1 := by simpa using hv
              subst hveq
              have hs := foundsBag_setC_succ S.foundations .red
              simp only [Foundations.getC] at hs
              rw [hs]
              rw [show cardExpand (Card.normal .red (S.foundations.red + 1)) =
                {Card.normal .red (S.foundations.red + 1)} from rfl]
              abel
            · rw [if_neg (by
                intro hc
                rcases (Bool.or_eq_true_iff ..).mp hc with h1 | h1
                · exact hv h1
                · exact Bool.noConfusion h1)] at happ
              exact Option.noConfusion (Except.ok.inj happ)
          | green => exact Option.noConfusion (Except.ok.inj happ)
          | black => exact Option.noConfusion (Except.ok.inj happ)
        | flower => exact Option.noConfusion (Except.ok.inj happ)
        | dragon c i => exact Option.noConfusion (Except.ok.inj happ)
        | lockedDragon c => exact Option.noConfusion (Except.ok.inj happ)
      | black =>
        cases a with
        | normal c v =>
          cases c with
          | black =>
            dsimp only at happ
            rw [hdev] at happ
            by_cases hv : (v == S.foundations.black + 1) = true
            · rw [if_pos (by rw [hv]; rfl)] at happ
              injection Except.ok.inj happ with h
              rw [Prod.mk.injEq, Prod.mk.injEq] at h
              obtain ⟨h1, h2, h3⟩ := h
              subst h1 h2 h3
              have hveq : v = S.foundations.black + 1 := by simpa using hv
              subst hveq
              have hs := foundsBag_setC_succ S.foundations .black
              simp only [Foundations.getC] at hs
              rw [hs]
              rw [show cardExpand (Card.normal .black (S.foundations.black + 1)) =
                {Card.normal .black (S.foundations.black + 1)} from rfl]
              abel
            · rw [if_neg (by
                intro hc
                rcases (Bool.or_eq_true_iff ..).mp hc with h1 | h1
                · exact hv h1
                · exact Bool.noConfusion h1)] at happ
              exact Option.noConfusion (Except.ok.inj happ)
          | green => exact Option.noConfusion (Except.ok.inj happ)
          | red => exact Option.noConfusion (Except.ok.inj happ)
        | flower => exact Option.noConfusion (Except.ok.inj happ)
        | dragon c i => exact Option.noConfusion (Except.ok.inj happ)
        | lockedDragon c => exact Option.noConfusion (Except.ok.inj happ)
      | other =>
        cases a with
        | normal c v => exact Option.noConfusion (Except.ok.inj happ)
        | flower => exact Option.noConfusion (Except.ok.inj happ)
        | dragon c i => exact Option.noConfusion (Except.ok.inj happ)
        | lockedDragon c => exact Option.noConfusion (Except.ok.inj happ)
    · rw [if_neg hl] at happ
      exact Option.noConfusion (Except.ok.inj happ)

/-- The bag of a committed move is the bag of the new board. -/
theorem cardBag_moveCommit (S : GameState) (now : Int)
    (nc : List (List Card)) (nf : List (Option Card)) (nfo : Foundations) :
    cardBag (moveCommit S now nc nf nfo) =
      colsBag nc + cellsBag nf + foundsBag nfo := rfl

/-- The history of a committed move. -/
theorem moveCommit_history (S : GameState) (now : Int)
    (nc : List (List Card)) (nf : List (Option Card)) (nfo : Foundations) :
    (moveCommit S now nc nf nfo).history =
      S.history ++ [mkSnapshot S false] := rfl

/-- Fields of a committed move. -/
theorem moveCommit_fields (S : GameState) (now : Int)
    (nc : List (List Card)) (nf : List (Option Card)) (nfo : Foundations) :
    (moveCommit S now nc nf nfo).devMode = S.devMode ∧
    (moveCommit S now nc nf nfo).dragons = S.dragons ∧
    (moveCommit S now nc nf nfo).columns = nc ∧
    (moveCommit S now nc nf nfo).freeCells = nf ∧
    (moveCommit S now nc nf nfo).foundations = nfo :=
  ⟨rfl, rfl, rfl, rfl, rfl⟩

/-- The last element is a member. -/
theorem mem_of_getLast? {α : Type} {l : List α} {c : α} (h : l.getLast? = some c) :
    c ∈ l := by
  have hne : l ≠ [] := by
    intro hctr
    subst hctr
    exact Option.noConfusion h
  have hc : l.getLast hne = c := by
    have := List.getLast?_eq_getLast l hne
    rw [h] at this
    exact (Option.some.inj this).symm
  rw [← hc]
  exact List.getLast_mem hne

/-- A non-marker card represents exactly itself. -/
theorem cardExpand_single {c : Card} (h : c.isLockedB = false) :
    cardExpand c = {c} := by
  cases c with
  | lockedDragon cl => exact Bool.noConfusion h
  | normal cl v => rfl
  | dragon cl i => rfl
  | flower => rfl

/-- What membership in the collected move list means: a trivially-movable
card read off the state at the recorded position. -/
theorem mem_passMoves_spec {isFull : Bool} {s : GameState} {m : AutoMv}
    (hm : m ∈ passMoves isFull s) :
    trivialMovable isFull s.foundations.flower m.card = true ∧
    (m.source = .col →
      (s.columns.getD m.index []).getLast? = some m.card) ∧
    (m.source = .free →
      s.freeCells.getD m.index none = some m.card) := by
  unfold passMoves at hm
  rcases List.mem_append.mp hm with hm | hm
  · obtain ⟨⟨i, oc⟩, hmem, hf⟩ := List.mem_filterMap.mp hm
    cases oc with
    | none => exact Option.noConfusion hf
    | some c =>
      dsimp only at hf
      by_cases ht : trivialMovable isFull s.foundations.flower c = true
      · rw [if_pos ht] at hf
        injection hf with hf
        subst hf
        refine ⟨ht, ?_, ?_⟩
        · intro hsrc
          exact MoveSrc.noConfusion hsrc
        · intro h2
          rw [List.mem_enum_iff_getElem?] at hmem
          show s.freeCells.getD i none = some c
          rw [List.getD_eq_getElem?_getD, hmem]
          rfl
      · rw [if_neg ht] at hf
        exact Option.noConfusion hf
  · obtain ⟨⟨i, col⟩, hmem, hf⟩ := List.mem_filterMap.mp hm
    dsimp only at hf
    cases hl : col.getLast? with
    | none =>
      rw [hl] at hf
      exact Option.noConfusion hf
    | some c =>
      rw [hl] at hf
      dsimp only at hf
      by_cases ht : trivialMovable isFull s.foundations.flower c = true
      · rw [if_pos ht] at hf
        injection hf with hf
        subst hf
        refine ⟨ht, ?_, ?_⟩
        · intro h2
          rw [List.mem_enum_iff_getElem?] at hmem
          show (s.columns.getD i []).getLast? = some c
          rw [List.getD_eq_getElem?_getD, hmem]
          exact hl
        · intro hsrc
          exact MoveSrc.noConfusion hsrc
      · rw [if_neg ht] at hf
        exact Option.noConfusion hf

/-- A trivially-movable card is a normal rank 1 or the flower; in
particular not the locked marker. -/
theorem trivialMovable_not_locked {isFull flag : Bool} {c : Card}
    (h : trivialMovable isFull flag c = true) : c.isLockedB = false := by
  rcases (trivialMovable_iff ..).mp h with ⟨cl, rfl⟩ | ⟨rfl, -⟩ <;> rfl

/-- Bag removed by a sequence of column pops at distinct indices. -/
theorem popsOf_bag (idxs : List Nat) (cols : List (List Card))
    (hnd : idxs.Nodup) :
    colsBag (popsOf idxs cols) +
      (idxs.map fun i => lastBag (cols.getD i [])).sum = colsBag cols := by
  induction idxs generalizing cols with
  | nil => simp [popsOf]
  | cons i rest ih =>
    have hnotin : i ∉ rest := (List.nodup_cons.mp hnd).1
    have hndrest := (List.nodup_cons.mp hnd).2
    show colsBag (popsOf rest (popAt cols i)) + _ = _
    rw [List.map_cons, List.sum_cons]
    have hrest : (rest.map fun k => lastBag (cols.getD k [])) =
        rest.map fun k => lastBag ((popAt cols i).getD k []) := by
      refine List.map_congr_left ?_
      intro k hk
      exact congrArg lastBag
        (popAt_getD_ne cols (fun hctr => hnotin (by rw [hctr]; exact hk))).symm
    rw [hrest]
    calc colsBag (popsOf rest (popAt cols i)) +
          (lastBag (cols.getD i []) +
            (rest.map fun k => lastBag ((popAt cols i).getD k [])).sum)
        = (colsBag (popsOf rest (popAt cols i)) +
            (rest.map fun k => lastBag ((popAt cols i).getD k [])).sum) +
            lastBag (cols.getD i []) := by abel
      _ = colsBag (popAt cols i) + lastBag (cols.getD i []) := by
          rw [ih _ hndrest]
      _ = colsBag cols := colsBag_popAt cols i

/-- Bag removed by a sequence of cell clears at distinct indices. -/
theorem clearsOf_bag (idxs : List Nat) (cells : List (Option Card))
    (hnd : idxs.Nodup) :
    cellsBag (clearsOf idxs cells) +
      (idxs.map fun i => cellBag (cells.getD i none)).sum = cellsBag cells := by
  induction idxs generalizing cells with
  | nil => simp [clearsOf]
  | cons i rest ih =>
    have hnotin : i ∉ rest := (List.nodup_cons.mp hnd).1
    have hndrest := (List.nodup_cons.mp hnd).2
    show cellsBag (clearsOf rest (cells.set i none)) + _ = _
    rw [List.map_cons, List.sum_cons]
    have hrest : (rest.map fun k => cellBag (cells.getD k none)) =
        rest.map fun k => cellBag ((cells.set i none).getD k none) := by
      refine List.map_congr_left ?_
      intro k hk
      exact congrArg cellBag
        (getD_set_ne _ _ _ (fun hctr => hnotin (by rw [hctr]; exact hk))).symm
    rw [hrest]
    calc cellsBag (clearsOf rest (cells.set i none)) +
          (cellBag (cells.getD i none) +
            (rest.map fun k => cellBag ((cells.set i none).getD k none)).sum)
        = (cellsBag (clearsOf rest (cells.set i none)) +
            (rest.map fun k => cellBag ((cells.set i none).getD k none)).sum) +
            cellBag (cells.getD i none) := by abel
      _ = cellsBag (cells.set i none) + cellBag (cells.getD i none) := by
          rw [ih _ hndrest]
      _ = cellsBag cells := cellsBag_set_none cells i

/-- A sum of singletons is the coerced list. -/
theorem singletonSum {α : Type} (f : α → Card) (l : List α) :
    (l.map fun a => ({f a} : Multiset Card)).sum = ((l.map f : List Card) : Multiset Card) := by
  induction l with
  | nil => rfl
  | cons a t ih =>
    rw [List.map_cons, List.sum_cons, ih, List.map_cons]
    rw [← Multiset.cons_coe, ← Multiset.singleton_add]

/-- The interleaved per-move consumption splits into the column pops and
the cell clears. -/
theorem passMoves_sums (cols : List (List Card)) (cells : List (Option Card)) :
    ∀ (ms : List AutoMv),
    (∀ m ∈ ms, m.card.isLockedB = false) →
    (∀ m ∈ ms, m.source = .col →
      (cols.getD m.index []).getLast? = some m.card) →
    (∀ m ∈ ms, m.source = .free →
      cells.getD m.index none = some m.card) →
    ((colIdxs ms).map fun i => lastBag (cols.getD i [])).sum +
      ((freeIdxs ms).map fun i => cellBag (cells.getD i none)).sum =
      (ms.map fun m => ({m.card} : Multiset Card)).sum := by
  intro ms
  induction ms with
  | nil =>
    intro _ _ _
    simp [colIdxs, freeIdxs]
  | cons m rest ih =>
    intro hlock hcol hfree
    have ihr := ih (fun x hx => hlock x (List.mem_cons_of_mem m hx))
      (fun x hx => hcol x (List.mem_cons_of_mem m hx))
      (fun x hx => hfree x (List.mem_cons_of_mem m hx))
    rw [List.map_cons, List.sum_cons]
    cases hs : m.source with
    | col =>
      have hidx : colIdxs (m :: rest) = m.index :: colIdxs rest := by
        unfold colIdxs
        rw [List.filterMap_cons, hs]
      have hidx2 : freeIdxs (m :: rest) = freeIdxs rest := by
        unfold freeIdxs
        rw [List.filterMap_cons, hs]
      rw [hidx, hidx2, List.map_cons, List.sum_cons]
      have hlb : lastBag (cols.getD m.index []) = {m.card} := by
        unfold lastBag
        rw [hcol m (List.mem_cons_self m rest) hs]
        exact cardExpand_single (hlock m (List.mem_cons_self m rest))
      rw [hlb, ← ihr]
      abel
    | free =>
      have hidx : freeIdxs (m :: rest) = m.index :: freeIdxs rest := by
        unfold freeIdxs
        rw [List.filterMap_cons, hs]
      have hidx2 : colIdxs (m :: rest) = colIdxs rest := by
        unfold colIdxs
        rw [List.filterMap_cons, hs]
      rw [hidx, hidx2, List.map_cons, List.sum_cons]
      have hlb : cellBag (cells.getD m.index none) = {m.card} := by
        rw [hfree m (List.mem_cons_self m rest) hs]
        show cardExpand m.card = _
        exact cardExpand_single (hlock m (List.mem_cons_self m rest))
      rw [hlb, ← ihr]
      abel

/-- Folding the per-move foundation updates adds exactly the moved cards,
provided the moved suits start at zero, a moved flower finds the flag
unset, every moved card is a normal 1 or the flower, and no card moves
twice. -/
theorem foundUpds_bag : ∀ (ms : List AutoMv) (f : Foundations),
    (∀ m ∈ ms, (∃ c, m.card = Card.normal c 1) ∨ m.card = Card.flower) →
    (∀ c, hasNormal ms c = true → f.getC c = 0) →
    (hasFlower ms = true → f.flower = false) →
    (ms.map fun m => m.card).Nodup →
    foundsBag (foundUpds ms f) =
      foundsBag f + (ms.map fun m => ({m.card} : Multiset Card)).sum := by
  intro ms
  induction ms with
  | nil =>
    intro f _ _ _ _
    simp [foundUpds]
  | cons m rest ih =>
    intro f hshape hcompat hflower hnd
    have hnd2 : (m.card :: rest.map fun x => x.card).Nodup := by
      rw [List.map_cons] at hnd
      exact hnd
    have hndm : m.card ∉ rest.map fun x => x.card := (List.nodup_cons.mp hnd2).1
    have hndr : (rest.map fun x => x.card).Nodup := (List.nodup_cons.mp hnd2).2
    rw [List.map_cons, List.sum_cons]
    show foundsBag (foundUpds rest (updFound m.card f)) = _
    rcases hshape m (List.mem_cons_self m rest) with ⟨c, hc⟩ | hc
    · have hzero : f.getC c = 0 := by
        refine hcompat c ?_
        rw [hasNormal_cons, hc]
        simp
      have hupd : updFound m.card f = f.setC c (f.getC c + 1) := by
        rw [hc, hzero]
        rfl
      have hbag : foundsBag (updFound m.card f) =
          foundsBag f + {m.card} := by
        rw [hupd, foundsBag_setC_succ, hzero, hc]
      rw [ih (updFound m.card f)
        (fun x hx => hshape x (List.mem_cons_of_mem m hx))
        ?_ ?_ hndr, hbag]
      · abel
      · intro c' hc'
        by_cases hcc : c' = c
        · subst hcc
          exfalso
          obtain ⟨x, hx, hmatch⟩ := List.any_eq_true.mp hc'
          rcases hshape x (List.mem_cons_of_mem m hx) with ⟨cx, hcx⟩ | hcx
          · rw [hcx] at hmatch
            have : cx = c' := by simpa using hmatch
            subst this
            exact hndm (List.mem_map.mpr ⟨x, hx, by rw [hcx, hc]⟩)
          · rw [hcx] at hmatch
            exact Bool.noConfusion hmatch
        · rw [hupd, getC_setC_ne f _ (fun h => hcc h.symm)]
          refine hcompat c' ?_
          rw [hasNormal_cons]
          simp [hc']
      · intro hf'
        rw [hupd, setC_flower]
        refine hflower ?_
        rw [hasFlower_cons]
        simp [hf']
    · have hflag : f.flower = false := by
        refine hflower ?_
        rw [hasFlower_cons, hc]
        simp
      have hupd : updFound m.card f = { f with flower := true } := by
        rw [hc]
        rfl
      have hbag : foundsBag (updFound m.card f) = foundsBag f + {m.card} := by
        rw [hupd, foundsBag_flower_true f hflag, hc]
      rw [ih (updFound m.card f)
        (fun x hx => hshape x (List.mem_cons_of_mem m hx))
        ?_ ?_ hndr, hbag]
      · abel
      · intro c' hc'
        rw [hupd, flowerSet_getC]
        refine hcompat c' ?_
        rw [hasNormal_cons]
        simp [hc']
      · intro hf'
        exfalso
        obtain ⟨x, hx, hmatch⟩ := List.any_eq_true.mp hf'
        have hxc : x.card = Card.flower := by simpa using hmatch
        exact hndm (List.mem_map.mpr ⟨x, hx, by rw [hxc, hc]⟩)

/-- The card carried by a collected move is on the board. -/
theorem mem_board_of_passMove {isFull : Bool} {s : GameState} {x : AutoMv}
    (hx : x ∈ passMoves isFull s) :
    x.card ∈ colsBag s.columns + cellsBag s.freeCells := by
  obtain ⟨htriv, hcolx, hfreex⟩ := mem_passMoves_spec hx
  have hself : x.card ∈ cardExpand x.card :=
    mem_cardExpand_self (trivialMovable_not_locked htriv)
  cases hsrc : x.source with
  | col =>
    exact Multiset.mem_add.mpr (Or.inl
      (mem_colsBag (mem_of_getLast? (hcolx hsrc)) hself))
  | free =>
    exact Multiset.mem_add.mpr (Or.inr (mem_cellsBag (hfreex hsrc) hself))

/-- Identifiers are conserved across one cascade pass of a state whose bag
is within the deck: the card set to rank 1 was at rank 0 and the moved
flower finds its flag unset, so the foundations gain exactly what the
board loses. -/
theorem passStep_bag {isFull : Bool} {s : GameState}
    (hb : cardBag s ≤ deckBag) :
    cardBag (passStep isFull s) = cardBag s := by
  by_cases he : (passMoves isFull s).isEmpty = true
  · rw [(passStep_hist isFull s).2.2 (List.isEmpty_iff.mp he)]
  · have hlock : ∀ m ∈ passMoves isFull s, m.card.isLockedB = false :=
      fun m hm => trivialMovable_not_locked (mem_passMoves_spec hm).1
    have hcolp : ∀ m ∈ passMoves isFull s, m.source = .col →
        (s.columns.getD m.index []).getLast? = some m.card :=
      fun m hm => (mem_passMoves_spec hm).2.1
    have hfreep : ∀ m ∈ passMoves isFull s, m.source = .free →
        s.freeCells.getD m.index none = some m.card :=
      fun m hm => (mem_passMoves_spec hm).2.2
    have hpops := popsOf_bag (colIdxs (passMoves isFull s)) s.columns
      (nodup_colIdxs isFull s)
    have hclears := clearsOf_bag (freeIdxs (passMoves isFull s)) s.freeCells
      (nodup_freeIdxs isFull s)
    have hsums := passMoves_sums s.columns s.freeCells (passMoves isFull s)
      hlock hcolp hfreep
    have hcardsle : ((passMoves isFull s).map fun m =>
        ({m.card} : Multiset Card)).sum ≤ deckBag := by
      refine le_trans ?_ hb
      rw [← hsums]
      have h1 : (((colIdxs (passMoves isFull s)).map fun i =>
          lastBag (s.columns.getD i [])).sum : Multiset Card) ≤
          colsBag s.columns :=
        Multiset.le_iff_exists_add.mpr ⟨_, by rw [← hpops]; abel⟩
      have h2 : (((freeIdxs (passMoves isFull s)).map fun i =>
          cellBag (s.freeCells.getD i none)).sum : Multiset Card) ≤
          cellsBag s.freeCells :=
        Multiset.le_iff_exists_add.mpr ⟨_, by rw [← hclears]; abel⟩
      calc _ ≤ colsBag s.columns + cellsBag s.freeCells := add_le_add h1 h2
        _ ≤ cardBag s :=
          Multiset.le_iff_exists_add.mpr ⟨foundsBag s.foundations, rfl⟩
    have hnd : ((passMoves isFull s).map fun m => m.card).Nodup := by
      rw [List.nodup_iff_count_le_one]
      intro x
      have h1 := Multiset.count_le_of_le x hcardsle
      rw [singletonSum (fun m => m.card) (passMoves isFull s)] at h1
      rw [Multiset.coe_count] at h1
      exact le_trans h1 (deckBag_count_le_one x)
    have hshape : ∀ m ∈ passMoves isFull s,
        (∃ c, m.card = Card.normal c 1) ∨ m.card = Card.flower := by
      intro m hm
      rcases (trivialMovable_iff ..).mp (mem_passMoves_spec hm).1 with
        ⟨c, hc⟩ | ⟨hc, -⟩
      · exact Or.inl ⟨c, hc⟩
      · exact Or.inr hc
    have hcompat : ∀ c, hasNormal (passMoves isFull s) c = true →
        s.foundations.getC c = 0 := by
      intro c hc
      by_contra hnz
      obtain ⟨x, hx, hmatch⟩ := List.any_eq_true.mp hc
      rcases hshape x hx with ⟨cx, hcx⟩ | hcx
      · rw [hcx] at hmatch
        have hcc : cx = c := by simpa using hmatch
        subst hcc
        have hboard := mem_board_of_passMove hx
        rw [hcx] at hboard
        exact not_both_le_deck hb hboard
          (mem_foundsBag_normal_one (by omega))
      · rw [hcx] at hmatch
        exact Bool.noConfusion hmatch
    have hflower : hasFlower (passMoves isFull s) = true →
        s.foundations.flower = false := by
      intro hf
      obtain ⟨x, hx, hmatch⟩ := List.any_eq_true.mp hf
      have hxc : x.card = Card.flower := by simpa using hmatch
      cases hflag : s.foundations.flower with
      | false => rfl
      | true =>
        exfalso
        have hboard := mem_board_of_passMove hx
        rw [hxc] at hboard
        exact not_both_le_deck hb hboard (mem_foundsBag_flower hflag)
    have hfb := foundUpds_bag (passMoves isFull s) s.foundations hshape
      hcompat hflower hnd
    obtain ⟨hb1, hb2, hb3⟩ := passStep_board isFull s
    unfold cardBag
    rw [hb1, hb2, hb3, if_neg he, if_neg he, if_neg he, hfb, ← hsums]
    have key : ∀ (P C F CS FS PB CB : Multiset Card), P + CS = PB →
        C + FS = CB → P + C + (F + (CS + FS)) = PB + CB + F := by
      intro P C F CS FS PB CB h1 h2
      rw [← h1, ← h2]
      abel
    exact key _ _ _ _ _ _ _ hpops hclears

/-- Identifiers and history provenance across the cascade loop. -/
theorem autoMoveGo_bag (isFull : Bool) :
    ∀ (fuel : Nat) (s : GameState), cardBag s ≤ deckBag →
      cardBag (autoMoveGo isFull fuel s) = cardBag s ∧
      ∀ p ∈ (autoMoveGo isFull fuel s).history,
        p ∈ s.history ∨
          (snapBag p = cardBag s ∧ p.devMode = s.devMode) := by
  intro fuel
  induction fuel with
  | zero =>
    intro s hb
    exact ⟨rfl, fun p hp => Or.inl hp⟩
  | succ n ih =>
    intro s hb
    unfold autoMoveGo
    by_cases he : (passMoves isFull s).isEmpty = true
    · rw [if_pos he]
      exact ⟨rfl, fun p hp => Or.inl hp⟩
    · rw [if_neg he]
      have hps := @passStep_bag isFull s hb
      have hb2 : cardBag (passStep isFull s) ≤ deckBag := by
        rw [hps]
        exact hb
      obtain ⟨hbag, hhist⟩ := ih (passStep isFull s) hb2
      refine ⟨by rw [hbag, hps], ?_⟩
      intro p hp
      rcases hhist p hp with hp2 | hp2
      · by_cases hh : s.history = []
        · rw [(passStep_hist isFull s).2.1
            (by simpa [List.isEmpty_iff] using he) hh] at hp2
          simp at hp2
        · rw [(passStep_hist isFull s).1
            (by simpa [List.isEmpty_iff] using he) hh] at hp2
          rcases List.mem_append.mp hp2 with hp3 | hp3
          · exact Or.inl hp3
          · have heq : p = mkSnapshot s true := by simpa using hp3
            subst heq
            exact Or.inr ⟨snapBag_mkSnapshot s true, rfl⟩
      · refine Or.inr ⟨by rw [hp2.1, hps], ?_⟩
        rw [hp2.2, (passStep_fields isFull s).2.2.1]

/-- Identifiers and history provenance across the whole cascade. -/
theorem autoMoveOnes_bag {s : GameState} (hb : cardBag s ≤ deckBag) :
    cardBag (autoMoveOnes s) = cardBag s ∧
    ∀ p ∈ (autoMoveOnes s).history,
      p ∈ s.history ∨ (snapBag p = cardBag s ∧ p.devMode = s.devMode) := by
  obtain ⟨hbag, hhist⟩ := autoMoveGo_bag (s.foundations.green == 9 &&
    s.foundations.red == 9 && s.foundations.black == 9) (boardCount s + 1) s hb
  unfold autoMoveOnes autoMoveLoop
  by_cases hw : winCondF
      (autoMoveGo (s.foundations.green == 9 && s.foundations.red == 9 &&
        s.foundations.black == 9) (boardCount s + 1) s).foundations
      (autoMoveGo (s.foundations.green == 9 && s.foundations.red == 9 &&
        s.foundations.black == 9) (boardCount s + 1) s).dragons = true
  · rw [if_pos hw]
    exact ⟨hbag, hhist⟩
  · rw [if_neg hw]
    exact ⟨hbag, hhist⟩

/-- In a won state within the deck, no cascade pass finds a move: every
normal card and the flower sit in the foundations, so only dragons and
markers remain on the board, and neither is trivially movable. -/
theorem win_no_moves {s : GameState} (hb : cardBag s ≤ deckBag)
    (hw : winCondF s.foundations s.dragons = true) (isFull : Bool) :
    passMoves isFull s = [] := by
  have hw2 : s.foundations.green = 9 ∧ s.foundations.red = 9 ∧
      s.foundations.black = 9 ∧ s.foundations.flower = true := by
    simp only [winCondF, Bool.and_eq_true, beq_iff_eq] at hw
    exact ⟨hw.1.1.1.1.1.1, hw.1.1.1.1.1.2, hw.1.1.1.1.2, hw.1.1.1.2⟩
  have hget : ∀ c : CardColor, 1 ≤ s.foundations.getC c := by
    intro c
    obtain ⟨h1, h2, h3, -⟩ := hw2
    cases c
    · show 1 ≤ s.foundations.green
      omega
    · show 1 ≤ s.foundations.red
      omega
    · show 1 ≤ s.foundations.black
      omega
  have hkill : ∀ c : Card, (c.isLockedB = false →
      c ∈ colsBag s.columns + cellsBag s.freeCells) →
      trivialMovable isFull s.foundations.flower c = false := by
    intro c hmem
    cases ht : trivialMovable isFull s.foundations.flower c with
    | false => rfl
    | true =>
      exfalso
      have hnl := trivialMovable_not_locked ht
      rcases (trivialMovable_iff ..).mp ht with ⟨cl, hcl⟩ | ⟨hcl, -⟩
      · subst hcl
        exact not_both_le_deck hb (hmem hnl)
          (mem_foundsBag_normal_one (hget cl))
      · subst hcl
        exact not_both_le_deck hb (hmem hnl)
          (mem_foundsBag_flower hw2.2.2.2)
  unfold passMoves
  rw [List.append_eq_nil]
  constructor
  · rw [List.filterMap_eq_nil_iff]
    intro p hp
    obtain ⟨i, oc⟩ := p
    cases oc with
    | none => rfl
    | some c =>
      dsimp only
      rw [List.mem_enum_iff_getElem?] at hp
      have hcell : s.freeCells.getD i none = some c := by
        rw [List.getD_eq_getElem?_getD, hp]
        rfl
      rw [hkill c (fun hnl => Multiset.mem_add.mpr
        (Or.inr (mem_cellsBag hcell (mem_cardExpand_self hnl))))]
      rfl
  · rw [List.filterMap_eq_nil_iff]
    intro p hp
    obtain ⟨i, col⟩ := p
    dsimp only
    cases hl : col.getLast? with
    | none => rfl
    | some c =>
      rw [List.mem_enum_iff_getElem?] at hp
      have hcol : (s.columns.getD i []).getLast? = some c := by
        rw [List.getD_eq_getElem?_getD, hp]
        exact hl
      dsimp only
      rw [hkill c (fun hnl => Multiset.mem_add.mpr
        (Or.inl (mem_colsBag (mem_of_getLast? hcol) (mem_cardExpand_self hnl))))]
      rfl

/-- The target application never grows the bag: it conserves it, except
that the `NaN` cell target drops the single moved card. -/
theorem moveApply_bag_le {S : GameState} {cid : Card} {t : Target}
    {c1 nc : List (List Card)} {ce1 nf : List (Option Card)} {cm : List Card}
    {nfo : Foundations}
    (hdev : S.devMode = false)
    (hb : colsBag c1 + cellsBag ce1 + colBag cm + foundsBag S.foundations ≤
      deckBag)
    (happ : moveApply S cid t c1 ce1 cm = .ok (some (nc, nf, nfo))) :
    colsBag nc + cellsBag nf + foundsBag nfo ≤
      colsBag c1 + cellsBag ce1 + colBag cm + foundsBag S.foundations := by
  by_cases hnn : t = Target.free none
  · subst hnn
    unfold moveApply at happ
    dsimp only at happ
    rw [if_neg (by
      show ¬((jsGetCell S.freeCells none).elim false Card.isLockedB = true)
      rw [show jsGetCell S.freeCells none = none from rfl]
      exact Bool.noConfusion)] at happ
    by_cases hl : (cm.length == 1 &&
        ((jsGetCell ce1 none).isNone || S.devMode)) = true
    · rw [if_pos hl] at happ
      injection Except.ok.inj happ with h
      rw [Prod.mk.injEq, Prod.mk.injEq] at h
      obtain ⟨h1, h2, h3⟩ := h
      subst h1 h2 h3
      rw [show jsSetCell ce1 none (cm.headD cid) = ce1 from rfl]
      refine Multiset.le_iff_exists_add.mpr ⟨colBag cm, ?_⟩
      abel
    · rw [if_neg hl] at happ
      exact Option.noConfusion (Except.ok.inj happ)
  · exact le_of_eq (moveApply_bag hdev hb hnn happ)

/-- The conservation invariant carried through every reachable state:
`devMode` off, the bag exactly the deck, and every history snapshot also
carrying the deck with `devMode` off. -/
def Inv (S : GameState) : Prop :=
  S.devMode = false ∧ cardBag S = deckBag ∧
    ∀ p ∈ S.history, p.devMode = false ∧ snapBag p = deckBag

/-- The move command preserves the invariant whenever its target is not
the `NaN` cell index. -/
theorem moveCardRun_inv {S : GameState} {cid : Card} {t : Target} {sk : Bool}
    {now : Int} (hS : Inv S) (hnn : t ≠ Target.free none) :
    Inv (moveCardRun S cid t sk now) := by
  obtain ⟨hdev, hbag, hhist⟩ := hS
  rcases moveCardE_spec S cid t sk now with hok | ⟨-, -, -, -, -, -, -, herr⟩ |
    ⟨hgate, src, c1, ce1, cm, nc, nf, nfo, hsrc, hinv, hprep, happ, heq⟩
  · unfold moveCardRun
    rw [hok]
    exact ⟨hdev, hbag, hhist⟩
  · unfold moveCardRun
    rw [herr]
    exact ⟨hdev, hbag, hhist⟩
  · have hsplit := movePrep_bag hsrc hprep
    have hXB : colsBag c1 + cellsBag ce1 + colBag cm +
        foundsBag S.foundations = cardBag S := by
      unfold cardBag
      rw [← hsplit]
    have hble : colsBag c1 + cellsBag ce1 + colBag cm +
        foundsBag S.foundations ≤ deckBag := by
      rw [hXB, hbag]
    have happbag := moveApply_bag hdev hble hnn happ
    have hM : cardBag (moveCommit S now nc nf nfo) = deckBag := by
      rw [cardBag_moveCommit, happbag, hXB, hbag]
    have hMhist : ∀ p ∈ (moveCommit S now nc nf nfo).history,
        p.devMode = false ∧ snapBag p = deckBag := by
      intro p hp
      rw [moveCommit_history] at hp
      rcases List.mem_append.mp hp with hp | hp
      · exact hhist p hp
      · have heq2 : p = mkSnapshot S false := by simpa using hp
        subst heq2
        exact ⟨hdev, by rw [snapBag_mkSnapshot, hbag]⟩
    unfold moveCardRun
    rw [heq]
    dsimp only
    by_cases hsk : sk = true
    · rw [if_pos hsk]
      exact ⟨hdev, hM, hMhist⟩
    · rw [if_neg hsk]
      obtain ⟨habag, hahist⟩ := autoMoveOnes_bag (le_of_eq hM)
      refine ⟨?_, by rw [habag, hM], ?_⟩
      · obtain ⟨-, -, -, -, -, hdev2, -⟩ :=
          autoMoveOnes_spec (moveCommit S now nc nf nfo)
        rw [hdev2]
        exact hdev
      · intro p hp
        rcases hahist p hp with hp2 | ⟨hp2, hp3⟩
        · exact hMhist p hp2
        · refine ⟨by rw [hp3]; exact hdev, by rw [hp2, hM]⟩

/-- Where a located dragon actually sits. -/
def DLocHolds (s : GameState) (d : Card) : DLoc → Prop
  | .col i => (s.columns.getD i []).getLast? = some d
  | .free i => s.freeCells.getD i none = some d

/-- A found dragon location holds the dragon. -/
theorem findDragon_spec {s : GameState} {d : Card} {loc : DLoc}
    (h : findDragon s d = some loc) : DLocHolds s d loc := by
  unfold findDragon at h
  cases h1 : s.freeCells.findIdx? (· == some d) with
  | some i =>
    rw [h1] at h
    injection h with h
    subst h
    have hs := getD_of_findIdx? _ _ none _ h1
    show s.freeCells.getD i none = some d
    simpa using hs.2
  | none =>
    rw [h1] at h
    cases h2 : s.columns.findIdx? (fun col => col.getLast? == some d) with
    | some i =>
      rw [h2] at h
      injection h with h
      subst h
      have hs := getD_of_findIdx? _ _ [] _ h2
      show (s.columns.getD i []).getLast? = some d
      simpa using hs.2
    | none =>
      rw [h2] at h
      exact Option.noConfusion h

/-- Outside `devMode`, a successful gather locates every requested dragon. -/
theorem gatherDragonLocs_spec {s : GameState} (hdev : s.devMode = false) :
    ∀ (ds : List Card) (locs : List DLoc),
    gatherDragonLocs s ds = some locs →
    locs.length = ds.length ∧ ∀ p ∈ ds.zip locs, DLocHolds s p.1 p.2 := by
  intro ds
  induction ds with
  | nil =>
    intro locs h
    injection h with h
    subst h
    exact ⟨rfl, by intro p hp; simp at hp⟩
  | cons d rest ih =>
    intro locs h
    unfold gatherDragonLocs at h
    cases hf : findDragon s d with
    | some loc =>
      rw [hf] at h
      cases hg : gatherDragonLocs s rest with
      | none =>
        rw [hg] at h
        exact Option.noConfusion h
      | some restLocs =>
        rw [hg] at h
        injection h with h
        subst h
        obtain ⟨hlen, hall⟩ := ih restLocs hg
        refine ⟨by simp [hlen], ?_⟩
        intro p hp
        rw [List.zip_cons_cons] at hp
        rcases List.mem_cons.mp hp with rfl | hp
        · exact findDragon_spec hf
        · exact hall p hp
    | none =>
      rw [hf] at h
      dsimp only at h
      rw [hdev] at h
      simp at h

/-- Column indices among a list of dragon locations. -/
def colLocIdxs (locs : List DLoc) : List Nat :=
  locs.filterMap fun l =>
    match l with
    | .col i => some i
    | .free _ => none

/-- Free-cell indices among a list of dragon locations. -/
def freeLocIdxs (locs : List DLoc) : List Nat :=
  locs.filterMap fun l =>
    match l with
    | .free i => some i
    | .col _ => none

/-- The removal fold splits into column pops and cell clears. -/
theorem removeDLocs_decomp :
    ∀ (locs : List DLoc) (b : List (List Card) × List (Option Card)),
    removeDLocs locs b =
      (popsOf (colLocIdxs locs) b.1, clearsOf (freeLocIdxs locs) b.2) := by
  intro locs
  induction locs with
  | nil => intro b; rfl
  | cons l rest ih =>
    intro b
    cases l with
    | col i =>
      show removeDLocs rest (b.1.set i ((b.1.getD i []).dropLast), b.2) = _
      rw [ih]
      rfl
    | free i =>
      show removeDLocs rest (b.1, b.2.set i none) = _
      rw [ih]
      rfl

/-- The identifiers consumed by removing located dragons are exactly the
located cards. -/
theorem dlocs_sums (cols : List (List Card)) (cells : List (Option Card)) :
    ∀ (ps : List (Card × DLoc)),
    (∀ p ∈ ps, p.1.isLockedB = false) →
    (∀ p ∈ ps, (match p.2 with
      | DLoc.col i => (cols.getD i []).getLast? = some p.1
      | DLoc.free i => cells.getD i none = some p.1 : Prop)) →
    ((colLocIdxs (ps.map Prod.snd)).map fun i => lastBag (cols.getD i [])).sum +
      ((freeLocIdxs (ps.map Prod.snd)).map fun i =>
        cellBag (cells.getD i none)).sum =
      (ps.map fun p => ({p.1} : Multiset Card)).sum := by
  intro ps
  induction ps with
  | nil =>
    intro _ _
    simp [colLocIdxs, freeLocIdxs]
  | cons p rest ih =>
    intro hlock hholds
    have ihr := ih (fun x hx => hlock x (List.mem_cons_of_mem p hx))
      (fun x hx => hholds x (List.mem_cons_of_mem p hx))
    obtain ⟨d, loc⟩ := p
    cases loc with
    | col i =>
      have hlast : (cols.getD i []).getLast? = some d :=
        hholds (d, DLoc.col i) (List.mem_cons_self _ rest)
      have hnl : d.isLockedB = false :=
        hlock (d, DLoc.col i) (List.mem_cons_self _ rest)
      have hidx : colLocIdxs (DLoc.col i :: rest.map Prod.snd) =
          i :: colLocIdxs (rest.map Prod.snd) := by
        unfold colLocIdxs
        rw [List.filterMap_cons]
      have hidx2 : freeLocIdxs (DLoc.col i :: rest.map Prod.snd) =
          freeLocIdxs (rest.map Prod.snd) := by
        unfold freeLocIdxs
        rw [List.filterMap_cons]
      simp only [List.map_cons, List.sum_cons]
      rw [hidx, hidx2, List.map_cons, List.sum_cons]
      have hlb : lastBag (cols.getD i []) = {d} := by
        unfold lastBag
        rw [hlast]
        exact cardExpand_single hnl
      rw [hlb, ← ihr]
      abel
    | free i =>
      have hcell : cells.getD i none = some d :=
        hholds (d, DLoc.free i) (List.mem_cons_self _ rest)
      have hnl : d.isLockedB = false :=
        hlock (d, DLoc.free i) (List.mem_cons_self _ rest)
      have hidx : freeLocIdxs (DLoc.free i :: rest.map Prod.snd) =
          i :: freeLocIdxs (rest.map Prod.snd) := by
        unfold freeLocIdxs
        rw [List.filterMap_cons]
      have hidx2 : colLocIdxs (DLoc.free i :: rest.map Prod.snd) =
          colLocIdxs (rest.map Prod.snd) := by
        unfold colLocIdxs
        rw [List.filterMap_cons]
      simp only [List.map_cons, List.sum_cons]
      rw [hidx, hidx2, List.map_cons, List.sum_cons]
      have hlb : cellBag (cells.getD i none) = {d} := by
        rw [hcell]
        exact cardExpand_single hnl
      rw [hlb, ← ihr]
      abel

/-- Distinct located cards occupy distinct positions of each kind. -/
theorem dlocs_nodup (cols : List (List Card)) (cells : List (Option Card)) :
    ∀ (ps : List (Card × DLoc)),
    (∀ p ∈ ps, (match p.2 with
      | DLoc.col i => (cols.getD i []).getLast? = some p.1
      | DLoc.free i => cells.getD i none = some p.1 : Prop)) →
    (ps.map Prod.fst).Nodup →
    (colLocIdxs (ps.map Prod.snd)).Nodup ∧
      (freeLocIdxs (ps.map Prod.snd)).Nodup := by
  intro ps
  induction ps with
  | nil =>
    intro _ _
    exact ⟨List.nodup_nil, List.nodup_nil⟩
  | cons p rest ih =>
    intro hholds hnd
    rw [List.map_cons, List.nodup_cons] at hnd
    obtain ⟨hndm, hndr⟩ := hnd
    obtain ⟨ihc, ihf⟩ := ih
      (fun x hx => hholds x (List.mem_cons_of_mem p hx)) hndr
    obtain ⟨d, loc⟩ := p
    have hfind : ∀ (l2 : DLoc), l2 ∈ rest.map Prod.snd →
        ∃ q ∈ rest, q.2 = l2 := by
      intro l2 hl2
      obtain ⟨q, hq, hq2⟩ := List.mem_map.mp hl2
      exact ⟨q, hq, hq2⟩
    cases loc with
    | col i =>
      refine ⟨?_, by
        show (freeLocIdxs (DLoc.col i :: rest.map Prod.snd)).Nodup
        unfold freeLocIdxs
        rw [List.filterMap_cons]
        exact ihf⟩
      show (colLocIdxs (DLoc.col i :: rest.map Prod.snd)).Nodup
      unfold colLocIdxs
      rw [List.filterMap_cons]
      dsimp only
      rw [List.nodup_cons]
      refine ⟨?_, ihc⟩
      intro hmem
      obtain ⟨l2, hl2, hl2i⟩ := List.mem_filterMap.mp hmem
      obtain ⟨q, hq, rfl⟩ := hfind l2 hl2
      cases hql : q.2 with
      | free k =>
        rw [hql] at hl2i
        exact Option.noConfusion hl2i
      | col k =>
        rw [hql] at hl2i
        injection hl2i with hk
        have h1 : (cols.getD i []).getLast? = some d :=
          hholds (d, DLoc.col i) (List.mem_cons_self _ rest)
        have h2 : (cols.getD k []).getLast? = some q.1 := by
          have h0 := hholds q (List.mem_cons_of_mem _ hq)
          rw [hql] at h0
          exact h0
        rw [hk] at h2
        have hdq : d = q.1 := Option.some.inj (h1.symm.trans h2)
        exact hndm (List.mem_map.mpr ⟨q, hq, hdq.symm⟩)
    | free i =>
      refine ⟨by
        show (colLocIdxs (DLoc.free i :: rest.map Prod.snd)).Nodup
        unfold colLocIdxs
        rw [List.filterMap_cons]
        exact ihc, ?_⟩
      show (freeLocIdxs (DLoc.free i :: rest.map Prod.snd)).Nodup
      unfold freeLocIdxs
      rw [List.filterMap_cons]
      dsimp only
      rw [List.nodup_cons]
      refine ⟨?_, ihf⟩
      intro hmem
      obtain ⟨l2, hl2, hl2i⟩ := List.mem_filterMap.mp hmem
      obtain ⟨q, hq, rfl⟩ := hfind l2 hl2
      cases hql : q.2 with
      | col k =>
        rw [hql] at hl2i
        exact Option.noConfusion hl2i
      | free k =>
        rw [hql] at hl2i
        injection hl2i with hk
        have h1 : cells.getD i none = some d :=
          hholds (d, DLoc.free i) (List.mem_cons_self _ rest)
        have h2 : cells.getD k none = some q.1 := by
          have h0 := hholds q (List.mem_cons_of_mem _ hq)
          rw [hql] at h0
          exact h0
        rw [hk] at h2
        have hdq : d = q.1 := Option.some.inj (h1.symm.trans h2)
        exact hndm (List.mem_map.mpr ⟨q, hq, hdq.symm⟩)

/-- Clearing cells preserves the list length. -/
theorem clearsOf_length (idxs : List Nat) :
    ∀ (cells : List (Option Card)),
    (clearsOf idxs cells).length = cells.length := by
  induction idxs with
  | nil => intro cells; rfl
  | cons i rest ih =>
    intro cells
    show (clearsOf rest (cells.set i none)).length = _
    rw [ih, List.length_set]

/-- Free-cell locations of held dragons are occupied. -/
theorem freeLocIdxs_holds {S : GameState} {ps : List (Card × DLoc)}
    (hall : ∀ p ∈ ps, DLocHolds S p.1 p.2) :
    ∀ i ∈ freeLocIdxs (ps.map Prod.snd),
      ∃ d, S.freeCells.getD i none = some d := by
  intro i hi
  obtain ⟨l2, hl2, hl2i⟩ := List.mem_filterMap.mp hi
  obtain ⟨q, hq, hq2⟩ := List.mem_map.mp hl2
  have hh := hall q hq
  rw [hq2] at hh
  cases hl2c : l2 with
  | col k =>
    rw [hl2c] at hl2i
    exact Option.noConfusion hl2i
  | free k =>
    rw [hl2c] at hl2i
    injection hl2i with hk
    rw [hl2c] at hh
    have hh2 : S.freeCells.getD k none = some q.1 := hh
    rw [hk] at hh2
    exact ⟨q.1, hh2⟩

/-- The marker slot chosen by `collectDragons` is in range and empty after
the removal of the located dragons. -/
theorem dragonTarget_spec {S : GameState} {locs : List DLoc} {tIdx : Nat}
    (hnd : (freeLocIdxs locs).Nodup)
    (hin : ∀ i ∈ freeLocIdxs locs, ∃ d, S.freeCells.getD i none = some d)
    (ht : dragonTarget S locs = some tIdx) :
    tIdx < S.freeCells.length ∧
      (clearsOf (freeLocIdxs locs) S.freeCells).getD tIdx none = none := by
  have hdt : dragonTarget S locs =
      (match (freeLocIdxs locs).min? with
       | some i => some i
       | none => S.freeCells.findIdx? (· == none)) := rfl
  rw [hdt] at ht
  cases hmin : (freeLocIdxs locs).min? with
  | some i =>
    rw [hmin] at ht
    injection ht with ht
    have hmem : tIdx ∈ freeLocIdxs locs := by
      rw [← ht]
      exact List.min?_mem (fun a b => min_choice a b) hmin
    obtain ⟨d, hd⟩ := hin tIdx hmem
    refine ⟨lt_length_of_getD_some hd, ?_⟩
    rw [clearsOf_getD _ _ hnd tIdx, if_pos hmem]
  | none =>
    rw [hmin] at ht
    have hs := getD_of_findIdx? _ _ none _ ht
    have hnone : S.freeCells.getD tIdx none = none := by
      simpa using hs.2
    refine ⟨hs.1, ?_⟩
    rw [clearsOf_getD _ _ hnd tIdx]
    by_cases hmem : tIdx ∈ freeLocIdxs locs
    · rw [if_pos hmem]
    · rw [if_neg hmem]
      exact hnone

/-- A cascade applied to a deck-exact board with clean history yields an
invariant state. -/
theorem autoMoveOnes_inv {M : GameState} (hd : M.devMode = false)
    (hb : cardBag M = deckBag)
    (hh : ∀ p ∈ M.history, p.devMode = false ∧ snapBag p = deckBag) :
    Inv (autoMoveOnes M) := by
  obtain ⟨habag, hahist⟩ := autoMoveOnes_bag (le_of_eq hb)
  refine ⟨?_, by rw [habag, hb], ?_⟩
  · obtain ⟨-, -, -, -, -, hdev2, -⟩ := autoMoveOnes_spec M
    rw [hdev2]
    exact hd
  · intro p hp
    rcases hahist p hp with hp2 | ⟨hp2, hp3⟩
    · exact hh p hp2
    · exact ⟨by rw [hp3]; exact hd, by rw [hp2, hb]⟩

/-- The dragon collector preserves the invariant: the four removed dragons
are exactly the identifiers the new marker stands for. -/
theorem collectDragons_inv {S : GameState} (color : CardColor) (hS : Inv S) :
    Inv (collectDragons S color) := by
  obtain ⟨hdev, hbag, hhist⟩ := hS
  rcases collectDragons_spec S color with heq |
    ⟨locs, tIdx, -, -, hg, -, ht, heq⟩
  · rw [heq]
    exact ⟨hdev, hbag, hhist⟩
  · obtain ⟨hlen, hall⟩ := gatherDragonLocs_spec hdev (dragonIds color) locs hg
    have hmapsnd : ((dragonIds color).zip locs).map Prod.snd = locs :=
      List.map_snd_zip _ _ (le_of_eq hlen)
    have hmapfst : ((dragonIds color).zip locs).map Prod.fst = dragonIds color :=
      List.map_fst_zip _ _ (le_of_eq hlen.symm)
    have hlock2 : ∀ p ∈ (dragonIds color).zip locs, p.1.isLockedB = false := by
      intro p hp
      have hfst : p.1 ∈ dragonIds color := by
        rw [← hmapfst]
        exact List.mem_map.mpr ⟨p, hp, rfl⟩
      simp only [dragonIds, List.mem_cons, List.not_mem_nil, or_false] at hfst
      rcases hfst with h | h | h | h <;> rw [h] <;> rfl
    have hndfst : (((dragonIds color).zip locs).map Prod.fst).Nodup := by
      rw [hmapfst]
      cases color <;> decide
    obtain ⟨hndc, hndf⟩ := dlocs_nodup S.columns S.freeCells
      ((dragonIds color).zip locs) (fun p hp => hall p hp) hndfst
    rw [hmapsnd] at hndc hndf
    have hsums := dlocs_sums S.columns S.freeCells ((dragonIds color).zip locs)
      hlock2 (fun p hp => hall p hp)
    rw [hmapsnd] at hsums
    have hsingle : (((dragonIds color).zip locs).map fun p =>
        ({p.1} : Multiset Card)).sum =
        ((dragonIds color : List Card) : Multiset Card) := by
      rw [singletonSum Prod.fst ((dragonIds color).zip locs), hmapfst]
    rw [hsingle] at hsums
    have hpops := popsOf_bag (colLocIdxs locs) S.columns hndc
    have hclears := clearsOf_bag (freeLocIdxs locs) S.freeCells hndf
    have hin := freeLocIdxs_holds hall
    rw [hmapsnd] at hin
    obtain ⟨htlt, htempty⟩ := dragonTarget_spec hndf hin ht
    have hmark := cellsBag_set_some (clearsOf (freeLocIdxs locs) S.freeCells)
      tIdx (Card.lockedDragon color)
      (by rw [clearsOf_length]; exact htlt)
    rw [htempty, show cellBag none = 0 from rfl, add_zero] at hmark
    have hM : cardBag { S with
        columns := (removeDLocs locs (S.columns, S.freeCells)).1,
        freeCells := (removeDLocs locs
          (S.columns, S.freeCells)).2.set tIdx (some (.lockedDragon color)),
        dragons := S.dragons.setC color 1,
        history := S.history ++ [mkSnapshot S false] } = deckBag := by
      show colsBag (removeDLocs locs (S.columns, S.freeCells)).1 +
        cellsBag ((removeDLocs locs
          (S.columns, S.freeCells)).2.set tIdx (some (.lockedDragon color))) +
        foundsBag S.foundations = deckBag
      rw [removeDLocs_decomp]
      show colsBag (popsOf (colLocIdxs locs) S.columns) +
        cellsBag ((clearsOf (freeLocIdxs locs)
          S.freeCells).set tIdx (some (.lockedDragon color))) +
        foundsBag S.foundations = deckBag
      rw [hmark]
      rw [show cardExpand (Card.lockedDragon color) =
        ((dragonIds color : List Card) : Multiset Card) from rfl]
      rw [← hbag]
      unfold cardBag
      rw [← hsums]
      have key2 : ∀ (P C F CS FS PB CB : Multiset Card), P + CS = PB →
          C + FS = CB → P + (C + (CS + FS)) + F = PB + CB + F := by
        intro P C F CS FS PB CB h1 h2
        rw [← h1, ← h2]
        abel
      exact key2 _ _ _ _ _ _ _ hpops hclears
    rw [heq]
    refine autoMoveOnes_inv hdev hM ?_
    intro p hp
    rcases List.mem_append.mp hp with hp | hp
    · exact hhist p hp
    · have heq2 : p = mkSnapshot S false := by simpa using hp
      subst heq2
      exact ⟨hdev, by rw [snapBag_mkSnapshot, hbag]⟩

/-- Where a wand location actually sits: the next-rank card of its color. -/
def WandHolds (cur : GameState) (nextRank : Nat) (l : WandLoc) : Prop :=
  match l.source with
  | .col => (cur.columns.getD l.index []).getLast? =
      some (.normal l.color nextRank)
  | .free => cur.freeCells.getD l.index none = some (.normal l.color nextRank)

/-- A found wand location carries its color and holds the next-rank card. -/
theorem findWandLoc_spec {cur : GameState} {color : CardColor} {nextRank : Nat}
    {l : WandLoc} (h : findWandLoc cur color nextRank = some l) :
    l.color = color ∧ WandHolds cur nextRank l := by
  unfold findWandLoc at h
  cases h1 : cur.freeCells.findIdx? (isWandCell color nextRank) with
  | some i =>
    rw [h1] at h
    injection h with h
    subst h
    have hs := getD_of_findIdx? _ _ none _ h1
    refine ⟨rfl, ?_⟩
    show cur.freeCells.getD i none = some (.normal color nextRank)
    cases hc : cur.freeCells.getD i none with
    | none =>
      rw [hc] at hs
      exact Bool.noConfusion hs.2
    | some c =>
      rw [hc] at hs
      cases c with
      | normal cc v =>
        have h2 := hs.2
        simp only [isWandCell, Bool.and_eq_true, beq_iff_eq] at h2
        rw [h2.1, h2.2]
      | dragon cc i2 => exact Bool.noConfusion hs.2
      | lockedDragon cc => exact Bool.noConfusion hs.2
      | flower => exact Bool.noConfusion hs.2
  | none =>
    rw [h1] at h
    cases h2 : cur.columns.findIdx? (isWandCol color nextRank) with
    | some i =>
      rw [h2] at h
      injection h with h
      subst h
      have hs := getD_of_findIdx? _ _ [] _ h2
      refine ⟨rfl, ?_⟩
      show (cur.columns.getD i []).getLast? = some (.normal color nextRank)
      have h3 := hs.2
      unfold isWandCol at h3
      cases hl : (cur.columns.getD i []).getLast? with
      | none =>
        rw [hl] at h3
        exact Bool.noConfusion h3
      | some c =>
        rw [hl] at h3
        cases c with
        | normal cc v =>
          simp only [Bool.and_eq_true, beq_iff_eq] at h3
          rw [h3.1, h3.2]
        | dragon cc i2 => exact Bool.noConfusion h3
        | lockedDragon cc => exact Bool.noConfusion h3
        | flower => exact Bool.noConfusion h3
    | none =>
      rw [h2] at h
      exact Option.noConfusion h

/-- A successful gather round locates next-rank cards of pairwise-distinct
colors, each at a suit strictly below the target rank. -/
theorem gatherWandGo_spec {cur : GameState} {nextRank : Nat} :
    ∀ (colors : List CardColor), colors.Nodup →
    ∀ (acc locs : List WandLoc),
    gatherWandGo cur nextRank colors acc = some locs →
    ∃ extra, locs = acc ++ extra ∧
      (∀ l ∈ extra, WandHolds cur nextRank l ∧
        cur.foundations.getC l.color < nextRank) ∧
      (extra.map WandLoc.color).Nodup ∧
      (∀ l ∈ extra, l.color ∈ colors) := by
  intro colors
  induction colors with
  | nil =>
    intro _ acc locs h
    injection h with h
    subst h
    exact ⟨[], by simp, by simp, List.nodup_nil, by simp⟩
  | cons color rest ih =>
    intro hnd acc locs h
    obtain ⟨hcnr, hndr⟩ := List.nodup_cons.mp hnd
    unfold gatherWandGo at h
    by_cases hge : cur.foundations.getC color ≥ nextRank
    · rw [if_pos hge] at h
      obtain ⟨extra, he1, he2, he3, he4⟩ := ih hndr acc locs h
      exact ⟨extra, he1, he2, he3,
        fun l hl => List.mem_cons_of_mem color (he4 l hl)⟩
    · rw [if_neg hge] at h
      cases hf : findWandLoc cur color nextRank with
      | none =>
        rw [hf] at h
        exact Option.noConfusion h
      | some l =>
        rw [hf] at h
        obtain ⟨extra, he1, he2, he3, he4⟩ := ih hndr (acc ++ [l]) locs h
        obtain ⟨hlc, hlh⟩ := findWandLoc_spec hf
        refine ⟨l :: extra, by rw [he1]; simp, ?_, ?_, ?_⟩
        · intro x hx
          rcases List.mem_cons.mp hx with rfl | hx
          · refine ⟨hlh, ?_⟩
            rw [hlc]
            omega
          · exact he2 x hx
        · rw [List.map_cons, List.nodup_cons]
          refine ⟨?_, he3⟩
          intro hmem
          obtain ⟨x, hx, hxc⟩ := List.mem_map.mp hmem
          have := he4 x hx
          rw [hxc, hlc] at this
          exact hcnr this
        · intro x hx
          rcases List.mem_cons.mp hx with rfl | hx
          · rw [hlc]
            exact List.mem_cons_self _ _
          · exact List.mem_cons_of_mem color (he4 x hx)

/-- Column indices among the wand locations. -/
def wandColIdxs (locs : List WandLoc) : List Nat :=
  locs.filterMap fun l =>
    match l.source with
    | .col => some l.index
    | .free => none

/-- Free-cell indices among the wand locations. -/
def wandFreeIdxs (locs : List WandLoc) : List Nat :=
  locs.filterMap fun l =>
    match l.source with
    | .free => some l.index
    | .col => none

/-- The wand apply fold splits into pops, clears and suit updates. -/
theorem wand_fold_decomp (nextRank : Nat) :
    ∀ (locs : List WandLoc) (b : BoardF),
    locs.foldl (applyWandLoc nextRank) b =
      ⟨popsOf (wandColIdxs locs) b.cols, clearsOf (wandFreeIdxs locs) b.cells,
        locs.foldl (fun f l => f.setC l.color nextRank) b.founds⟩ := by
  intro locs
  induction locs with
  | nil => intro b; rfl
  | cons l rest ih =>
    intro b
    cases hs : l.source with
    | col =>
      show List.foldl (applyWandLoc nextRank) (applyWandLoc nextRank b l) rest = _
      rw [ih]
      simp only [applyWandLoc, hs, wandColIdxs, wandFreeIdxs,
        List.filterMap_cons, List.foldl_cons]
      rfl
    | free =>
      show List.foldl (applyWandLoc nextRank) (applyWandLoc nextRank b l) rest = _
      rw [ih]
      simp only [applyWandLoc, hs, wandColIdxs, wandFreeIdxs,
        List.filterMap_cons, List.foldl_cons]
      rfl

/-- Distinct-color wand locations occupy distinct positions of each kind. -/
theorem wlocs_nodup (cur : GameState) (nextRank : Nat) :
    ∀ (locs : List WandLoc),
    (∀ l ∈ locs, WandHolds cur nextRank l) →
    (locs.map WandLoc.color).Nodup →
    (wandColIdxs locs).Nodup ∧ (wandFreeIdxs locs).Nodup := by
  intro locs
  induction locs with
  | nil =>
    intro _ _
    exact ⟨List.nodup_nil, List.nodup_nil⟩
  | cons l rest ih =>
    intro hholds hnd
    rw [List.map_cons, List.nodup_cons] at hnd
    obtain ⟨hndm, hndr⟩ := hnd
    obtain ⟨ihc, ihf⟩ := ih (fun x hx => hholds x (List.mem_cons_of_mem l hx))
      hndr
    have hl := hholds l (List.mem_cons_self l rest)
    cases hs : l.source with
    | col =>
      constructor
      · show (wandColIdxs (l :: rest)).Nodup
        unfold wandColIdxs
        rw [List.filterMap_cons, hs]
        dsimp only
        rw [List.nodup_cons]
        refine ⟨?_, ihc⟩
        intro hmem
        obtain ⟨q, hq, hqi⟩ := List.mem_filterMap.mp hmem
        cases hqs : q.source with
        | free =>
          rw [hqs] at hqi
          exact Option.noConfusion hqi
        | col =>
          rw [hqs] at hqi
          injection hqi with hqi
          have h1 : (cur.columns.getD l.index []).getLast? =
              some (.normal l.color nextRank) := by
            have := hl
            unfold WandHolds at this
            rw [hs] at this
            exact this
          have h2 : (cur.columns.getD q.index []).getLast? =
              some (.normal q.color nextRank) := by
            have := hholds q (List.mem_cons_of_mem l hq)
            unfold WandHolds at this
            rw [hqs] at this
            exact this
          rw [hqi] at h2
          have := Option.some.inj (h1.symm.trans h2)
          injection this with hcq hv
          exact hndm (List.mem_map.mpr ⟨q, hq, hcq.symm⟩)
      · show (wandFreeIdxs (l :: rest)).Nodup
        unfold wandFreeIdxs
        rw [List.filterMap_cons, hs]
        exact ihf
    | free =>
      constructor
      · show (wandColIdxs (l :: rest)).Nodup
        unfold wandColIdxs
        rw [List.filterMap_cons, hs]
        exact ihc
      · show (wandFreeIdxs (l :: rest)).Nodup
        unfold wandFreeIdxs
        rw [List.filterMap_cons, hs]
        dsimp only
        rw [List.nodup_cons]
        refine ⟨?_, ihf⟩
        intro hmem
        obtain ⟨q, hq, hqi⟩ := List.mem_filterMap.mp hmem
        cases hqs : q.source with
        | col =>
          rw [hqs] at hqi
          exact Option.noConfusion hqi
        | free =>
          rw [hqs] at hqi
          injection hqi with hqi
          have h1 : cur.freeCells.getD l.index none =
              some (.normal l.color nextRank) := by
            have := hl
            unfold WandHolds at this
            rw [hs] at this
            exact this
          have h2 : cur.freeCells.getD q.index none =
              some (.normal q.color nextRank) := by
            have := hholds q (List.mem_cons_of_mem l hq)
            unfold WandHolds at this
            rw [hqs] at this
            exact this
          rw [hqi] at h2
          have := Option.some.inj (h1.symm.trans h2)
          injection this with hcq hv
          exact hndm (List.mem_map.mpr ⟨q, hq, hcq.symm⟩)

/-- The identifiers consumed by applying the wand locations are exactly
the located next-rank cards. -/
theorem wlocs_sums (cur : GameState) (nextRank : Nat) :
    ∀ (locs : List WandLoc),
    (∀ l ∈ locs, WandHolds cur nextRank l) →
    ((wandColIdxs locs).map fun i => lastBag (cur.columns.getD i [])).sum +
      ((wandFreeIdxs locs).map fun i =>
        cellBag (cur.freeCells.getD i none)).sum =
      (locs.map fun l =>
        ({Card.normal l.color nextRank} : Multiset Card)).sum := by
  intro locs
  induction locs with
  | nil =>
    intro _
    simp [wandColIdxs, wandFreeIdxs]
  | cons l rest ih =>
    intro hholds
    have ihr := ih (fun x hx => hholds x (List.mem_cons_of_mem l hx))
    have hl := hholds l (List.mem_cons_self l rest)
    simp only [List.map_cons, List.sum_cons]
    cases hs : l.source with
    | col =>
      have hidx : wandColIdxs (l :: rest) = l.index :: wandColIdxs rest := by
        unfold wandColIdxs
        rw [List.filterMap_cons, hs]
      have hidx2 : wandFreeIdxs (l :: rest) = wandFreeIdxs rest := by
        unfold wandFreeIdxs
        rw [List.filterMap_cons, hs]
      rw [hidx, hidx2, List.map_cons, List.sum_cons]
      have hlb : lastBag (cur.columns.getD l.index []) =
          {Card.normal l.color nextRank} := by
        unfold lastBag
        have := hl
        unfold WandHolds at this
        rw [hs] at this
        rw [this]
        rfl
      rw [hlb, ← ihr]
      abel
    | free =>
      have hidx : wandFreeIdxs (l :: rest) = l.index :: wandFreeIdxs rest := by
        unfold wandFreeIdxs
        rw [List.filterMap_cons, hs]
      have hidx2 : wandColIdxs (l :: rest) = wandColIdxs rest := by
        unfold wandColIdxs
        rw [List.filterMap_cons, hs]
      rw [hidx, hidx2, List.map_cons, List.sum_cons]
      have hlb : cellBag (cur.freeCells.getD l.index none) =
          {Card.normal l.color nextRank} := by
        have := hl
        unfold WandHolds at this
        rw [hs] at this
        rw [this]
        rfl
      rw [hlb, ← ihr]
      abel

/-- Folding the wand suit updates adds exactly the next-rank cards when
every touched suit is one below and the colors are distinct. -/
theorem wand_founds_bag (nextRank : Nat) :
    ∀ (locs : List WandLoc) (f : Foundations),
    (∀ l ∈ locs, f.getC l.color + 1 = nextRank) →
    (locs.map WandLoc.color).Nodup →
    foundsBag (locs.foldl (fun g l => g.setC l.color nextRank) f) =
      foundsBag f + (locs.map fun l =>
        ({Card.normal l.color nextRank} : Multiset Card)).sum := by
  intro locs
  induction locs with
  | nil =>
    intro f _ _
    simp
  | cons l rest ih =>
    intro f hone hnd
    rw [List.map_cons, List.nodup_cons] at hnd
    obtain ⟨hndm, hndr⟩ := hnd
    have hl := hone l (List.mem_cons_self l rest)
    rw [List.map_cons, List.sum_cons, List.foldl_cons]
    have hbag : foundsBag (f.setC l.color nextRank) =
        foundsBag f + {Card.normal l.color nextRank} := by
      rw [← hl]
      exact foundsBag_setC_succ f l.color
    rw [ih (f.setC l.color nextRank) ?_ hndr, hbag]
    · abel
    · intro x hx
      have hne : l.color ≠ x.color := by
        intro hctr
        exact hndm (List.mem_map.mpr ⟨x, hx, hctr.symm⟩)
      rw [getC_setC_ne f nextRank hne]
      exact hone x (List.mem_cons_of_mem l hx)

/-- The minimum foundation bounds every suit from below. -/
theorem minFound_le (f : Foundations) (c : CardColor) :
    minFound f ≤ f.getC c := by
  cases c
  · exact le_trans (min_le_left _ _) (min_le_left _ _)
  · exact le_trans (min_le_left _ _) (min_le_right _ _)
  · exact min_le_right _ _

/-- One wand round conserves the identifiers. -/
theorem wandRound_bag {cur : GameState} {locs : List WandLoc}
    (hg : gatherWandLocs cur (minFound cur.foundations + 1) = some locs) :
    (fun b : BoardF => colsBag b.cols + cellsBag b.cells + foundsBag b.founds)
      (locs.foldl (applyWandLoc (minFound cur.foundations + 1))
        ⟨cur.columns, cur.freeCells, cur.foundations⟩) =
      colsBag cur.columns + cellsBag cur.freeCells +
        foundsBag cur.foundations := by
  obtain ⟨extra, he1, he2, he3, -⟩ := gatherWandGo_spec [.green, .red, .black]
    (by decide) [] locs hg
  rw [List.nil_append] at he1
  subst he1
  have hholds : ∀ l ∈ locs, WandHolds cur (minFound cur.foundations + 1) l :=
    fun l hl => (he2 l hl).1
  have hone : ∀ l ∈ locs,
      cur.foundations.getC l.color + 1 = minFound cur.foundations + 1 := by
    intro l hl
    have h1 := (he2 l hl).2
    have h2 := minFound_le cur.foundations l.color
    omega
  obtain ⟨hndc, hndf⟩ := wlocs_nodup cur _ locs hholds he3
  rw [wand_fold_decomp]
  dsimp only
  rw [wand_founds_bag _ locs cur.foundations hone he3]
  have hpops := popsOf_bag (wandColIdxs locs) cur.columns hndc
  have hclears := clearsOf_bag (wandFreeIdxs locs) cur.freeCells hndf
  have hsums := wlocs_sums cur _ locs hholds
  rw [← hsums]
  have key : ∀ (P C F CS FS PB CB : Multiset Card), P + CS = PB →
      C + FS = CB → P + C + (F + (CS + FS)) = PB + CB + F := by
    intro P C F CS FS PB CB h1 h2
    rw [← h1, ← h2]
    abel
  exact key _ _ _ _ _ _ _ hpops hclears

/-- The wand loop conserves the identifiers. -/
theorem wandGo_bag : ∀ (fuel : Nat) (cur : GameState),
    cardBag (wandGo fuel cur).1 = cardBag cur := by
  intro fuel
  induction fuel with
  | zero => intro cur; rfl
  | succ n ih =>
    intro cur
    unfold wandGo
    dsimp only
    by_cases h9 : minFound cur.foundations + 1 > 9
    · rw [if_pos h9]
    · rw [if_neg h9]
      cases hg : gatherWandLocs cur (minFound cur.foundations + 1) with
      | none => rfl
      | some locations =>
        dsimp only
        by_cases hE : locations.isEmpty = true
        · rw [if_pos hE]
        · rw [if_neg hE]
          show cardBag (wandGo n _).1 = cardBag cur
          rw [ih]
          show cardBag _ = cardBag cur
          have := wandRound_bag hg
          exact this

/-- The auto-solver preserves the invariant. -/
theorem performWandMove_inv {S : GameState} (hS : Inv S) :
    Inv (performWandMove S) := by
  obtain ⟨hdev, hbag, hhist⟩ := hS
  rcases performWandMove_spec S with heq | ⟨-, -, heq⟩
  · rw [heq]
    exact ⟨hdev, hbag, hhist⟩
  · rw [heq]
    refine autoMoveOnes_inv ?_ ?_ ?_
    · show (wandGo 10 S).1.devMode = false
      rw [(wandGo_fields 10 S).2.2.2.1]
      exact hdev
    · show cardBag (wandGo 10 S).1 = deckBag
      rw [wandGo_bag 10 S, hbag]
    · intro p hp
      rcases List.mem_append.mp hp with hp | hp
      · exact hhist p hp
      · have heq2 : p = mkSnapshot S false := by simpa using hp
        subst heq2
        exact ⟨hdev, by rw [snapBag_mkSnapshot, hbag]⟩

/-- The undo loop only restores clean snapshots over clean states. -/
theorem undoGo_pres : ∀ (fuel : Nat) (st : GameState) (p : Snapshot),
    st.devMode = false → cardBag st = deckBag →
    (∀ q ∈ st.history, q.devMode = false ∧ snapBag q = deckBag) →
    Inv (undoGo fuel st p) := by
  intro fuel
  induction fuel with
  | zero =>
    intro st p h1 h2 h3
    exact ⟨h1, h2, h3⟩
  | succ n ih =>
    intro st p h1 h2 h3
    unfold undoGo
    by_cases hc : p.isAuto = true ∧ st.history ≠ []
    · rw [if_pos hc]
      cases hgl : st.history.getLast? with
      | none => exact ⟨h1, h2, h3⟩
      | some p2 =>
        dsimp only
        have hp2 := h3 p2 (mem_of_getLast? hgl)
        refine ih (applySnap st st.history.dropLast p2) p2 ?_ ?_ ?_
        · exact hp2.1
        · exact hp2.2
        · intro q hq
          exact h3 q ((List.dropLast_sublist st.history).subset hq)
    · rw [if_neg hc]
      exact ⟨h1, h2, h3⟩

/-- Undo preserves the invariant: it restores a clean snapshot. -/
theorem undo_inv {S : GameState} (hS : Inv S) : Inv (undo S) := by
  obtain ⟨hdev, hbag, hhist⟩ := hS
  unfold undo
  cases hl : S.history.getLast? with
  | none => exact ⟨hdev, hbag, hhist⟩
  | some previous =>
    dsimp only
    unfold undoWhile
    have hprev := hhist previous (mem_of_getLast? hl)
    refine undoGo_pres _ _ _ ?_ ?_ ?_
    · exact hprev.1
    · exact hprev.2
    · intro q hq
      exact hhist q ((List.dropLast_sublist S.history).subset hq)

/-- The auto-move trigger preserves the invariant. -/
theorem triggerAutoMove_inv {S : GameState} (now : Int) (hS : Inv S) :
    Inv (triggerAutoMove S now) := by
  obtain ⟨hdev, hbag, hhist⟩ := hS
  unfold triggerAutoMove
  by_cases hgate : S.status ≠ GameStatus.playing ∧ S.devMode = false
  · rw [if_pos hgate]
    exact ⟨hdev, hbag, hhist⟩
  · rw [if_neg hgate]
    dsimp only
    by_cases ht : ¬S.timerRunning = true ∧ S.status = GameStatus.playing
    · rw [if_pos ht]
      exact autoMoveOnes_inv hdev hbag hhist
    · rw [if_neg ht]
      exact autoMoveOnes_inv hdev hbag hhist

/-- The dealing fold scatters exactly the dealt cards over the columns. -/
theorem dealFold_bag : ∀ (l : List (Nat × Card)) (cols : List (List Card)),
    cols.length = 8 →
    colsBag (l.foldl
      (fun cs p => cs.set (p.1 % 8) (cs.getD (p.1 % 8) [] ++ [p.2])) cols) =
      colsBag cols + (l.map fun p => cardExpand p.2).sum := by
  intro l
  induction l with
  | nil =>
    intro cols _
    simp
  | cons p rest ih =>
    intro cols hlen
    rw [List.foldl_cons, List.map_cons, List.sum_cons]
    have hi : p.1 % 8 < cols.length := by
      rw [hlen]
      exact Nat.mod_lt _ (by omega)
    have hstep : colsBag (cols.set (p.1 % 8)
        (cols.getD (p.1 % 8) [] ++ [p.2])) =
        colsBag cols + cardExpand p.2 := by
      have hset := mapSum_set_m colBag cols (p.1 % 8)
        (cols.getD (p.1 % 8) [] ++ [p.2]) hi
      have hget : cols.get ⟨p.1 % 8, hi⟩ = cols.getD (p.1 % 8) [] := by
        rw [List.getD_eq_getElem _ _ hi]
        exact List.get_eq_getElem _ _
      rw [hget, colBag_append, colBag_single] at hset
      have hset2 : colsBag (cols.set (p.1 % 8)
          (cols.getD (p.1 % 8) [] ++ [p.2])) + colBag (cols.getD (p.1 % 8) []) =
          colsBag cols + (colBag (cols.getD (p.1 % 8) []) + cardExpand p.2) :=
        hset
      refine add_right_cancel (?_ : _ + colBag (cols.getD (p.1 % 8) []) = _ + _)
      rw [hset2]
      abel
    rw [ih _ (by rw [List.length_set]; exact hlen), hstep]
    abel

/-- A permutation of the deck deals to exactly the deck bag. -/
theorem dealColumns_bag {deck : List Card} (hperm : deck.Perm deckList) :
    colsBag (dealColumns deck) = deckBag := by
  unfold dealColumns
  rw [dealFold_bag deck.enum (List.replicate 8 []) (by simp)]
  have hrep : colsBag (List.replicate 8 []) = 0 := by
    unfold colsBag
    rw [List.map_replicate, show colBag [] = 0 from rfl, List.sum_replicate,
      smul_zero]
  rw [hrep, zero_add]
  have hmm : (deck.enum.map fun p => cardExpand p.2) = deck.map cardExpand := by
    rw [show (fun p : Nat × Card => cardExpand p.2) =
      (cardExpand ∘ Prod.snd) from rfl, ← List.map_map, List.enum_map_snd]
  rw [hmm]
  have hnl : ∀ c ∈ deck, c.isLockedB = false := by
    intro c hc
    have hcd : c ∈ deckList := hperm.subset hc
    have : ∀ x ∈ deckList, x.isLockedB = false := by decide
    exact this c hcd
  have hmap : deck.map cardExpand = deck.map fun c => ({c} : Multiset Card) :=
    List.map_congr_left (fun c hc => cardExpand_single (hnl c hc))
  rw [hmap, singletonSum (fun c => c) deck]
  rw [show deck.map (fun c => c) = deck from List.map_id _]
  exact Multiset.coe_eq_coe.mpr hperm

/-- A fresh deal from a permuted deck satisfies the invariant. -/
theorem newGame_inv (base : GameState) {deck : List Card}
    (hdev : base.devMode = false) (hperm : deck.Perm deckList) :
    Inv (newGame base deck) := by
  refine ⟨hdev, ?_, ?_⟩
  · show colsBag (dealColumns deck) + cellsBag [none, none, none] +
      foundsBag ⟨0, 0, 0, false⟩ = deckBag
    rw [show cellsBag [none, none, none] = 0 from by simp [cellsBag, cellBag]]
    rw [show foundsBag ⟨0, 0, 0, false⟩ = 0 from by
      simp [foundsBag, foundColorBag]]
    rw [add_zero, add_zero]
    exact dealColumns_bag hperm
  · intro p hp
    exact absurd hp (List.not_mem_nil p)

/-- States reachable from a fresh deal by the engine commands, with every
`moveCard` target a well-formed identifier (the `free-` target whose index
parses to `NaN` is excluded: it destroys the addressed card). -/
inductive Reachable : GameState → Prop
  | init (base : GameState) (deck : List Card) (hdev : base.devMode = false)
      (hperm : deck.Perm deckList) : Reachable (newGame base deck)
  | move {S : GameState} (cid : Card) (t : Target) (sk : Bool) (now : Int)
      (hS : Reachable S) (ht : t ≠ Target.free none) :
      Reachable (moveCardRun S cid t sk now)
  | collect {S : GameState} (color : CardColor) (hS : Reachable S) :
      Reachable (collectDragons S color)
  | wand {S : GameState} (hS : Reachable S) : Reachable (performWandMove S)
  | auto {S : GameState} (now : Int) (hS : Reachable S) :
      Reachable (triggerAutoMove S now)
  | undoStep {S : GameState} (hS : Reachable S) : Reachable (undo S)

/-- Every reachable state satisfies the conservation invariant. -/
theorem reachable_inv {S : GameState} (h : Reachable S) : Inv S := by
  induction h with
  | init base deck hdev hperm => exact newGame_inv base hdev hperm
  | move cid t sk now hS ht ih => exact moveCardRun_inv ih ht
  | collect color hS ih => exact collectDragons_inv color ih
  | wand hS ih => exact performWandMove_inv ih
  | auto now hS ih => exact triggerAutoMove_inv now ih
  | undoStep hS ih => exact undo_inv ih

/-! ## Claim C1 -/

/-- Claim C1, counterexample: from a fresh deal, a single `moveCard` whose
target id parses to the `NaN` cell index (e.g. `free-x`) commits a changed
state in which the addressed card has vanished — the JS write `cells[NaN]`
stores nothing in the array — so the 40-card conservation law fails for
arbitrary command sequences. -/
theorem c1_counterexample :
    (cardBag (moveCardRun (newGame stateA deckList) (.dragon .red 1)
      (.free none) true 0)).count (.dragon .red 1) = 0 ∧
    deckBag.count (.dragon .red 1) = 1 ∧
    moveCardRun (newGame stateA deckList) (.dragon .red 1)
      (.free none) true 0 ≠ newGame stateA deckList := by
  refine ⟨by decide, by decide, by decide⟩

/-- Claim C1 (amended): card conservation holds for every state reachable
from a fresh deal by `moveCard`, `collectDragons`, `performWandMove`,
`triggerAutoMove` and `undo` outside `devMode`, provided every `moveCard`
target is a well-formed identifier (excluding the malformed `free-` id
whose index parses to `NaN`): counting a locked marker as the four dragons
of its color, each suit counter as its played ranks and the flower flag as
the flower, every one of the 40 deck identifiers occurs exactly once and
nothing else occurs. -/
theorem c1_card_conservation {S : GameState} (h : Reachable S) :
    (∀ x ∈ deckList, (cardBag S).count x = 1) ∧
    (∀ x : Card, x ∉ deckList → (cardBag S).count x = 0) := by
  have hbag := (reachable_inv h).2.1
  have hnd : deckList.Nodup := by decide
  constructor
  · intro x hx
    rw [hbag]
    show Multiset.count x (deckList : Multiset Card) = 1
    rw [Multiset.coe_count]
    exact List.count_eq_one_of_mem hnd hx
  · intro x hx
    rw [hbag]
    show Multiset.count x (deckList : Multiset Card) = 0
    rw [Multiset.coe_count]
    exact List.count_eq_zero_of_not_mem hx

/-- Claim C1, witness: on the identity-permutation deal the flower occurs
exactly once and no marker identifier occurs. -/
theorem c1_witness :
    (cardBag (newGame stateA deckList)).count Card.flower = 1 ∧
    (cardBag (newGame stateA deckList)).count (.lockedDragon .green) = 0 :=
  ⟨(c1_card_conservation
      (Reachable.init stateA deckList rfl (List.Perm.refl _))).1
      Card.flower (by decide),
    (c1_card_conservation
      (Reachable.init stateA deckList rfl (List.Perm.refl _))).2
      (.lockedDragon .green) (by decide)⟩

/-- Result analysis of the cascade launched from a playing state: the
result is `won` exactly when its own foundations and dragons pass the win
check, and a win clears the timer. -/
theorem autoMoveOnes_won_iff {M : GameState} (hM : M.status = .playing) :
    ((autoMoveOnes M).status = .won ↔
      winCondF (autoMoveOnes M).foundations (autoMoveOnes M).dragons = true) ∧
    ((autoMoveOnes M).status = .won → (autoMoveOnes M).timerRunning = false) := by
  obtain ⟨-, -, -, -, hstat, -⟩ := autoMoveGo_spec (M.foundations.green == 9 &&
    M.foundations.red == 9 && M.foundations.black == 9) (boardCount M + 1) M
  unfold autoMoveOnes autoMoveLoop
  dsimp only
  by_cases hw : winCondF
      (autoMoveGo (M.foundations.green == 9 && M.foundations.red == 9 &&
        M.foundations.black == 9) (boardCount M + 1) M).foundations
      (autoMoveGo (M.foundations.green == 9 && M.foundations.red == 9 &&
        M.foundations.black == 9) (boardCount M + 1) M).dragons = true
  · rw [if_pos hw]
    exact ⟨⟨fun _ => hw, fun _ => rfl⟩, fun _ => rfl⟩
  · rw [if_neg hw]
    constructor
    · constructor
      · intro hst
        rw [hstat, hM] at hst
        exact GameStatus.noConfusion hst
      · intro hwc
        exact absurd hwc hw
    · intro hst
      rw [hstat, hM] at hst
      exact GameStatus.noConfusion hst

/-- A cascade started on an already-won board within the deck finds no
move: it only re-applies the win check, clearing the timer. -/
theorem autoMoveOnes_of_won {M : GameState} (hb : cardBag M ≤ deckBag)
    (hw : winCondF M.foundations M.dragons = true) :
    autoMoveOnes M = { M with status := .won, timerRunning := false } := by
  unfold autoMoveOnes autoMoveLoop
  dsimp only
  have hempty := win_no_moves hb hw (M.foundations.green == 9 &&
    M.foundations.red == 9 && M.foundations.black == 9)
  have hloop : autoMoveGo (M.foundations.green == 9 &&
      M.foundations.red == 9 && M.foundations.black == 9)
      (boardCount M + 1) M = M := by
    unfold autoMoveGo
    rw [if_pos (by rw [hempty]; rfl)]
  rw [hloop, if_pos hw]

/-! ## Claim C3 -/

/-- Claim C3: on a non-`devMode` state whose bag is within the deck, each
of the four mutating commands that actually changes the state yields `won`
exactly when the resulting foundations hold 9-9-9 plus the flower and all
three dragons are collected, and a `won` result has the timer flag
cleared. -/
theorem c3_win_predicate {S : GameState}
    (hdev : S.devMode = false) (hb : cardBag S ≤ deckBag) :
    (∀ cid t sk now, moveCardRun S cid t sk now ≠ S →
      ((moveCardRun S cid t sk now).status = .won ↔
        winCondF (moveCardRun S cid t sk now).foundations
          (moveCardRun S cid t sk now).dragons = true) ∧
      ((moveCardRun S cid t sk now).status = .won →
        (moveCardRun S cid t sk now).timerRunning = false)) ∧
    (∀ color, collectDragons S color ≠ S →
      ((collectDragons S color).status = .won ↔
        winCondF (collectDragons S color).foundations
          (collectDragons S color).dragons = true) ∧
      ((collectDragons S color).status = .won →
        (collectDragons S color).timerRunning = false)) ∧
    (performWandMove S ≠ S →
      ((performWandMove S).status = .won ↔
        winCondF (performWandMove S).foundations
          (performWandMove S).dragons = true) ∧
      ((performWandMove S).status = .won →
        (performWandMove S).timerRunning = false)) ∧
    (∀ now, triggerAutoMove S now ≠ S →
      ((triggerAutoMove S now).status = .won ↔
        winCondF (triggerAutoMove S now).foundations
          (triggerAutoMove S now).dragons = true) ∧
      ((triggerAutoMove S now).status = .won →
        (triggerAutoMove S now).timerRunning = false)) := by
  refine ⟨?_, ?_, ?_, ?_⟩
  · intro cid t sk now hne
    rcases moveCardE_spec S cid t sk now with hok |
      ⟨-, -, -, -, -, -, -, herr⟩ |
      ⟨hgate, src, c1, ce1, cm, nc, nf, nfo, hsrc, hinv, hprep, happ, heq⟩
    · exact absurd (by unfold moveCardRun; rw [hok]) hne
    · exact absurd (by unfold moveCardRun; rw [herr]) hne
    · have hplay : S.status = GameStatus.playing := by
        by_contra hc
        exact hgate ⟨hc, hdev⟩
      have hsplit := movePrep_bag hsrc hprep
      have hXB : colsBag c1 + cellsBag ce1 + colBag cm +
          foundsBag S.foundations = cardBag S := by
        unfold cardBag
        rw [← hsplit]
      have hble : colsBag c1 + cellsBag ce1 + colBag cm +
          foundsBag S.foundations ≤ deckBag := by
        rw [hXB]
        exact hb
      have hMle : cardBag (moveCommit S now nc nf nfo) ≤ deckBag := by
        rw [cardBag_moveCommit]
        refine le_trans (moveApply_bag_le hdev hble happ) ?_
        rw [hXB]
        exact hb
      have hrun : moveCardRun S cid t sk now =
          (if sk then moveCommit S now nc nf nfo
           else autoMoveOnes (moveCommit S now nc nf nfo)) := by
        unfold moveCardRun
        rw [heq]
      by_cases hsk : sk = true
      · subst hsk
        rw [if_pos rfl] at hrun
        rw [hrun]
        by_cases hwc : winCondF nfo S.dragons = true
        · have hst : (moveCommit S now nc nf nfo).status = .won := by
            unfold moveCommit
            dsimp only
            rw [if_pos hwc]
          have htm : (moveCommit S now nc nf nfo).timerRunning = false := by
            unfold moveCommit
            dsimp only
            rw [if_pos hwc]
          exact ⟨⟨fun _ => hwc, fun _ => hst⟩, fun _ => htm⟩
        · have hst : (moveCommit S now nc nf nfo).status = .playing := by
            unfold moveCommit
            dsimp only
            rw [if_neg hwc]
            exact hplay
          constructor
          · constructor
            · intro h2
              rw [hst] at h2
              exact GameStatus.noConfusion h2
            · intro h2
              exact absurd h2 hwc
          · intro h2
            rw [hst] at h2
            exact GameStatus.noConfusion h2
      · rw [if_neg hsk] at hrun
        rw [hrun]
        by_cases hwc : winCondF nfo S.dragons = true
        · rw [autoMoveOnes_of_won hMle hwc]
          exact ⟨⟨fun _ => hwc, fun _ => rfl⟩, fun _ => rfl⟩
        · have hMst : (moveCommit S now nc nf nfo).status = .playing := by
            unfold moveCommit
            dsimp only
            rw [if_neg hwc]
            exact hplay
          exact autoMoveOnes_won_iff hMst
  · intro color hne
    rcases collectDragons_spec S color with heq |
      ⟨locs, tIdx, hgate, -, -, -, -, heq⟩
    · exact absurd heq hne
    · have hplay : S.status = GameStatus.playing := by
        by_contra hc
        exact hgate ⟨hc, hdev⟩
      rw [heq]
      exact autoMoveOnes_won_iff hplay
  · intro hne
    rcases performWandMove_spec S with heq | ⟨hgate, -, heq⟩
    · exact absurd heq hne
    · have hplay : S.status = GameStatus.playing := by
        by_contra hc
        exact hgate ⟨hc, hdev⟩
      rw [heq]
      have hcurst : (wandLoop S).1.status = GameStatus.playing := by
        show (wandGo 10 S).1.status = _
        rw [(wandGo_fields 10 S).2.1]
        exact hplay
      by_cases hwc : winCondF (wandLoop S).1.foundations
          (wandLoop S).1.dragons = true
      · have hMle : cardBag { (wandLoop S).1 with
            history := S.history ++ [mkSnapshot S false],
            status := if winCondF (wandLoop S).1.foundations
              (wandLoop S).1.dragons then GameStatus.won
              else (wandLoop S).1.status } ≤ deckBag := by
          show cardBag (wandGo 10 S).1 ≤ deckBag
          rw [wandGo_bag 10 S]
          exact hb
        rw [autoMoveOnes_of_won hMle (by exact hwc)]
        exact ⟨⟨fun _ => by exact hwc, fun _ => rfl⟩, fun _ => rfl⟩
      · refine autoMoveOnes_won_iff ?_
        show (if winCondF (wandLoop S).1.foundations
          (wandLoop S).1.dragons = true then GameStatus.won
          else (wandLoop S).1.status) = GameStatus.playing
        rw [if_neg hwc]
        exact hcurst
  · intro now hne
    unfold triggerAutoMove at hne ⊢
    by_cases hgate : S.status ≠ GameStatus.playing ∧ S.devMode = false
    · rw [if_pos hgate] at hne
      exact absurd rfl hne
    · rw [if_neg hgate]
      have hplay : S.status = GameStatus.playing := by
        by_contra hc
        exact hgate ⟨hc, hdev⟩
      dsimp only
      by_cases ht : ¬S.timerRunning = true ∧ S.status = GameStatus.playing
      · rw [if_pos ht]
        exact autoMoveOnes_won_iff (by exact hplay)
      · rw [if_neg ht]
        exact autoMoveOnes_won_iff hplay

/-- Claim C3, witness: the cascade triggered on a fresh deal moves only
the flower, so the changed result is not `won`. -/
theorem c3_witness :
    (triggerAutoMove (newGame stateA deckList) 0).status ≠ GameStatus.won := by
  have h := (@c3_win_predicate (newGame stateA deckList) (by decide)
    (le_of_eq (by decide))).2.2.2 0 (by decide)
  intro hst
  have h2 := h.1.mp hst
  rw [show winCondF (triggerAutoMove (newGame stateA deckList) 0).foundations
    (triggerAutoMove (newGame stateA deckList) 0).dragons = false from by
      decide] at h2
  exact Bool.noConfusion h2

/-- Reading the just-written dragon flag. -/
theorem dragons_getC_setC_self (d : Dragons) (c : CardColor) (v : Nat) :
    (d.setC c v).getC c = v := by
  cases c <;> rfl

/-- Outside `devMode`, a dragon that cannot be found aborts the gather. -/
theorem gatherDragonLocs_none {s : GameState} (hdev : s.devMode = false) :
    ∀ (ds : List Card), (∃ d ∈ ds, findDragon s d = none) →
    gatherDragonLocs s ds = none := by
  intro ds
  induction ds with
  | nil =>
    rintro ⟨d, hd, -⟩
    simp at hd
  | cons d rest ih =>
    rintro ⟨d2, hd2, hf2⟩
    unfold gatherDragonLocs
    rcases List.mem_cons.mp hd2 with rfl | hd2
    · rw [hf2]
      dsimp only
      rw [hdev]
      rfl
    · cases hf : findDragon s d with
      | none =>
        dsimp only
        rw [hdev]
        rfl
      | some loc =>
        dsimp only
        rw [ih ⟨d2, hd2, hf2⟩]
        rfl

/-- Two board occurrences exceed the deck bound. -/
theorem count_two_board {S : GameState} (hb : cardBag S ≤ deckBag) (x : Card)
    (h2 : 2 ≤ (colsBag S.columns).count x + (cellsBag S.freeCells).count x) :
    False := by
  have hd := Multiset.count_le_of_le x hb
  unfold cardBag at hd
  rw [Multiset.count_add, Multiset.count_add] at hd
  have := deckBag_count_le_one x
  omega

/-- A card somewhere in a column counts into its column bag. -/
theorem count_colBag_pos {col : List Card} {c x : Card} (hc : c ∈ col)
    (hx : x ∈ cardExpand c) : 0 < (colBag col).count x :=
  Multiset.count_pos.mpr (mem_listSum (List.mem_map.mpr ⟨c, hc, rfl⟩) hx)

/-- A card in a cell counts into its cell bag. -/
theorem count_cellBag_pos {cells : List (Option Card)} {j : Nat} {c x : Card}
    (hc : cells.getD j none = some c) (hx : x ∈ cardExpand c) :
    0 < (cellBag (cells.getD j none)).count x := by
  rw [hc]
  exact Multiset.count_pos.mpr hx

/-- Each member of a list pairs with a location in the zip. -/
theorem exists_zip_pair {ds : List Card} {locs : List DLoc}
    (hlen : locs.length = ds.length) {d : Card} (hd : d ∈ ds) :
    ∃ loc, (d, loc) ∈ ds.zip locs := by
  obtain ⟨k, hk, hdk⟩ := List.mem_iff_getElem.mp hd
  refine ⟨locs.get ⟨k, by omega⟩, ?_⟩
  rw [List.mem_iff_getElem]
  refine ⟨k, by rw [List.length_zip]; omega, ?_⟩
  rw [List.getElem_zip, hdk, List.get_eq_getElem]

/-- The free index of a zipped pair is collected. -/
theorem mem_freeLocIdxs_of_pair {ps : List (Card × DLoc)} {d : Card} {i : Nat}
    (hp : (d, DLoc.free i) ∈ ps) : i ∈ freeLocIdxs (ps.map Prod.snd) := by
  unfold freeLocIdxs
  exact List.mem_filterMap.mpr
    ⟨DLoc.free i, List.mem_map.mpr ⟨(d, .free i), hp, rfl⟩, rfl⟩

/-- The column index of a zipped pair is collected. -/
theorem mem_colLocIdxs_of_pair {ps : List (Card × DLoc)} {d : Card} {i : Nat}
    (hp : (d, DLoc.col i) ∈ ps) : i ∈ colLocIdxs (ps.map Prod.snd) := by
  unfold colLocIdxs
  exact List.mem_filterMap.mpr
    ⟨DLoc.col i, List.mem_map.mpr ⟨(d, .col i), hp, rfl⟩, rfl⟩

/-- The cascade loop never brings a card back to the board. -/
theorem autoMoveGo_absent (isFull : Bool) : ∀ (fuel : Nat) (s : GameState)
    (d : Card),
    (∀ j, d ∉ s.columns.getD j []) →
    (∀ j, s.freeCells.getD j none ≠ some d) →
    (∀ j, d ∉ (autoMoveGo isFull fuel s).columns.getD j []) ∧
      (∀ j, (autoMoveGo isFull fuel s).freeCells.getD j none ≠ some d) := by
  intro fuel
  induction fuel with
  | zero =>
    intro s d h1 h2
    exact ⟨h1, h2⟩
  | succ n ih =>
    intro s d h1 h2
    unfold autoMoveGo
    by_cases he : (passMoves isFull s).isEmpty = true
    · rw [if_pos he]
      exact ⟨h1, h2⟩
    · rw [if_neg he]
      refine ih (passStep isFull s) d ?_ ?_
      · intro j
        rw [(passStep_board isFull s).1, if_neg he,
          popsOf_getD _ _ (nodup_colIdxs isFull s) j]
        by_cases hj : j ∈ colIdxs (passMoves isFull s)
        · rw [if_pos hj]
          intro hmem
          exact h1 j ((List.dropLast_sublist _).subset hmem)
        · rw [if_neg hj]
          exact h1 j
      · intro j
        rw [(passStep_board isFull s).2.1, if_neg he,
          clearsOf_getD _ _ (nodup_freeIdxs isFull s) j]
        by_cases hj : j ∈ freeIdxs (passMoves isFull s)
        · rw [if_pos hj]
          exact fun h => Option.noConfusion h
        · rw [if_neg hj]
          exact h2 j

/-- The cascade never brings a card back to the board. -/
theorem autoMoveOnes_absent {s : GameState} {d : Card}
    (h1 : ∀ j, d ∉ s.columns.getD j []) (h2 : ∀ j, s.freeCells.getD j none ≠ some d) :
    (∀ j, d ∉ (autoMoveOnes s).columns.getD j []) ∧
      (∀ j, (autoMoveOnes s).freeCells.getD j none ≠ some d) := by
  unfold autoMoveOnes autoMoveLoop
  dsimp only
  obtain ⟨ha1, ha2⟩ := autoMoveGo_absent (s.foundations.green == 9 &&
    s.foundations.red == 9 && s.foundations.black == 9)
    (boardCount s + 1) s d h1 h2
  by_cases hw : winCondF
      (autoMoveGo (s.foundations.green == 9 && s.foundations.red == 9 &&
        s.foundations.black == 9) (boardCount s + 1) s).foundations
      (autoMoveGo (s.foundations.green == 9 && s.foundations.red == 9 &&
        s.foundations.black == 9) (boardCount s + 1) s).dragons = true
  · rw [if_pos hw]
    exact ⟨ha1, ha2⟩
  · rw [if_neg hw]
    exact ⟨ha1, ha2⟩

/-- A marker parked in a cell survives the cascade loop. -/
theorem autoMoveGo_marker (isFull : Bool) : ∀ (fuel : Nat) (s : GameState)
    (j : Nat) (c : CardColor),
    s.freeCells.getD j none = some (.lockedDragon c) →
    (autoMoveGo isFull fuel s).freeCells.getD j none =
      some (.lockedDragon c) := by
  intro fuel
  induction fuel with
  | zero =>
    intro s j c h
    exact h
  | succ n ih =>
    intro s j c h
    unfold autoMoveGo
    by_cases he : (passMoves isFull s).isEmpty = true
    · rw [if_pos he]
      exact h
    · rw [if_neg he]
      refine ih (passStep isFull s) j c ?_
      rw [(passStep_board isFull s).2.1, if_neg he,
        clearsOf_getD _ _ (nodup_freeIdxs isFull s) j]
      by_cases hj : j ∈ freeIdxs (passMoves isFull s)
      · exfalso
        obtain ⟨-, htriv⟩ := (mem_freeIdxs_iff isFull s j).mp hj
        rw [h] at htriv
        exact Bool.noConfusion htriv
      · rw [if_neg hj]
        exact h

/-- A marker parked in a cell survives the cascade. -/
theorem autoMoveOnes_marker {s : GameState} {j : Nat} {c : CardColor}
    (h : s.freeCells.getD j none = some (.lockedDragon c)) :
    (autoMoveOnes s).freeCells.getD j none = some (.lockedDragon c) := by
  unfold autoMoveOnes autoMoveLoop
  dsimp only
  have ha := autoMoveGo_marker (s.foundations.green == 9 &&
    s.foundations.red == 9 && s.foundations.black == 9)
    (boardCount s + 1) s j c h
  by_cases hw : winCondF
      (autoMoveGo (s.foundations.green == 9 && s.foundations.red == 9 &&
        s.foundations.black == 9) (boardCount s + 1) s).foundations
      (autoMoveGo (s.foundations.green == 9 && s.foundations.red == 9 &&
        s.foundations.black == 9) (boardCount s + 1) s).dragons = true
  · rw [if_pos hw]
    exact ha
  · rw [if_neg hw]
    exact ha

/-- After removing the located dragons and writing the marker, no dragon
identifier of the collected color remains on the board: each one sat
exactly at its found location, by the deck bound. -/
theorem collect_removes {S : GameState} {color : CardColor}
    {locs : List DLoc} (tIdx : Nat)
    (hdev : S.devMode = false) (hb : cardBag S ≤ deckBag)
    (hg : gatherDragonLocs S (dragonIds color) = some locs)
    (d : Card) (hd : d ∈ dragonIds color) :
    (∀ j, d ∉ (removeDLocs locs (S.columns, S.freeCells)).1.getD j []) ∧
    (∀ j, ((removeDLocs locs (S.columns, S.freeCells)).2.set tIdx
      (some (.lockedDragon color))).getD j none ≠ some d) := by
  obtain ⟨hlen, hall⟩ := gatherDragonLocs_spec hdev (dragonIds color) locs hg
  have hmapsnd : ((dragonIds color).zip locs).map Prod.snd = locs :=
    List.map_snd_zip _ _ (le_of_eq hlen)
  have hmapfst : ((dragonIds color).zip locs).map Prod.fst = dragonIds color :=
    List.map_fst_zip _ _ (le_of_eq hlen.symm)
  have hndfst : (((dragonIds color).zip locs).map Prod.fst).Nodup := by
    rw [hmapfst]
    cases color <;> decide
  obtain ⟨hndc, hndf⟩ := dlocs_nodup S.columns S.freeCells
    ((dragonIds color).zip locs) (fun p hp => hall p hp) hndfst
  rw [hmapsnd] at hndc hndf
  obtain ⟨loc, hploc⟩ := exists_zip_pair hlen hd
  have hdd := hall (d, loc) hploc
  have hshape : ∃ i2, d = Card.dragon color i2 := by
    simp only [dragonIds, List.mem_cons, List.not_mem_nil, or_false] at hd
    rcases hd with h | h | h | h
    exacts [⟨0, h⟩, ⟨1, h⟩, ⟨2, h⟩, ⟨3, h⟩]
  obtain ⟨i2, hdshape⟩ := hshape
  have hdx : d ∈ cardExpand d := by
    rw [hdshape]
    simp [cardExpand]
  have hmarker : ∀ j, (((removeDLocs locs (S.columns, S.freeCells)).2.set tIdx
      (some (.lockedDragon color))).getD j none ≠ some d) ∨
      (j ≠ tIdx ∧ ((removeDLocs locs (S.columns, S.freeCells)).2.set tIdx
        (some (.lockedDragon color))).getD j none =
        (removeDLocs locs (S.columns, S.freeCells)).2.getD j none) := by
    intro j
    by_cases hjt : j = tIdx
    · subst hjt
      refine Or.inl ?_
      by_cases hrange : j < (removeDLocs locs (S.columns, S.freeCells)).2.length
      · rw [getD_set_eq _ _ _ _ hrange]
        intro hctr
        injection hctr with hctr
        rw [hdshape] at hctr
        exact Card.noConfusion hctr
      · rw [List.set_eq_of_length_le (by omega),
          List.getD_eq_default _ _ (by omega)]
        exact fun h => Option.noConfusion h
    · exact Or.inr ⟨hjt, getD_set_ne _ _ _ (fun h => hjt h.symm)⟩
  cases hloc : loc with
  | free i =>
    rw [hloc] at hdd
    have hcell : S.freeCells.getD i none = some d := hdd
    have habs_col : ∀ j, d ∉ S.columns.getD j [] := by
      intro j hmem
      refine count_two_board hb d ?_
      have h1 := count_colsBag_le S.columns j d
      have h2 := count_cellsBag_le S.freeCells i d
      have h3 := count_colBag_pos hmem hdx
      have h4 := count_cellBag_pos hcell hdx
      omega
    have habs_cell : ∀ j, j ≠ i → S.freeCells.getD j none ≠ some d := by
      intro j hji hmem
      refine count_two_board hb d ?_
      have h2 := count_cellsBag_two S.freeCells hji d
      have h3 := count_cellBag_pos hmem hdx
      have h4 := count_cellBag_pos hcell hdx
      omega
    constructor
    · intro j
      rw [removeDLocs_decomp]
      show d ∉ (popsOf (colLocIdxs locs) S.columns).getD j []
      rw [popsOf_getD _ _ hndc j]
      by_cases hj : j ∈ colLocIdxs locs
      · rw [if_pos hj]
        intro hmem
        exact habs_col j ((List.dropLast_sublist _).subset hmem)
      · rw [if_neg hj]
        exact habs_col j
    · intro j
      rcases hmarker j with hm | ⟨hjt, hm⟩
      · exact hm
      · rw [hm, removeDLocs_decomp]
        show (clearsOf (freeLocIdxs locs) S.freeCells).getD j none ≠ some d
        rw [clearsOf_getD _ _ hndf j]
        by_cases hj : j ∈ freeLocIdxs locs
        · rw [if_pos hj]
          exact fun h => Option.noConfusion h
        · rw [if_neg hj]
          refine habs_cell j ?_
          intro hji
          subst hji
          refine hj ?_
          have := mem_freeLocIdxs_of_pair (by rw [← hloc]; exact hploc)
          rw [hmapsnd] at this
          exact this
  | col i =>
    rw [hloc] at hdd
    have hlast : (S.columns.getD i []).getLast? = some d := hdd
    have hmemi : d ∈ S.columns.getD i [] := mem_of_getLast? hlast
    have habs_cell : ∀ j, S.freeCells.getD j none ≠ some d := by
      intro j hmem
      refine count_two_board hb d ?_
      have h1 := count_colsBag_le S.columns i d
      have h2 := count_cellsBag_le S.freeCells j d
      have h3 := count_colBag_pos hmemi hdx
      have h4 := count_cellBag_pos hmem hdx
      omega
    have habs_col : ∀ j, j ≠ i → d ∉ S.columns.getD j [] := by
      intro j hji hmem
      refine count_two_board hb d ?_
      have h2 := count_colsBag_two S.columns hji d
      have h3 := count_colBag_pos hmem hdx
      have h4 := count_colBag_pos hmemi hdx
      omega
    have habs_drop : d ∉ (S.columns.getD i []).dropLast := by
      intro hmem
      refine count_two_board hb d ?_
      have h1 := count_colsBag_le S.columns i d
      have hsplit := colBag_dropLast (S.columns.getD i [])
      have h3 := count_colBag_pos hmem hdx
      have h4 : 0 < (lastBag (S.columns.getD i [])).count d := by
        unfold lastBag
        rw [hlast]
        exact Multiset.count_pos.mpr hdx
      have h5 : (colBag (S.columns.getD i [])).count d =
          (colBag (S.columns.getD i []).dropLast).count d +
          (lastBag (S.columns.getD i [])).count d := by
        rw [← hsplit, Multiset.count_add]
      omega
    constructor
    · intro j
      rw [removeDLocs_decomp]
      show d ∉ (popsOf (colLocIdxs locs) S.columns).getD j []
      rw [popsOf_getD _ _ hndc j]
      by_cases hj : j ∈ colLocIdxs locs
      · rw [if_pos hj]
        by_cases hji : j = i
        · subst hji
          exact habs_drop
        · intro hmem
          exact habs_col j hji ((List.dropLast_sublist _).subset hmem)
      · rw [if_neg hj]
        by_cases hji : j = i
        · subst hji
          refine absurd ?_ hj
          have := mem_colLocIdxs_of_pair (by rw [← hloc]; exact hploc)
          rw [hmapsnd] at this
          exact this
        · exact habs_col j hji
    · intro j
      rcases hmarker j with hm | ⟨hjt, hm⟩
      · exact hm
      · rw [hm, removeDLocs_decomp]
        show (clearsOf (freeLocIdxs locs) S.freeCells).getD j none ≠ some d
        rw [clearsOf_getD _ _ hndf j]
        by_cases hj : j ∈ freeLocIdxs locs
        · rw [if_pos hj]
          exact fun h => Option.noConfusion h
        · rw [if_neg hj]
          exact habs_cell j

/-! ## Claim C5 -/

/-- Claim C5: outside `devMode`, on a state whose bag is within the deck,
`collectDragons(color)` is a no-op when the color is already collected,
when one of its four dragons cannot be found exposed, or when no target
free cell exists; and whenever it does change the state it is atomic: the
collected flag is set to 1, a locked marker occupies a free cell, and none
of the four dragon identifiers of the color remains anywhere in the
columns or free cells. -/
theorem c5_collect_atomicity {S : GameState} (color : CardColor)
    (hdev : S.devMode = false) (hb : cardBag S ≤ deckBag) :
    (S.dragons.getC color > 0 → collectDragons S color = S) ∧
    ((∃ d ∈ dragonIds color, findDragon S d = none) →
      collectDragons S color = S) ∧
    (∀ locs, gatherDragonLocs S (dragonIds color) = some locs →
      dragonTarget S locs = none → collectDragons S color = S) ∧
    (collectDragons S color ≠ S →
      (collectDragons S color).dragons.getC color = 1 ∧
      (∃ tIdx, tIdx < S.freeCells.length ∧
        (collectDragons S color).freeCells.getD tIdx none =
          some (.lockedDragon color)) ∧
      ∀ d ∈ dragonIds color,
        (∀ j, d ∉ (collectDragons S color).columns.getD j []) ∧
        (∀ j, (collectDragons S color).freeCells.getD j none ≠ some d)) := by
  refine ⟨?_, ?_, ?_, ?_⟩
  · intro hcol
    unfold collectDragons
    by_cases hgate : S.status ≠ GameStatus.playing ∧ S.devMode = false
    · rw [if_pos hgate]
    · rw [if_neg hgate, if_pos hcol]
  · intro hex
    rcases collectDragons_spec S color with heq |
      ⟨locs, tIdx, -, -, hg, -, -, -⟩
    · exact heq
    · rw [gatherDragonLocs_none hdev (dragonIds color) hex] at hg
      exact Option.noConfusion hg
  · intro locs hg ht
    rcases collectDragons_spec S color with heq |
      ⟨locs2, tIdx, -, -, hg2, -, ht2, -⟩
    · exact heq
    · rw [hg] at hg2
      injection hg2 with hg2
      subst hg2
      rw [ht] at ht2
      exact Option.noConfusion ht2
  · intro hne
    rcases collectDragons_spec S color with heq |
      ⟨locs, tIdx, -, -, hg, -, ht, heq⟩
    · exact absurd heq hne
    · obtain ⟨hlen, hall⟩ := gatherDragonLocs_spec hdev (dragonIds color)
        locs hg
      have hmapsnd : ((dragonIds color).zip locs).map Prod.snd = locs :=
        List.map_snd_zip _ _ (le_of_eq hlen)
      have hmapfst : ((dragonIds color).zip locs).map Prod.fst =
          dragonIds color := List.map_fst_zip _ _ (le_of_eq hlen.symm)
      have hndfst : (((dragonIds color).zip locs).map Prod.fst).Nodup := by
        rw [hmapfst]
        cases color <;> decide
      obtain ⟨-, hndf⟩ := dlocs_nodup S.columns S.freeCells
        ((dragonIds color).zip locs) (fun p hp => hall p hp) hndfst
      rw [hmapsnd] at hndf
      have hin := freeLocIdxs_holds hall
      rw [hmapsnd] at hin
      obtain ⟨htlt, htempty⟩ := dragonTarget_spec hndf hin ht
      rw [heq]
      refine ⟨?_, ?_, ?_⟩
      · obtain ⟨-, -, -, -, hdra, -⟩ := autoMoveOnes_spec
          { S with
            columns := (removeDLocs locs (S.columns, S.freeCells)).1,
            freeCells := (removeDLocs locs
              (S.columns, S.freeCells)).2.set tIdx
              (some (.lockedDragon color)),
            dragons := S.dragons.setC color 1,
            history := S.history ++ [mkSnapshot S false] }
        rw [hdra]
        exact dragons_getC_setC_self S.dragons color 1
      · refine ⟨tIdx, htlt, ?_⟩
        refine autoMoveOnes_marker ?_
        show ((removeDLocs locs (S.columns, S.freeCells)).2.set tIdx
          (some (.lockedDragon color))).getD tIdx none =
          some (.lockedDragon color)
        rw [removeDLocs_decomp]
        refine getD_set_eq _ _ _ _ ?_
        rw [clearsOf_length]
        exact htlt
      · intro d hd
        obtain ⟨h1, h2⟩ := collect_removes tIdx hdev hb hg d hd
        exact autoMoveOnes_absent h1 h2

/-- Claim C5, witness: collecting the exposed green dragons of `dragonA`
sets the flag, parks the marker in cell 0 and clears all four green dragon
ids from the board, while collecting red (one exposed red dragon missing)
is a no-op. -/
theorem c5_witness :
    (collectDragons dragonA .green).dragons.getC .green = 1 ∧
    (collectDragons dragonA .green).freeCells.getD 0 none ≠
      some (.dragon .green 0) ∧
    collectDragons dragonA .red = dragonA := by
  have hg := @c5_collect_atomicity dragonA .green (by decide) (by decide)
  have hr := @c5_collect_atomicity dragonA .red (by decide) (by decide)
  refine ⟨?_, ?_, ?_⟩
  · exact (hg.2.2.2 (by decide)).1
  · exact ((hg.2.2.2 (by decide)).2.2 (.dragon .green 0) (by decide)).2 0
  · exact hr.2.1 ⟨.dragon .red 0, by decide, by decide⟩

end Shenzhen
